import Mathlib

/-!
Shallow embedding of `cli-doc-merger` (`src/main.rs`), a PDF merger built on the
`lopdf` library, together with proofs about the claims of its specification.

Conventions:
* `ObjectId` is modelled as a single `Nat` (the object number); the generation
  component of lopdf's `(u32, u16)` pair is 0 throughout the merge pipeline and
  never influences any branch of the program, so it is omitted.
* `f32` payloads (the `Real` object variant, bookmark colors) are carried as
  opaque integer encodings: the merge never computes with them.
* Functions of the external `lopdf` crate (the spec's "Document Codec"), whose
  source is not part of this repository, are modelled from the specification;
  each such definition carries a doc comment starting `Modelled from the spec:`.
* Everything translated from `src/main.rs` keeps the source's names.
-/

namespace PdfMerge

mutual

/-- PDF object: lopdf's `Object` tagged union
(Null/Boolean/Integer/Real/String/Name/Array/Dictionary/Stream/Reference). -/
inductive Object where
  | null
  | boolean (b : Bool)
  | integer (i : Int)
  | real (bits : Int)
  | string (s : String)
  | name (s : String)
  | array (xs : ObjList)
  | dictionary (d : Dict)
  | stream (d : Dict)
  | reference (id : Nat)
  deriving Repr

/-- List of PDF objects (payload of the `Array` variant). -/
inductive ObjList where
  | nil
  | cons (hd : Object) (tl : ObjList)
  deriving Repr

/-- PDF dictionary: insertion-ordered association list of key/object pairs
(lopdf's `Dictionary` over a linked hash map). -/
inductive Dict where
  | nil
  | cons (k : String) (v : Object) (tl : Dict)
  deriving Repr

end

namespace Dict

/-- Lookup of the first binding of a key. -/
def get : Dict → String → Option Object
  | .nil, _ => none
  | .cons k v t, key => if k = key then some v else get t key

/-- Key membership. -/
def hasKey (d : Dict) (key : String) : Bool :=
  (d.get key).isSome

/-- lopdf `Dictionary::set`: replace the value in place if the key is present,
otherwise append the binding at the end. -/
def set : Dict → String → Object → Dict
  | .nil, key, v => .cons key v .nil
  | .cons k w t, key, v => if k = key then .cons k v t else .cons k w (set t key v)

/-- lopdf `Dictionary::remove`: drop the binding of a key. -/
def remove : Dict → String → Dict
  | .nil, _ => .nil
  | .cons k w t, key => if k = key then t else .cons k w (remove t key)

/-- Modelled from the spec: lopdf `Dictionary::extend` (the Codec operation the
classifier uses to fold a later Pages dictionary into the surviving one);
per §4.2 the fold adds the keys absent from the surviving dictionary and the
first-seen value wins on conflict, i.e. every binding of `other` overrides the
one of `self`. -/
def extend (self : Dict) : Dict → Dict
  | .nil => self
  | .cons k v t => extend (self.set k v) t

/-- Keys of a dictionary, in binding order. -/
def keys : Dict → List String
  | .nil => []
  | .cons k _ t => k :: keys t

end Dict

/-- Conversion from a Lean list of bindings, for writing concrete inputs. -/
def Dict.ofList : List (String × Object) → Dict
  | [] => .nil
  | (k, v) :: t => .cons k v (Dict.ofList t)

/-- Conversion from a Lean list of objects, for writing concrete inputs. -/
def ObjList.ofList : List Object → ObjList
  | [] => .nil
  | o :: t => .cons o (ObjList.ofList t)

/-- Length of an object list. -/
def ObjList.length : ObjList → Nat
  | .nil => 0
  | .cons _ t => 1 + ObjList.length t

/-- lopdf `Object::type_name`: the `/Type` name of a dictionary or stream. -/
def Dict.typeName (d : Dict) : Option String :=
  match d.get "Type" with
  | some (.name s) => some s
  | _ => none

/-- lopdf `Object::type_name` (`Err` becomes `none`). -/
def Object.type_name : Object → Option String
  | .dictionary d => d.typeName
  | .stream d => d.typeName
  | _ => none

/-- lopdf `Object::as_dict` (`Err` becomes `none`); only the `Dictionary`
variant exposes its dictionary. -/
def Object.as_dict : Object → Option Dict
  | .dictionary d => some d
  | _ => none

mutual

/-- Rewrite every `Reference` inside an object through an id map (the value
transformation of the Renumbering Pass, §4.1). -/
def renObj (m : Nat → Nat) : Object → Object
  | .reference r => .reference (m r)
  | .array xs => .array (renList m xs)
  | .dictionary d => .dictionary (renDict m d)
  | .stream d => .stream (renDict m d)
  | o => o

/-- Reference rewriting inside an object list. -/
def renList (m : Nat → Nat) : ObjList → ObjList
  | .nil => .nil
  | .cons o t => .cons (renObj m o) (renList m t)

/-- Reference rewriting inside a dictionary. -/
def renDict (m : Nat → Nat) : Dict → Dict
  | .nil => .nil
  | .cons k v t => .cons k (renObj m v) (renDict m t)

end

mutual

/-- References occurring anywhere inside an object. -/
def objRefs : Object → List Nat
  | .reference r => [r]
  | .array xs => listRefs xs
  | .dictionary d => dictRefs d
  | .stream d => dictRefs d
  | _ => []

/-- References occurring anywhere inside an object list. -/
def listRefs : ObjList → List Nat
  | .nil => []
  | .cons o t => objRefs o ++ listRefs t

/-- References occurring anywhere inside a dictionary. -/
def dictRefs : Dict → List Nat
  | .nil => []
  | .cons _ v t => objRefs v ++ dictRefs t

end

/-! ### Sorted object pools (Rust `BTreeMap<ObjectId, Object>`) -/

/-- Object pool: association list ordered strictly by id, the model of
`BTreeMap<ObjectId, Object>`; iteration order is list order. -/
abbrev Pool := List (Nat × Object)

/-- Sortedness invariant of a pool (strictly increasing keys). -/
def poolSorted (p : Pool) : Prop :=
  List.Pairwise (fun a b => a.1 < b.1) p

/-- Keys of a pool in iteration order. -/
def poolKeys (p : Pool) : List Nat :=
  p.map Prod.fst

/-- `BTreeMap` lookup. -/
def poolGet : Pool → Nat → Option Object
  | [], _ => none
  | (k, v) :: t, key => if k = key then some v else poolGet t key

/-- `BTreeMap::insert`: ordered insertion, overwriting an existing binding. -/
def poolInsert : Pool → Nat → Object → Pool
  | [], key, v => [(key, v)]
  | (k, w) :: t, key, v =>
    if key < k then (key, v) :: (k, w) :: t
    else if key = k then (key, v) :: t
    else (k, w) :: poolInsert t key v

/-- `BTreeMap::extend`: insert every binding of the second pool in iteration
order. -/
def poolExtend (p : Pool) : Pool → Pool
  | [] => p
  | (k, v) :: t => poolExtend (poolInsert p k v) t

/-- Build a pool from bindings in iteration order. -/
def poolOfList (l : List (Nat × Object)) : Pool :=
  poolExtend [] l

/-! ### Documents -/

/-- Bookmark record (lopdf `Bookmark`): title, RGB color (opaque `f32`
encodings), format flags and target page id. -/
structure Bookmark where
  title : String
  color : Int × Int × Int
  format : Nat
  page : Nat
  deriving Repr, DecidableEq

/-- Document graph (lopdf `Document`): object pool, trailer, running max id,
bookmark list, plus the page enumeration `pageOrder`.

`pageOrder` — Modelled from the spec: the Codec's page enumeration
(`Document::get_pages`, §4.2/§6 "lists each loaded document's name and page
count") returns the document's page object ids in page-tree order; that
external traversal is carried here as data. -/
structure Document where
  version : String
  objects : Pool
  trailer : Dict
  max_id : Nat
  pageOrder : List Nat
  bookmarks : List Bookmark
  deriving Repr

/-- lopdf `Document::with_version`: an empty document. -/
def Document.with_version (v : String) : Document :=
  ⟨v, [], .nil, 0, [], []⟩

/-- lopdf `Document::get_pages`, keyed iteration in ascending page-number
order: the page ids in page-tree order. -/
def Document.get_pages (d : Document) : List Nat :=
  d.pageOrder

/-- lopdf `Document::get_object` (total version; the merge unwraps it). -/
def Document.get_object (d : Document) (id : Nat) : Option Object :=
  poolGet d.objects id

/-- Id map of the Renumbering Pass: keys of the pool are reassigned densely
from `s` in ascending key order, ids outside the pool are left unchanged
(lopdf builds its replacement map only from present ids). -/
def renumMap (ks : List Nat) (s : Nat) (k : Nat) : Nat :=
  if k ∈ ks then s + (ks.filter (· < k)).length else k

/-- Modelled from the spec: lopdf `Document::renumber_objects_with` (§4.1):
shift every ObjectId of the graph and every Reference anywhere inside it so
the resulting ids are `≥ offset` and dense; the new max id is
`offset + count - 1`. Bookmark targets are rewritten alongside (§4.6
"rewriting every Reference consistently"). -/
def Document.renumber_objects_with (d : Document) (startId : Nat) : Document :=
  let ks := poolKeys d.objects
  let m := renumMap ks startId
  { d with
    objects := d.objects.map (fun kv => (m kv.1, renObj m kv.2))
    trailer := renDict m d.trailer
    pageOrder := d.pageOrder.map m
    bookmarks := d.bookmarks.map (fun b => { b with page := m b.page })
    max_id := startId + d.objects.length - 1 }

/-- Modelled from the spec: lopdf `Document::renumber_objects` (§4.6):
renumber the final pool to a dense, gap-free id sequence starting at 1. -/
def Document.renumber_objects (d : Document) : Document :=
  d.renumber_objects_with 1

/-- lopdf `Document::add_bookmark` with parent `None`: append a top-level
bookmark. -/
def Document.add_bookmark (d : Document) (b : Bookmark) : Document :=
  { d with bookmarks := d.bookmarks ++ [b] }

/-- First id of the pool whose object is Page-typed. -/
def firstPageId (p : Pool) : Option Nat :=
  (p.find? (fun kv => kv.2.type_name = some "Page")).map Prod.fst

/-- Modelled from the spec: lopdf `Document::adjust_zero_pages` (§4.6 "any
bookmark whose target resolves to a null/placeholder page is reassigned to
the nearest valid descendant or sibling page"): a bookmark whose target is the
placeholder id 0 is retargeted to the first Page-typed object of the pool. -/
def Document.adjust_zero_pages (d : Document) : Document :=
  { d with
    bookmarks := d.bookmarks.map (fun b =>
      if b.page = 0 then { b with page := (firstPageId d.objects).getD 0 } else b) }

/-- Outline item dictionary for one bookmark (§4.5): label, parent link,
target, and the `Next` sibling link unless last. -/
def outlineItem (rootId : Nat) (itemId : Nat) (isLast : Bool) (b : Bookmark) : Object :=
  .dictionary (Dict.ofList
    ([("Type", .name "Outline"),
      ("Title", .string b.title),
      ("Parent", .reference rootId),
      ("Dest", .reference b.page)] ++
     (if isLast then [] else [("Next", .reference (itemId + 1))])))

/-- Outline item entries for the bookmark list, with ids `rootId+1`,
`rootId+2`, …. -/
def outlineItems (rootId : Nat) : Nat → List Bookmark → List (Nat × Object)
  | _, [] => []
  | itemId, b :: rest =>
    (itemId, outlineItem rootId itemId rest.isEmpty b) :: outlineItems rootId (itemId + 1) rest

/-- Modelled from the spec: lopdf `Document::build_outline` (§4.5): compile the
accumulated bookmark list into one root `Outlines` dictionary plus one
`Outline` item per bookmark, linked via First/Last/Next/Parent into a
sibling chain, allocated at fresh ids after `max_id`; returns the root id,
or `none` for an empty bookmark list (no object added). -/
def Document.build_outline (d : Document) : Option Nat × Document :=
  match d.bookmarks with
  | [] => (none, d)
  | _ =>
    let rootId := d.max_id + 1
    let count := d.bookmarks.length
    let root : Object := .dictionary (Dict.ofList
      [("Type", .name "Outlines"),
       ("First", .reference (rootId + 1)),
       ("Last", .reference (rootId + count)),
       ("Count", .integer count)])
    let items := outlineItems rootId (rootId + 1) d.bookmarks
    (some rootId,
      { d with
        objects := poolExtend d.objects ((rootId, root) :: items)
        max_id := rootId + count })

/-- Modelled from the spec: lopdf `Document::compress` (§4.6): structural
compaction "without altering logical content" — the identity on the logical
graph. -/
def Document.compress (d : Document) : Document :=
  d

/-! ### The merge engine (`merge`, src/main.rs lines 72-240) -/

/-- `DEFAULT_FILE_NAME` (src/main.rs line 11). -/
def DEFAULT_FILE_NAME : String := "merged.pdf"

/-- State threaded through the per-document accumulation loop of `merge`
(src/main.rs lines 74-108): `max_id`, `pagenum`, the two `BTreeMap`
accumulators and the output document under construction. -/
structure MergeState where
  max_id : Nat
  pagenum : Nat
  documents_pages : Pool
  documents_objects : Pool
  document : Document

/-- Initial accumulation state (src/main.rs lines 74-79). -/
def initState : MergeState :=
  ⟨1, 1, [], [], Document.with_version "1.5"⟩

/-- Loop body of the accumulation over one input document (src/main.rs lines
81-108): renumber the document starting at the running `max_id`, advance
`max_id` past it, emit one bookmark targeting the first page (if any) while
collecting `(page id, page object)` pairs into `documents_pages`, and move the
document's objects into `documents_objects`. -/
def mergeStep (st : MergeState) (doc : Document) : MergeState :=
  let d := doc.renumber_objects_with st.max_id
  let max_id := d.max_id + 1
  let (document, pagenum) :=
    match d.get_pages with
    | [] => (st.document, st.pagenum)
    | pid :: _ =>
      (st.document.add_bookmark
        ⟨"Page_" ++ toString st.pagenum, (0, 0, 1), 0, pid⟩,
       st.pagenum + 1)
  let pageEntries := d.get_pages.map (fun pid => (pid, (d.get_object pid).getD .null))
  { max_id := max_id
    pagenum := pagenum
    documents_pages := poolExtend st.documents_pages pageEntries
    documents_objects := poolExtend st.documents_objects d.objects
    document := document }

/-- Accumulation loop over the (already name-sorted) input documents
(src/main.rs lines 81-108). -/
def mergeAccum : MergeState → List (Document × String) → MergeState
  | st, [] => st
  | st, (doc, _) :: rest => mergeAccum (mergeStep st doc) rest

/-- State of the structural classification loop (src/main.rs lines 110-158):
the optional surviving Catalog and Pages, and the output pool receiving the
`Other` objects. -/
structure ClassifyState where
  catalog_object : Option (Nat × Object)
  pages_object : Option (Nat × Object)
  outPool : Pool

/-- Loop body of the structural classification (src/main.rs lines 115-158),
dispatching on `object.type_name().unwrap_or("")`. -/
def classifyStep (st : ClassifyState) (entry : Nat × Object) : ClassifyState :=
  let (object_id, object) := entry
  match (object.type_name).getD "" with
  | "Catalog" =>
    { st with
      catalog_object := some
        (match st.catalog_object with
         | some (id, _) => id
         | none => object_id,
         object) }
  | "Pages" =>
    match object.as_dict with
    | some dictionary =>
      let dictionary :=
        match st.pages_object with
        | some (_, old) =>
          match old.as_dict with
          | some old_dictionary => dictionary.extend old_dictionary
          | none => dictionary
        | none => dictionary
      { st with
        pages_object := some
          (match st.pages_object with
           | some (id, _) => id
           | none => object_id,
           .dictionary dictionary) }
    | none => st
  | "Page" => st
  | "Outlines" => st
  | "Outline" => st
  | _ => { st with outPool := poolInsert st.outPool object_id object }

/-- Structural classification over the accumulated objects in ascending id
order (src/main.rs lines 110-158). -/
def classify (documents_objects : Pool) (outPool : Pool) : ClassifyState :=
  documents_objects.foldl classifyStep ⟨none, none, outPool⟩

/-- Page insertion loop (src/main.rs lines 166-175): each collected page
dictionary gets its `Parent` set to the surviving Pages id and is inserted
into the output pool; non-dictionary page objects are skipped. -/
def insertPages (documents_pages : Pool) (pagesId : Nat) (outPool : Pool) : Pool :=
  documents_pages.foldl
    (fun pool (kv : Nat × Object) =>
      match kv.2.as_dict with
      | some dictionary =>
        poolInsert pool kv.1 (.dictionary (dictionary.set "Parent" (.reference pagesId)))
      | none => pool)
    outPool

/-- Finalized Pages dictionary (src/main.rs lines 186-199): `Count` set to the
number of collected pages (as `u32`), `Kids` set to the ordered reference
list. -/
def pagesFinalDict (documents_pages : Pool) (dictionary : Dict) : Dict :=
  let dictionary := dictionary.set "Count"
    (.integer ((documents_pages.length : Int) % (2 ^ 32)))
  dictionary.set "Kids"
    (.array (ObjList.ofList (documents_pages.map (fun kv => .reference kv.1))))

/-- Finalized Catalog dictionary (src/main.rs lines 206-210): `Pages` set to
the surviving Pages id, `Outlines` removed. -/
def catalogFinalDict (dictionary : Dict) (pagesId : Nat) : Dict :=
  (dictionary.set "Pages" (.reference pagesId)).remove "Outlines"

/-- Output pool right before the post passes: page insertion (src/main.rs
lines 166-175) followed by the two finalization inserts (lines 186-215);
a surviving Catalog or Pages whose object is not a dictionary is skipped by
its `if let Ok(...) = ... as_dict()` guard. -/
def buildFinalPool (st : MergeState) (cs : ClassifyState)
    (pages_object catalog_object : Nat × Object) : Pool :=
  let pool := insertPages st.documents_pages pages_object.1 cs.outPool
  let pool :=
    match pages_object.2.as_dict with
    | some dictionary =>
      poolInsert pool pages_object.1 (.dictionary (pagesFinalDict st.documents_pages dictionary))
    | none => pool
  match catalog_object.2.as_dict with
  | some dictionary =>
    poolInsert pool catalog_object.1 (.dictionary (catalogFinalDict dictionary pages_object.1))
  | none => pool

/-- The merged document as it stands before the post passes (src/main.rs lines
217-220): finalized pool, `Root` in the trailer, `max_id` reset to the pool
size (as `u32`). -/
def preRenumberDoc (st : MergeState) (cs : ClassifyState)
    (pages_object catalog_object : Nat × Object) : Document :=
  let pool := buildFinalPool st cs pages_object catalog_object
  { st.document with
    objects := pool
    trailer := st.document.trailer.set "Root" (.reference catalog_object.1)
    max_id := pool.length % (2 ^ 32) }

/-- Post passes (src/main.rs lines 222-237): dense renumbering, zero-page
adjustment, outline construction with attachment to the object found at the
(pre-renumbering) surviving Catalog id, and compression. -/
def postPasses (document : Document) (catalogId : Nat) : Document :=
  let document := document.renumber_objects
  let document := document.adjust_zero_pages
  let document :=
    match document.build_outline with
    | (none, document) => document
    | (some n, document) =>
      match document.get_object catalogId with
      | some (.dictionary dict) =>
        { document with
          objects := poolInsert document.objects catalogId
            (.dictionary (dict.set "Outlines" (.reference n))) }
      | _ => document
  document.compress

/-- The merge engine (src/main.rs lines 72-240): accumulate and renumber the
input documents, classify structural objects, reassemble the page tree,
finalize the Catalog and trailer, renumber densely, and build the outline. -/
def merge (docs_with_names : List (Document × String)) : Except String Document :=
  let st := mergeAccum initState docs_with_names
  let cs := classify st.documents_objects st.document.objects
  match cs.pages_object with
  | none => .error "Pages root not found"
  | some pages_object =>
    match cs.catalog_object with
    | none => .error "Catalog root not found."
    | some catalog_object =>
      .ok (postPasses (preRenumberDoc st cs pages_object catalog_object)
        catalog_object.1)

/-! ### Source discovery and `main` (src/main.rs lines 30-69, 242-272) -/

mutual

/-- Entry of a directory tree as `load_documents_from_path` sees it: a regular
file (with the result of `Document::load`: `none` models a load error), a
subdirectory, or an entry whose metadata or contents cannot be read. -/
inductive FSEntry where
  | file (fname : String) (parsed : Option Document)
  | dir (entries : FSEntryList)
  | broken

/-- Listing of one directory. -/
inductive FSEntryList where
  | nil
  | cons (e : FSEntry) (t : FSEntryList)

end

mutual

/-- `load_documents_from_path` (src/main.rs lines 30-69), acting on a
directory listing: files whose name ends in `.pdf` and differs from
`DEFAULT_FILE_NAME` are loaded (load failures skipped), subdirectories are
descended into recursively, anything unreadable is skipped. -/
def load_documents_from_path : FSEntryList → List (Document × String)
  | .nil => []
  | .cons e t => loadEntry e ++ load_documents_from_path t

/-- Handling of one directory entry inside `load_documents_from_path`
(src/main.rs lines 37-66). -/
def loadEntry : FSEntry → List (Document × String)
  | .file fname parsed =>
    if fname.endsWith ".pdf" ∧ fname ≠ DEFAULT_FILE_NAME then
      match parsed with
      | some doc => [(doc, fname)]
      | none => []
    else []
  | .dir entries => load_documents_from_path entries
  | .broken => []

end

/-- Name-ascending, stable sort of the loaded documents
(`docs.sort_by(|(_, a), (_, b)| a.cmp(b))`, src/main.rs line 252); the
comparison is the code-point lexicographic order of the core library
(`String.decLE`), matching Rust's byte-wise `cmp` on these names. -/
def sortByName (docs : List (Document × String)) : List (Document × String) :=
  docs.mergeSort (fun a b => @decide (String.le a.2 b.2) (String.decLE a.2 b.2))

/-- `main` (src/main.rs lines 242-272), reduced to its write decision: the
output file (path and merged document) that gets saved, or `none` when
nothing is written (no PDFs found, or the merge failed). -/
def mainRun (inTree : FSEntryList) (outpath : String) : Option (String × Document) :=
  let docs := load_documents_from_path inTree
  if docs.length = 0 then none
  else
    match merge (sortByName docs) with
    | .ok merged_doc => some (outpath, merged_doc)
    | .error _ => none

/-! ### Stage projections of the merge pipeline -/

/-- Accumulation state after processing the whole input sequence. -/
def accumOf (docs : List (Document × String)) : MergeState :=
  mergeAccum initState docs

/-- Classification state for an input sequence. -/
def classifyOf (docs : List (Document × String)) : ClassifyState :=
  classify (accumOf docs).documents_objects (accumOf docs).document.objects

/-- Ids of the collected page entries in `BTreeMap` iteration order: exactly
the ids the reassembled `Kids` array references, in order. -/
def kidsIdsOf (docs : List (Document × String)) : List Nat :=
  (accumOf docs).documents_pages.map Prod.fst

/-- Bookmark emitted for the document processed at `pagenum` count `pn`
targeting first page `pid` (src/main.rs lines 92-97). -/
def mkBookmark (pn : Nat) (pid : Nat) : Bookmark :=
  ⟨"Page_" ++ toString pn, (0, 0, 1), 0, pid⟩

/-! ### Classification predicates -/

/-- Entry dispatched to the `"Catalog"` arm of the classifier. -/
def isCatalogEntry (kv : Nat × Object) : Bool :=
  (kv.2.type_name).getD "" == "Catalog"

/-- Entry dispatched to the `"Pages"` arm of the classifier. -/
def isPagesEntry (kv : Nat × Object) : Bool :=
  (kv.2.type_name).getD "" == "Pages"

/-- Entry dispatched to the fall-through arm of the classifier (copied
verbatim into the output pool). -/
def isOtherEntry (kv : Nat × Object) : Bool :=
  let t := (kv.2.type_name).getD ""
  !(t == "Catalog" || t == "Pages" || t == "Page" || t == "Outlines" || t == "Outline")

/-- Pages-typed dictionary entries of a pool, in iteration order. -/
def pagesDicts (l : Pool) : List (Nat × Dict) :=
  l.filterMap (fun kv =>
    if isPagesEntry kv then (kv.2.as_dict).map (fun dd => (kv.1, dd)) else none)

/-- First-seen value of a key across a sequence of dictionaries (claim side of
C8: "the first-seen value winning on every key conflict"). -/
def firstSeenVal (k : String) : List (Nat × Dict) → Option Object
  | [] => none
  | (_, dd) :: t => (dd.get k).or (firstSeenVal k t)

/-! ### Observation helpers -/

/-- Number of objects of a pool carrying a given `/Type`. -/
def countType (p : Pool) (t : String) : Nat :=
  p.countP (fun kv => kv.2.type_name == some t)

/-- References occurring anywhere inside a pool's objects. -/
def poolRefs (p : Pool) : List Nat :=
  (p.map (fun kv => objRefs kv.2)).flatten

/-- Ids referenced by the entries of an object list (skipping non-reference
entries). -/
def refIds : ObjList → List Nat
  | .nil => []
  | .cons (.reference r) t => r :: refIds t
  | .cons _ t => refIds t

/-- The id list of an object's `Kids` array (empty when absent). -/
def kidsIdList (o : Object) : List Nat :=
  match o with
  | .dictionary dd =>
    match dd.get "Kids" with
    | some (.array xs) => refIds xs
    | _ => []
  | _ => []

/-- Value of a dictionary field of the object stored at an id (`none` when the
id is absent or the object is not a dictionary). -/
def fieldAt (p : Pool) (id : Nat) (k : String) : Option Object :=
  match poolGet p id with
  | some (.dictionary dd) => dd.get k
  | _ => none

/-! ### Input validity

A loaded PDF that lopdf accepts satisfies these structural sanity conditions;
several spec claims quantify over "valid inputs". -/

/-- Check that an object is a plain dictionary with duplicate-free keys. -/
def dictKeysNodup (o : Object) : Bool :=
  match o.as_dict with
  | some dd => decide dd.keys.Nodup
  | none => false

/-- Object whose announced structural role matches its shape: a `/Type` of
`Catalog` or `Pages` only on a plain dictionary, and such a dictionary
without repeated keys. -/
def wellTyped (o : Object) : Prop :=
  (o.type_name = some "Catalog" ∨ o.type_name = some "Pages") → dictKeysNodup o = true

/-- Page entry check: the id resolves to a dictionary whose `/Type` is
`Page`. -/
def isPageEntry : Option Object → Bool
  | some (.dictionary dd) => dd.typeName == some "Page"
  | _ => false

/-- Validity of one input document: sorted pool, duplicate-free page
enumeration, every enumerated page resolving to a Page dictionary, and
`wellTyped` objects. -/
def ValidDoc (d : Document) : Prop :=
  poolSorted d.objects ∧
  d.pageOrder.Nodup ∧
  (∀ pid ∈ d.pageOrder, isPageEntry (poolGet d.objects pid) = true) ∧
  (∀ kv ∈ d.objects, wellTyped kv.2)

/-- Validity of a whole input sequence. -/
def ValidDocs (docs : List (Document × String)) : Prop :=
  ∀ p ∈ docs, ValidDoc p.1

instance (d : Document) : Decidable (ValidDoc d) := by
  unfold ValidDoc wellTyped poolSorted
  infer_instance

instance (docs : List (Document × String)) : Decidable (ValidDocs docs) := by
  unfold ValidDocs
  infer_instance

/-! ### Claim-side reference descriptions

These definitions follow the words of the specification sentences under test
(never the code); the theorems below compare the pipeline against them. -/

/-- Renumbering map of the document processed with phase-1 offset `s` (its
"post-renumbering" id assignment, §4.1). -/
def docMap (d : Document) (s : Nat) : Nat → Nat :=
  renumMap (poolKeys d.objects) s

/-- Phase-1 offset consumed by one document: the next document starts past
this one's objects. -/
def nextOffset (d : Document) (s : Nat) : Nat :=
  s + d.objects.length

/-- Claim side of C6: the post-renumbering first-page id of every document
that contributes at least one page, in merge order. -/
def contributingFirstPages (s : Nat) : List Document → List Nat
  | [] => []
  | d :: t =>
    match d.pageOrder with
    | [] => contributingFirstPages (nextOffset d s) t
    | p :: _ => docMap d s p :: contributingFirstPages (nextOffset d s) t

/-- Claim side of C6: one top-level bookmark per contributing document,
labeled `Page_<n>` by a counter incremented only for contributing documents,
with the fixed color, targeting the document's first page. -/
def labelBookmarks (pagenum : Nat) : List Nat → List Bookmark
  | [] => []
  | p :: t => mkBookmark pagenum p :: labelBookmarks (pagenum + 1) t

/-- Post-renumbering page ids of one document in ascending id order. -/
def ascendingPageIds (d : Document) (s : Nat) : List Nat :=
  (d.pageOrder.map (docMap d s)).mergeSort (· ≤ ·)

/-- Amended claim side of C2: pages grouped by document in merge order, within
each document in ascending (renumbered) object-id order. -/
def idOrderKidsIds (s : Nat) : List Document → List Nat
  | [] => []
  | d :: t => ascendingPageIds d s ++ idOrderKidsIds (nextOffset d s) t

/-- Claim side of C2 as frozen: pages grouped by document in merge order,
within each document in the document's original intra-document page order
(its page-tree order, renumbered). -/
def pageOrderKidsIds (s : Nat) : List Document → List Nat
  | [] => []
  | d :: t => d.pageOrder.map (docMap d s) ++ pageOrderKidsIds (nextOffset d s) t

/-- Total page count of an input sequence (§8: "sum of page counts across all
inputs"). -/
def totalPageCount (docs : List (Document × String)) : Nat :=
  (docs.map (fun p => p.1.pageOrder.length)).sum

/-- Page entries collected from one (already renumbered) document: each page
id paired with its object (src/main.rs lines 87-106). -/
def pageEntriesOf (d : Document) : Pool :=
  d.get_pages.map (fun pid => (pid, (d.get_object pid).getD .null))

/-- Accumulated object pool described per document: the disjoint renumbered
blocks in merge order. -/
def objBlocks (s : Nat) : List Document → Pool
  | [] => []
  | d :: t => (d.renumber_objects_with s).objects ++ objBlocks (nextOffset d s) t

/-- Accumulated page map described per document: sorted page-entry blocks in
merge order. -/
def pageBlocks (s : Nat) : List Document → Pool
  | [] => []
  | d :: t =>
    poolOfList (pageEntriesOf (d.renumber_objects_with s)) ++ pageBlocks (nextOffset d s) t

mutual

/-- Claim side of C10: every regular file of the tree with its load result, in
traversal order. -/
def treeFiles : FSEntryList → List (String × Option Document)
  | .nil => []
  | .cons e t => entryFiles e ++ treeFiles t

/-- Files contributed by a single directory entry. -/
def entryFiles : FSEntry → List (String × Option Document)
  | .file fname parsed => [(fname, parsed)]
  | .dir entries => treeFiles entries
  | .broken => []

end

/-- Claim side of C10: the selection rule applied to one file — kept exactly
when its name ends in `.pdf` and differs from the fixed constant
`DEFAULT_FILE_NAME`, and it loaded successfully. -/
def discoveryKeep (fe : String × Option Document) : Option (Document × String) :=
  if fe.1.endsWith ".pdf" ∧ fe.1 ≠ DEFAULT_FILE_NAME then
    fe.2.map (fun d => (d, fe.1))
  else none

/-- Object pool of a merge result (empty on failure). -/
def mergedObjects (r : Except String Document) : Pool :=
  match r with
  | .ok d => d.objects
  | .error _ => []

/-- Merge result document (a dummy empty document on failure). -/
def mergedDoc (r : Except String Document) : Document :=
  match r with
  | .ok d => d
  | .error _ => Document.with_version "1.5"

/-- Announced `/Type` of the object stored at an id. -/
def typeAt (p : Pool) (id : Nat) : Option String :=
  (poolGet p id).bind Object.type_name

/-- String payload of an optional object. -/
def strVal : Option Object → Option String
  | some (.string s) => some s
  | _ => none

/-- Integer payload of an optional object. -/
def intVal : Option Object → Option Int
  | some (.integer i) => some i
  | _ => none

/-- Reference payload of an optional object. -/
def refVal : Option Object → Option Nat
  | some (.reference r) => some r
  | _ => none

/-! ### Concrete input documents for witnesses and counterexamples -/

/-- Minimal valid document (ids 1-3) with distinguishing `Marker`/`PM` fields
valued "A"/"pa". -/
def exCatA : Document :=
  { version := "1.5"
    objects := [
      (1, .dictionary (Dict.ofList
        [("Type", .name "Catalog"), ("Pages", .reference 2), ("Marker", .string "A")])),
      (2, .dictionary (Dict.ofList
        [("Type", .name "Pages"), ("Kids", .array (ObjList.ofList [.reference 3])),
         ("Count", .integer 1), ("PM", .string "pa")])),
      (3, .dictionary (Dict.ofList [("Type", .name "Page"), ("Parent", .reference 2)]))]
    trailer := Dict.ofList [("Root", .reference 1)]
    max_id := 3
    pageOrder := [3]
    bookmarks := [] }

/-- Minimal valid document with `Marker`/`PM` valued "B"/"pb" and an extra
Pages key `OnlyB`. -/
def exCatB : Document :=
  { version := "1.5"
    objects := [
      (1, .dictionary (Dict.ofList
        [("Type", .name "Catalog"), ("Pages", .reference 2), ("Marker", .string "B")])),
      (2, .dictionary (Dict.ofList
        [("Type", .name "Pages"), ("Kids", .array (ObjList.ofList [.reference 3])),
         ("Count", .integer 1), ("PM", .string "pb"), ("OnlyB", .integer 9)])),
      (3, .dictionary (Dict.ofList [("Type", .name "Page"), ("Parent", .reference 2)]))]
    trailer := Dict.ofList [("Root", .reference 1)]
    max_id := 3
    pageOrder := [3]
    bookmarks := [] }

/-- Valid two-page document: catalog 1, pages 2, pages 3 and 4 in page-tree
order `[3, 4]`. -/
def exTwoPage : Document :=
  { version := "1.5"
    objects := [
      (1, .dictionary (Dict.ofList [("Type", .name "Catalog"), ("Pages", .reference 2)])),
      (2, .dictionary (Dict.ofList
        [("Type", .name "Pages"),
         ("Kids", .array (ObjList.ofList [.reference 3, .reference 4])),
         ("Count", .integer 2)])),
      (3, .dictionary (Dict.ofList [("Type", .name "Page"), ("Parent", .reference 2)])),
      (4, .dictionary (Dict.ofList [("Type", .name "Page"), ("Parent", .reference 2)]))]
    trailer := Dict.ofList [("Root", .reference 1)]
    max_id := 4
    pageOrder := [3, 4]
    bookmarks := [] }

/-- Document holding a single untyped object: no Catalog and no Pages. -/
def exUntyped : Document :=
  { version := "1.5"
    objects := [(1, .dictionary (Dict.ofList [("Foo", .integer 7)]))]
    trailer := .nil
    max_id := 1
    pageOrder := []
    bookmarks := [] }

/-- Valid document with a Pages tree and one page but no Catalog object. -/
def exNoCat : Document :=
  { version := "1.5"
    objects := [
      (1, .dictionary (Dict.ofList
        [("Type", .name "Pages"), ("Kids", .array (ObjList.ofList [.reference 2])),
         ("Count", .integer 1)])),
      (2, .dictionary (Dict.ofList [("Type", .name "Page"), ("Parent", .reference 1)]))]
    trailer := .nil
    max_id := 2
    pageOrder := [2]
    bookmarks := [] }

/-- Valid document whose page-tree order `[4, 3]` disagrees with the object-id
order of its two pages; the pages carry a `Which` field naming their
position in the tree. -/
def exRevPages : Document :=
  { version := "1.5"
    objects := [
      (1, .dictionary (Dict.ofList [("Type", .name "Catalog"), ("Pages", .reference 2)])),
      (2, .dictionary (Dict.ofList
        [("Type", .name "Pages"),
         ("Kids", .array (ObjList.ofList [.reference 4, .reference 3])),
         ("Count", .integer 2)])),
      (3, .dictionary (Dict.ofList
        [("Type", .name "Page"), ("Parent", .reference 2), ("Which", .string "second")])),
      (4, .dictionary (Dict.ofList
        [("Type", .name "Page"), ("Parent", .reference 2), ("Which", .string "first")]))]
    trailer := Dict.ofList [("Root", .reference 1)]
    max_id := 4
    pageOrder := [4, 3]
    bookmarks := [] }

/-- Valid document whose dropped Outline object (id 1) precedes the Catalog
(id 2) in id order, so the final dense renumbering shifts the Catalog id. -/
def exOutlineFirst : Document :=
  { version := "1.5"
    objects := [
      (1, .dictionary (Dict.ofList [("Type", .name "Outline"), ("Title", .string "old")])),
      (2, .dictionary (Dict.ofList [("Type", .name "Catalog"), ("Pages", .reference 3)])),
      (3, .dictionary (Dict.ofList
        [("Type", .name "Pages"), ("Kids", .array (ObjList.ofList [.reference 4])),
         ("Count", .integer 1)])),
      (4, .dictionary (Dict.ofList [("Type", .name "Page"), ("Parent", .reference 3)]))]
    trailer := Dict.ofList [("Root", .reference 2)]
    max_id := 4
    pageOrder := [4]
    bookmarks := [] }

/-- Valid document carrying an `Other` object (id 4) that references id 10 —
after the phase-1 renumbering of the second input this points at a dropped
Outline object. -/
def exStaleRef : Document :=
  { version := "1.5"
    objects := [
      (1, .dictionary (Dict.ofList [("Type", .name "Catalog"), ("Pages", .reference 2)])),
      (2, .dictionary (Dict.ofList
        [("Type", .name "Pages"), ("Kids", .array (ObjList.ofList [.reference 3])),
         ("Count", .integer 1)])),
      (3, .dictionary (Dict.ofList [("Type", .name "Page"), ("Parent", .reference 2)])),
      (4, .dictionary (Dict.ofList [("X", .reference 10)]))]
    trailer := Dict.ofList [("Root", .reference 1)]
    max_id := 4
    pageOrder := [3]
    bookmarks := [] }

/-- Valid document carrying three Outline objects (dropped by classification,
leaving ids 8-10 unoccupied after renumbering as second input). -/
def exManyOutlines : Document :=
  { version := "1.5"
    objects := [
      (1, .dictionary (Dict.ofList [("Type", .name "Catalog"), ("Pages", .reference 2)])),
      (2, .dictionary (Dict.ofList
        [("Type", .name "Pages"), ("Kids", .array (ObjList.ofList [.reference 3])),
         ("Count", .integer 1)])),
      (3, .dictionary (Dict.ofList [("Type", .name "Page"), ("Parent", .reference 2)])),
      (4, .dictionary (Dict.ofList [("Type", .name "Outline")])),
      (5, .dictionary (Dict.ofList [("Type", .name "Outline")])),
      (6, .dictionary (Dict.ofList [("Type", .name "Outline")]))]
    trailer := Dict.ofList [("Root", .reference 1)]
    max_id := 6
    pageOrder := [3]
    bookmarks := [] }

/-- Kids id list of the object stored at an id. -/
def kidsAt (p : Pool) (id : Nat) : List Nat :=
  match poolGet p id with
  | some o => kidsIdList o
  | none => []

/-! ## Theorems -/

/-! ### Dictionary lemmas -/

/-- Structural induction for `Dict` alone (the mutual recursor has several
motives, which the `induction` tactic cannot use directly). -/
theorem Dict.inductionOn {motive : Dict → Prop} (nil : motive .nil)
    (cons : ∀ (k : String) (v : Object) (t : Dict), motive t → motive (.cons k v t)) :
    ∀ d, motive d
  | .nil => nil
  | .cons k v t => cons k v t (Dict.inductionOn nil cons t)

/-- Structural induction for `ObjList` alone. -/
theorem ObjList.inductionOnList {motive : ObjList → Prop} (nil : motive .nil)
    (cons : ∀ (o : Object) (t : ObjList), motive t → motive (.cons o t)) :
    ∀ l, motive l
  | .nil => nil
  | .cons o t => cons o t (ObjList.inductionOnList nil cons t)

theorem Dict.get_set_self (d : Dict) (k : String) (v : Object) :
    (d.set k v).get k = some v := by
  induction d using Dict.inductionOn with
  | nil => simp [Dict.set, Dict.get]
  | cons k0 w t ih =>
    by_cases h : k0 = k <;> simp [Dict.set, Dict.get, h, ih]

theorem Dict.get_set_ne (d : Dict) (k k' : String) (v : Object) (h : k' ≠ k) :
    (d.set k v).get k' = d.get k' := by
  induction d using Dict.inductionOn with
  | nil => simp [Dict.set, Dict.get, Ne.symm h]
  | cons k0 w t ih =>
    by_cases h0 : k0 = k
    · subst h0
      simp [Dict.set, Dict.get, Ne.symm h]
    · by_cases h1 : k0 = k' <;> simp [Dict.set, Dict.get, h0, h1, ih, h, Ne.symm h]

theorem Dict.get_eq_none_of_not_mem (d : Dict) (k : String) (h : k ∉ d.keys) :
    d.get k = none := by
  induction d using Dict.inductionOn with
  | nil => rfl
  | cons k0 w t ih =>
    simp [Dict.keys] at h
    simp [Dict.get, Ne.symm h.1, ih h.2]

theorem Dict.keys_set (d : Dict) (k : String) (v : Object) :
    (d.set k v).keys = if k ∈ d.keys then d.keys else d.keys ++ [k] := by
  induction d using Dict.inductionOn with
  | nil => simp [Dict.set, Dict.keys]
  | cons k0 w t ih =>
    by_cases h : k0 = k
    · subst h
      simp [Dict.set, Dict.keys]
    · simp only [Dict.set, if_neg h, Dict.keys, ih]
      by_cases hm : k ∈ t.keys <;> simp [hm, Ne.symm h]

theorem Dict.nodup_keys_set (d : Dict) (k : String) (v : Object)
    (h : d.keys.Nodup) : (d.set k v).keys.Nodup := by
  rw [Dict.keys_set]
  by_cases hm : k ∈ d.keys
  · simp [hm, h]
  · simp only [hm, if_false]
    exact h.append (List.nodup_singleton k) (by simpa using hm)

theorem Dict.get_remove_self (d : Dict) (k : String) (h : d.keys.Nodup) :
    (d.remove k).get k = none := by
  induction d using Dict.inductionOn with
  | nil => rfl
  | cons k0 w t ih =>
    simp only [Dict.keys, List.nodup_cons] at h
    by_cases h0 : k0 = k
    · subst h0
      simpa [Dict.remove] using Dict.get_eq_none_of_not_mem t k0 h.1
    · simp [Dict.remove, Dict.get, h0, ih h.2]

theorem Dict.get_remove_ne (d : Dict) (k k' : String) (h : k' ≠ k) :
    (d.remove k).get k' = d.get k' := by
  induction d using Dict.inductionOn with
  | nil => rfl
  | cons k0 w t ih =>
    by_cases h0 : k0 = k
    · subst h0
      simp [Dict.remove, Dict.get, Ne.symm h]
    · simp [Dict.remove, Dict.get, h0, ih]

theorem Dict.extend_get (self other : Dict) (h : other.keys.Nodup) (k : String) :
    (self.extend other).get k = (other.get k).or (self.get k) := by
  induction other using Dict.inductionOn generalizing self with
  | nil => simp [Dict.extend, Dict.get]
  | cons k0 v0 t ih =>
    simp only [Dict.keys, List.nodup_cons] at h
    by_cases h0 : k0 = k
    · subst h0
      rw [Dict.extend, ih _ h.2, Dict.get_eq_none_of_not_mem t k0 h.1]
      simp [Dict.get, Dict.get_set_self]
    · rw [Dict.extend, ih _ h.2, Dict.get_set_ne self k0 k v0 (Ne.symm h0)]
      simp [Dict.get, h0]

theorem Dict.nodup_keys_extend (self other : Dict) (h : self.keys.Nodup) :
    (self.extend other).keys.Nodup := by
  induction other using Dict.inductionOn generalizing self with
  | nil => exact h
  | cons k0 v0 t ih => exact ih _ (Dict.nodup_keys_set self k0 v0 h)

/-! ### Object list lemmas -/

theorem ObjList.length_ofList (l : List Object) :
    (ObjList.ofList l).length = l.length := by
  induction l with
  | nil => rfl
  | cons o t ih => simp [ObjList.ofList, ObjList.length, ih, Nat.add_comm]

theorem refIds_ofList_refs (l : List Nat) :
    refIds (ObjList.ofList (l.map Object.reference)) = l := by
  induction l with
  | nil => rfl
  | cons o t ih => simp [ObjList.ofList, refIds, ih]

/-! ### Reference rewriting lemmas -/

theorem renDict_get (m : Nat → Nat) : ∀ (d : Dict) (k : String),
    (renDict m d).get k = (d.get k).map (renObj m)
  | .nil, _ => rfl
  | .cons k0 v t, k => by
    by_cases h : k0 = k <;> simp [renDict, Dict.get, h, renDict_get m t k]

theorem keys_renDict (m : Nat → Nat) : ∀ d : Dict, (renDict m d).keys = d.keys
  | .nil => rfl
  | .cons k0 v t => by simp [renDict, Dict.keys, keys_renDict m t]

theorem typeName_renDict (m : Nat → Nat) (d : Dict) :
    (renDict m d).typeName = d.typeName := by
  unfold Dict.typeName
  rw [renDict_get]
  cases h : d.get "Type" with
  | none => rfl
  | some o => cases o <;> simp [renObj]

theorem type_name_renObj (m : Nat → Nat) (o : Object) :
    (renObj m o).type_name = o.type_name := by
  cases o <;> simp [renObj, Object.type_name, typeName_renDict]

theorem as_dict_renObj (m : Nat → Nat) (o : Object) :
    (renObj m o).as_dict = (o.as_dict).map (renDict m) := by
  cases o <;> simp [renObj, Object.as_dict]

mutual

theorem objRefs_renObj (m : Nat → Nat) : ∀ o : Object,
    objRefs (renObj m o) = (objRefs o).map m
  | .null => rfl
  | .boolean _ => rfl
  | .integer _ => rfl
  | .real _ => rfl
  | .string _ => rfl
  | .name _ => rfl
  | .array xs => by simp [renObj, objRefs, listRefs_renList m xs]
  | .dictionary d => by simp [renObj, objRefs, dictRefs_renDict m d]
  | .stream d => by simp [renObj, objRefs, dictRefs_renDict m d]
  | .reference r => rfl

theorem listRefs_renList (m : Nat → Nat) : ∀ xs : ObjList,
    listRefs (renList m xs) = (listRefs xs).map m
  | .nil => rfl
  | .cons o t => by simp [renList, listRefs, objRefs_renObj m o, listRefs_renList m t]

theorem dictRefs_renDict (m : Nat → Nat) : ∀ d : Dict,
    dictRefs (renDict m d) = (dictRefs d).map m
  | .nil => rfl
  | .cons k v t => by simp [renDict, dictRefs, objRefs_renObj m v, dictRefs_renDict m t]

end

/-! ### Pool lemmas -/

theorem poolGet_isSome_iff_mem (p : Pool) (k : Nat) :
    (poolGet p k).isSome = true ↔ k ∈ poolKeys p := by
  induction p with
  | nil => simp [poolGet, poolKeys]
  | cons kv t ih =>
    obtain ⟨k0, v0⟩ := kv
    by_cases h : k0 = k
    · simp [poolGet, poolKeys, h]
    · simp [poolGet, poolKeys, h, Ne.symm h] at ih ⊢
      exact ih

theorem poolGet_eq_none_of_not_mem (p : Pool) (k : Nat) (h : k ∉ poolKeys p) :
    poolGet p k = none := by
  cases hg : poolGet p k with
  | none => rfl
  | some o =>
    exact absurd ((poolGet_isSome_iff_mem p k).mp (by simp [hg])) h

theorem poolGet_append (p q : Pool) (k : Nat) :
    poolGet (p ++ q) k = (poolGet p k).or (poolGet q k) := by
  induction p with
  | nil => simp [poolGet]
  | cons kv t ih =>
    obtain ⟨k0, v0⟩ := kv
    by_cases h : k0 = k <;> simp [poolGet, h, ih]

theorem poolGet_insert_self (p : Pool) (k : Nat) (v : Object) :
    poolGet (poolInsert p k v) k = some v := by
  induction p with
  | nil => simp [poolInsert, poolGet]
  | cons kv t ih =>
    obtain ⟨k0, v0⟩ := kv
    rcases Nat.lt_trichotomy k k0 with h | h | h
    · simp [poolInsert, h, poolGet]
    · simp [poolInsert, h, poolGet]
    · have h1 : ¬k < k0 := by omega
      have h2 : k ≠ k0 := by omega
      simp [poolInsert, h1, h2, poolGet, Ne.symm h2, ih]

theorem poolGet_insert_ne (p : Pool) (k k' : Nat) (v : Object) (h : k' ≠ k) :
    poolGet (poolInsert p k v) k' = poolGet p k' := by
  induction p with
  | nil => simp [poolInsert, poolGet, Ne.symm h]
  | cons kv t ih =>
    obtain ⟨k0, v0⟩ := kv
    by_cases hlt : k < k0
    · simp [poolInsert, hlt, poolGet, Ne.symm h]
    · by_cases heq : k = k0
      · subst heq
        simp [poolInsert, hlt, poolGet, Ne.symm h]
      · simp only [poolInsert, if_neg hlt, if_neg heq, poolGet]
        by_cases h3 : k0 = k' <;> simp [h3, ih]

theorem mem_poolKeys_insert (p : Pool) (k k' : Nat) (v : Object) :
    k' ∈ poolKeys (poolInsert p k v) ↔ k' = k ∨ k' ∈ poolKeys p := by
  induction p with
  | nil => simp [poolInsert, poolKeys]
  | cons kv t ih =>
    obtain ⟨k0, v0⟩ := kv
    rcases Nat.lt_trichotomy k k0 with h0 | h0 | h0
    · simp [poolInsert, h0, poolKeys]
    · subst h0
      simp [poolInsert, poolKeys]
    · have h1 : ¬k < k0 := by omega
      have h2 : k ≠ k0 := by omega
      simp [poolInsert, h1, h2, poolKeys] at ih ⊢
      tauto

theorem mem_poolInsert (p : Pool) (k : Nat) (v : Object) (x : Nat × Object)
    (h : x ∈ poolInsert p k v) : x = (k, v) ∨ x ∈ p := by
  induction p with
  | nil => simpa [poolInsert] using h
  | cons kv t ih =>
    obtain ⟨k0, v0⟩ := kv
    rcases Nat.lt_trichotomy k k0 with h0 | h0 | h0
    · simp only [poolInsert, if_pos h0, List.mem_cons] at h
      simp only [List.mem_cons]
      tauto
    · subst h0
      have h1 : ¬k < k := by omega
      simp [poolInsert, h1] at h
      simp only [List.mem_cons]
      tauto
    · have h1 : ¬k < k0 := by omega
      have h2 : k ≠ k0 := by omega
      simp only [poolInsert, if_neg h1, if_neg h2, List.mem_cons] at h
      simp only [List.mem_cons]
      rcases h with h | h
      · tauto
      · rcases ih h with h | h <;> tauto

theorem mem_poolExtend (q p : Pool) (x : Nat × Object)
    (h : x ∈ poolExtend p q) : x ∈ p ∨ x ∈ q := by
  induction q generalizing p with
  | nil => exact Or.inl h
  | cons kv t ih =>
    obtain ⟨k0, v0⟩ := kv
    rw [poolExtend] at h
    rcases ih (poolInsert p k0 v0) h with h | h
    · rcases mem_poolInsert p k0 v0 x h with h | h
      · exact Or.inr (by simp [h])
      · exact Or.inl h
    · exact Or.inr (List.mem_cons_of_mem _ h)

theorem mem_poolOfList (l : Pool) (x : Nat × Object) (h : x ∈ poolOfList l) : x ∈ l := by
  rcases mem_poolExtend l [] x h with h | h
  · simp at h
  · exact h

theorem poolSorted_insert (p : Pool) (k : Nat) (v : Object) (hs : poolSorted p) :
    poolSorted (poolInsert p k v) := by
  induction p with
  | nil => simp [poolInsert, poolSorted]
  | cons kv t ih =>
    obtain ⟨k0, v0⟩ := kv
    rw [poolSorted, List.pairwise_cons] at hs
    rcases Nat.lt_trichotomy k k0 with h0 | h0 | h0
    · rw [poolSorted, poolInsert, if_pos h0]
      refine List.pairwise_cons.mpr ⟨?_, List.pairwise_cons.mpr hs⟩
      intro b hb
      rcases List.mem_cons.mp hb with hb | hb
      · simp [hb, h0]
      · exact lt_trans h0 (hs.1 b hb)
    · subst h0
      have h1 : ¬k < k := by omega
      rw [poolSorted, poolInsert, if_neg h1, if_pos rfl]
      exact List.pairwise_cons.mpr hs
    · have h1 : ¬k < k0 := by omega
      have h2 : k ≠ k0 := by omega
      rw [poolSorted, poolInsert, if_neg h1, if_neg h2]
      refine List.pairwise_cons.mpr ⟨?_, ih hs.2⟩
      intro b hb
      rcases mem_poolInsert t k v b hb with h | h
      · simp [h, h0]
      · exact hs.1 b h

theorem length_poolInsert_not_mem (p : Pool) (k : Nat) (v : Object)
    (h : k ∉ poolKeys p) : (poolInsert p k v).length = p.length + 1 := by
  induction p with
  | nil => simp [poolInsert]
  | cons kv t ih =>
    obtain ⟨k0, v0⟩ := kv
    simp [poolKeys] at h
    rcases Nat.lt_trichotomy k k0 with h0 | h0 | h0
    · simp [poolInsert, h0]
    · exact absurd h0 h.1
    · have h1 : ¬k < k0 := by omega
      have h2 : k ≠ k0 := by omega
      simp [poolInsert, h1, h2]
      exact ih (by simpa [poolKeys] using h.2)

theorem poolInsert_append_left (p r : Pool) (k : Nat) (v : Object)
    (h : ∀ x ∈ p, x.1 < k) : poolInsert (p ++ r) k v = p ++ poolInsert r k v := by
  induction p with
  | nil => simp
  | cons kv t ih =>
    obtain ⟨k0, v0⟩ := kv
    have hk0 : k0 < k := h (k0, v0) (by simp)
    have h1 : ¬k < k0 := by omega
    have h2 : k ≠ k0 := by omega
    simp only [List.cons_append, poolInsert, if_neg h1, if_neg h2]
    exact congrArg (fun l => (k0, v0) :: l) (ih (fun x hx => h x (by simp [hx])))

theorem poolExtend_append_left (q p r : Pool)
    (h : ∀ x ∈ p, ∀ y ∈ q, x.1 < y.1) :
    poolExtend (p ++ r) q = p ++ poolExtend r q := by
  induction q generalizing r with
  | nil => simp [poolExtend]
  | cons kv t ih =>
    obtain ⟨k0, v0⟩ := kv
    rw [poolExtend, poolInsert_append_left p r k0 v0
      (fun x hx => h x hx (k0, v0) (by simp))]
    exact ih (poolInsert r k0 v0) (fun x hx y hy => h x hx y (by simp [hy]))

theorem poolExtend_eq_append (p q : Pool)
    (h : ∀ x ∈ p, ∀ y ∈ q, x.1 < y.1) :
    poolExtend p q = p ++ poolOfList q := by
  have := poolExtend_append_left q p [] h
  simpa [poolOfList] using this

theorem poolOfList_sorted_self (q : Pool) (hs : poolSorted q) : poolOfList q = q := by
  induction q with
  | nil => rfl
  | cons kv t ih =>
    obtain ⟨k0, v0⟩ := kv
    rw [poolSorted, List.pairwise_cons] at hs
    rw [poolOfList, poolExtend]
    have hins : poolInsert [] k0 v0 = [(k0, v0)] := rfl
    rw [hins, poolExtend_eq_append [(k0, v0)] t
      (by intro x hx y hy; simp at hx; rw [hx]; exact hs.1 y hy)]
    rw [ih hs.2]
    rfl

theorem poolKeys_insert_perm_not_mem (p : Pool) (k : Nat) (v : Object)
    (h : k ∉ poolKeys p) :
    (poolKeys (poolInsert p k v)).Perm (k :: poolKeys p) := by
  induction p with
  | nil => simp [poolInsert, poolKeys]
  | cons kv t ih =>
    obtain ⟨k0, v0⟩ := kv
    simp [poolKeys] at h
    rcases Nat.lt_trichotomy k k0 with h0 | h0 | h0
    · simp [poolInsert, h0, poolKeys]
    · exact absurd h0 h.1
    · have h1 : ¬k < k0 := by omega
      have h2 : k ≠ k0 := by omega
      simp only [poolInsert, if_neg h1, if_neg h2, poolKeys, List.map_cons]
      exact ((ih (by simpa [poolKeys] using h.2)).cons k0).trans
        (List.Perm.swap k k0 (poolKeys t))

theorem poolSorted_poolOfList (l : Pool) : poolSorted (poolOfList l) := by
  have base : ∀ (acc : Pool), poolSorted acc → poolSorted (poolExtend acc l) := by
    induction l with
    | nil => intro acc h; exact h
    | cons kv t ih =>
      intro acc h
      obtain ⟨k0, v0⟩ := kv
      exact ih (poolInsert acc k0 v0) (poolSorted_insert acc k0 v0 h)
  exact base [] (by simp [poolSorted])

/-! ### Renumbering map lemmas -/

theorem renumMap_of_mem (ks : List Nat) (s k : Nat) (h : k ∈ ks) :
    renumMap ks s k = s + (ks.filter (· < k)).length := if_pos h

theorem renumMap_of_not_mem (ks : List Nat) (s k : Nat) (h : k ∉ ks) :
    renumMap ks s k = k := if_neg h

theorem filter_lt_length_mono (ks : List Nat) (a b : Nat) (hab : a ≤ b) :
    (ks.filter (· < a)).length ≤ (ks.filter (· < b)).length := by
  induction ks with
  | nil => simp
  | cons x t ih =>
    rw [List.filter_cons, List.filter_cons]
    by_cases hx : x < a
    · rw [if_pos (by simpa using hx), if_pos (by simpa using show x < b by omega)]
      simpa using ih
    · by_cases hx2 : x < b
      · rw [if_neg (by simpa using hx), if_pos (by simpa using hx2)]
        simp only [List.length_cons]
        omega
      · rw [if_neg (by simpa using hx), if_neg (by simpa using hx2)]
        exact ih

theorem filter_lt_length_strict (ks : List Nat) (a b : Nat) (ha : a ∈ ks) (hab : a < b) :
    (ks.filter (· < a)).length < (ks.filter (· < b)).length := by
  induction ks with
  | nil => simp at ha
  | cons x t ih =>
    rw [List.filter_cons, List.filter_cons]
    rcases List.mem_cons.mp ha with hx | hx
    · subst hx
      rw [if_neg (by simp), if_pos (by simpa using hab)]
      have := filter_lt_length_mono t a b (by omega)
      simp only [List.length_cons]
      omega
    · have hih := ih hx
      by_cases h1 : x < a
      · rw [if_pos (by simpa using h1), if_pos (by simpa using show x < b by omega)]
        simp only [List.length_cons]
        omega
      · by_cases h2 : x < b
        · rw [if_neg (by simpa using h1), if_pos (by simpa using h2)]
          simp only [List.length_cons]
          omega
        · rw [if_neg (by simpa using h1), if_neg (by simpa using h2)]
          exact hih

theorem renumMap_strictMono (ks : List Nat) (s : Nat) {a b : Nat}
    (ha : a ∈ ks) (hb : b ∈ ks) (hab : a < b) :
    renumMap ks s a < renumMap ks s b := by
  rw [renumMap_of_mem ks s a ha, renumMap_of_mem ks s b hb]
  have := filter_lt_length_strict ks a b ha hab
  omega

theorem renumMap_inj (ks : List Nat) (s : Nat) {a b : Nat}
    (ha : a ∈ ks) (hb : b ∈ ks) (h : renumMap ks s a = renumMap ks s b) : a = b := by
  rcases Nat.lt_trichotomy a b with h0 | h0 | h0
  · exact absurd h (Nat.ne_of_lt (renumMap_strictMono ks s ha hb h0))
  · exact h0
  · exact absurd h.symm (Nat.ne_of_lt (renumMap_strictMono ks s hb ha h0))

theorem renumMap_lower (ks : List Nat) (s k : Nat) (h : k ∈ ks) :
    s ≤ renumMap ks s k := by
  rw [renumMap_of_mem ks s k h]
  omega

theorem renumMap_upper (ks : List Nat) (s k : Nat) (h : k ∈ ks) :
    renumMap ks s k < s + ks.length := by
  rw [renumMap_of_mem ks s k h]
  have : (ks.filter (· < k)).length < ks.length := by
    rw [List.length_filter_lt_length_iff_exists]
    exact ⟨k, h, by simp⟩
  omega

/-! ### Renumbering pass lemmas -/

theorem renumber_objects (d : Document) (s : Nat) :
    (d.renumber_objects_with s).objects =
      d.objects.map (fun kv =>
        (renumMap (poolKeys d.objects) s kv.1, renObj (renumMap (poolKeys d.objects) s) kv.2)) :=
  rfl

theorem renumber_poolKeys (d : Document) (s : Nat) :
    poolKeys (d.renumber_objects_with s).objects =
      (poolKeys d.objects).map (renumMap (poolKeys d.objects) s) := by
  simp [renumber_objects, poolKeys, List.map_map]

theorem renumber_pageOrder (d : Document) (s : Nat) :
    (d.renumber_objects_with s).pageOrder =
      d.pageOrder.map (renumMap (poolKeys d.objects) s) :=
  rfl

theorem renumber_max_id (d : Document) (s : Nat) :
    (d.renumber_objects_with s).max_id = s + d.objects.length - 1 :=
  rfl

theorem renumber_keys_bounds (d : Document) (s : Nat) (k : Nat)
    (h : k ∈ poolKeys (d.renumber_objects_with s).objects) :
    s ≤ k ∧ k < s + d.objects.length := by
  rw [renumber_poolKeys] at h
  obtain ⟨k0, hk0, rfl⟩ := List.mem_map.mp h
  have hlen : (poolKeys d.objects).length = d.objects.length := List.length_map _ _
  exact ⟨renumMap_lower _ s k0 hk0, hlen ▸ renumMap_upper _ s k0 hk0⟩

theorem renumber_sorted (d : Document) (s : Nat) (hs : poolSorted d.objects) :
    poolSorted (d.renumber_objects_with s).objects := by
  rw [poolSorted, renumber_objects, List.pairwise_map]
  refine hs.imp_of_mem ?_
  intro a b ha hb hab
  exact renumMap_strictMono (poolKeys d.objects) s
    (List.mem_map_of_mem Prod.fst ha) (List.mem_map_of_mem Prod.fst hb) hab

theorem poolGet_mapKeys (p : Pool) (f : Nat → Nat) (g : Object → Object) (k : Nat)
    (hk : k ∈ poolKeys p)
    (hinj : ∀ a ∈ poolKeys p, f a = f k → a = k) :
    poolGet (p.map (fun kv => (f kv.1, g kv.2))) (f k) = (poolGet p k).map g := by
  induction p with
  | nil => simp [poolKeys] at hk
  | cons kv t ih =>
    obtain ⟨k0, v0⟩ := kv
    by_cases h : k0 = k
    · subst h
      simp [poolGet]
    · have hf : f k0 ≠ f k := fun hc => h (hinj k0 (by simp [poolKeys]) hc)
      have hk' : k ∈ poolKeys t := by
        rcases List.mem_cons.mp hk with hx | hx
        · exact absurd hx.symm h
        · exact hx
      simp only [List.map_cons, poolGet, if_neg hf, if_neg h]
      exact ih hk' (fun a ha => hinj a (List.mem_cons_of_mem _ ha))

theorem renumber_poolGet (d : Document) (s : Nat) (k : Nat)
    (hk : k ∈ poolKeys d.objects) :
    poolGet (d.renumber_objects_with s).objects (renumMap (poolKeys d.objects) s k) =
      (poolGet d.objects k).map (renObj (renumMap (poolKeys d.objects) s)) := by
  rw [renumber_objects]
  exact poolGet_mapKeys d.objects _ _ k hk
    (fun a ha h => renumMap_inj (poolKeys d.objects) s ha hk h)

/-! ### Accumulation loop lemmas -/

theorem mergeStep_documents_objects (st : MergeState) (doc : Document) :
    (mergeStep st doc).documents_objects =
      poolExtend st.documents_objects (doc.renumber_objects_with st.max_id).objects := by
  rw [mergeStep]

theorem mergeStep_documents_pages (st : MergeState) (doc : Document) :
    (mergeStep st doc).documents_pages =
      poolExtend st.documents_pages (pageEntriesOf (doc.renumber_objects_with st.max_id)) := by
  rw [mergeStep]
  cases hp : (doc.renumber_objects_with st.max_id).get_pages <;>
    simp [hp, pageEntriesOf]

theorem mergeStep_max_id (st : MergeState) (doc : Document) :
    (mergeStep st doc).max_id = (doc.renumber_objects_with st.max_id).max_id + 1 := by
  rw [mergeStep]

theorem mergeStep_max_id_offset (st : MergeState) (doc : Document) (h : 1 ≤ st.max_id) :
    (mergeStep st doc).max_id = nextOffset doc st.max_id := by
  rw [mergeStep_max_id, renumber_max_id, nextOffset]
  omega

theorem mergeStep_pagenum (st : MergeState) (doc : Document) :
    (mergeStep st doc).pagenum =
      match (doc.renumber_objects_with st.max_id).get_pages with
      | [] => st.pagenum
      | _ :: _ => st.pagenum + 1 := by
  rw [mergeStep]
  cases hp : (doc.renumber_objects_with st.max_id).get_pages <;> simp [hp]

theorem mergeStep_document (st : MergeState) (doc : Document) :
    (mergeStep st doc).document =
      match (doc.renumber_objects_with st.max_id).get_pages with
      | [] => st.document
      | pid :: _ => st.document.add_bookmark
          ⟨"Page_" ++ toString st.pagenum, (0, 0, 1), 0, pid⟩ := by
  rw [mergeStep]
  cases hp : (doc.renumber_objects_with st.max_id).get_pages <;> simp [hp]

theorem mergeAccum_document_objects (docs : List (Document × String)) : ∀ st : MergeState,
    (mergeAccum st docs).document.objects = st.document.objects := by
  induction docs with
  | nil => intro st; rfl
  | cons p rest ih =>
    intro st
    obtain ⟨doc, nm⟩ := p
    rw [mergeAccum, ih, mergeStep_document]
    cases hp : (doc.renumber_objects_with st.max_id).get_pages <;>
      simp [Document.add_bookmark]

theorem mergeAccum_document_trailer (docs : List (Document × String)) : ∀ st : MergeState,
    (mergeAccum st docs).document.trailer = st.document.trailer := by
  induction docs with
  | nil => intro st; rfl
  | cons p rest ih =>
    intro st
    obtain ⟨doc, nm⟩ := p
    rw [mergeAccum, ih, mergeStep_document]
    cases hp : (doc.renumber_objects_with st.max_id).get_pages <;>
      simp [Document.add_bookmark]

theorem mergeAccum_document_max_id (docs : List (Document × String)) : ∀ st : MergeState,
    (mergeAccum st docs).document.max_id = st.document.max_id := by
  induction docs with
  | nil => intro st; rfl
  | cons p rest ih =>
    intro st
    obtain ⟨doc, nm⟩ := p
    rw [mergeAccum, ih, mergeStep_document]
    cases hp : (doc.renumber_objects_with st.max_id).get_pages <;>
      simp [Document.add_bookmark]

theorem mergeAccum_documents_objects (docs : List (Document × String)) : ∀ st : MergeState,
    1 ≤ st.max_id →
    (∀ kv ∈ st.documents_objects, kv.1 < st.max_id) →
    (∀ p ∈ docs, poolSorted p.1.objects) →
    (mergeAccum st docs).documents_objects =
      st.documents_objects ++ objBlocks st.max_id (docs.map Prod.fst) := by
  induction docs with
  | nil => intro st _ _ _; simp [mergeAccum, objBlocks]
  | cons p rest ih =>
    intro st hmax hbound hsorted
    obtain ⟨doc, nm⟩ := p
    set d := doc.renumber_objects_with st.max_id with hd
    have hcross : ∀ x ∈ st.documents_objects, ∀ y ∈ d.objects, x.1 < y.1 := by
      intro x hx y hy
      have hy1 : y.1 ∈ poolKeys d.objects := List.mem_map_of_mem Prod.fst hy
      have := (renumber_keys_bounds doc st.max_id y.1 hy1).1
      have := hbound x hx
      omega
    have hstep : (mergeStep st doc).documents_objects =
        st.documents_objects ++ d.objects := by
      rw [mergeStep_documents_objects, poolExtend_eq_append _ _ hcross,
        poolOfList_sorted_self _ (renumber_sorted doc st.max_id
          (hsorted (doc, nm) (by simp)))]
    have hoff : (mergeStep st doc).max_id = nextOffset doc st.max_id :=
      mergeStep_max_id_offset st doc hmax
    rw [mergeAccum, ih (mergeStep st doc)
      (by rw [hoff, nextOffset]; omega)
      (by
        intro kv hkv
        rw [hstep] at hkv
        rw [hoff, nextOffset]
        rcases List.mem_append.mp hkv with h | h
        · have := hbound kv h
          omega
        · have hk : kv.1 ∈ poolKeys d.objects := List.mem_map_of_mem Prod.fst h
          exact (renumber_keys_bounds doc st.max_id kv.1 hk).2)
      (fun q hq => hsorted q (by simp [hq]))]
    rw [hstep, hoff, List.map_cons, objBlocks, List.append_assoc]

theorem pageEntriesOf_keys (d : Document) :
    poolKeys (pageEntriesOf d) = d.pageOrder := by
  simp only [pageEntriesOf, poolKeys, Document.get_pages, List.map_map]
  generalize d.pageOrder = l
  induction l with
  | nil => rfl
  | cons p t ih => simp [ih]

theorem mergeAccum_documents_pages (docs : List (Document × String)) : ∀ st : MergeState,
    1 ≤ st.max_id →
    (∀ kv ∈ st.documents_pages, kv.1 < st.max_id) →
    (∀ p ∈ docs, ∀ pid ∈ p.1.pageOrder, pid ∈ poolKeys p.1.objects) →
    (mergeAccum st docs).documents_pages =
      st.documents_pages ++ pageBlocks st.max_id (docs.map Prod.fst) := by
  induction docs with
  | nil => intro st _ _ _; simp [mergeAccum, pageBlocks]
  | cons p rest ih =>
    intro st hmax hbound hpages
    obtain ⟨doc, nm⟩ := p
    set d := doc.renumber_objects_with st.max_id with hd
    have hkeys : ∀ k ∈ poolKeys (pageEntriesOf d), st.max_id ≤ k ∧ k < nextOffset doc st.max_id := by
      intro k hk
      rw [pageEntriesOf_keys, hd, renumber_pageOrder] at hk
      obtain ⟨pid, hpid, rfl⟩ := List.mem_map.mp hk
      have hmem : pid ∈ poolKeys doc.objects := hpages (doc, nm) (by simp) pid hpid
      have h1 := renumMap_lower (poolKeys doc.objects) st.max_id pid hmem
      have h2 := renumMap_upper (poolKeys doc.objects) st.max_id pid hmem
      have hlen : (poolKeys doc.objects).length = doc.objects.length := List.length_map _ _
      rw [nextOffset]
      omega
    have hcross : ∀ x ∈ st.documents_pages, ∀ y ∈ pageEntriesOf d, x.1 < y.1 := by
      intro x hx y hy
      have := (hkeys y.1 (List.mem_map_of_mem Prod.fst hy)).1
      have := hbound x hx
      omega
    have hstep : (mergeStep st doc).documents_pages =
        st.documents_pages ++ poolOfList (pageEntriesOf d) := by
      rw [mergeStep_documents_pages, poolExtend_eq_append _ _ hcross]
    have hoff : (mergeStep st doc).max_id = nextOffset doc st.max_id :=
      mergeStep_max_id_offset st doc hmax
    rw [mergeAccum, ih (mergeStep st doc)
      (by rw [hoff, nextOffset]; omega)
      (by
        intro kv hkv
        rw [hstep] at hkv
        rw [hoff]
        rcases List.mem_append.mp hkv with h | h
        · have := hbound kv h
          rw [nextOffset]
          omega
        · have hmem : kv ∈ pageEntriesOf d := mem_poolOfList (pageEntriesOf d) kv h
          exact (hkeys kv.1 (List.mem_map_of_mem Prod.fst hmem)).2)
      (fun q hq => hpages q (by simp [hq]))]
    rw [hstep, hoff, List.map_cons, pageBlocks, List.append_assoc]

theorem mergeAccum_bookmarks (docs : List (Document × String)) : ∀ st : MergeState,
    1 ≤ st.max_id →
    (mergeAccum st docs).document.bookmarks =
      st.document.bookmarks ++
        labelBookmarks st.pagenum (contributingFirstPages st.max_id (docs.map Prod.fst)) := by
  induction docs with
  | nil => intro st _; simp [mergeAccum, contributingFirstPages, labelBookmarks]
  | cons p rest ih =>
    intro st hmax
    obtain ⟨doc, nm⟩ := p
    have hoff : (mergeStep st doc).max_id = nextOffset doc st.max_id :=
      mergeStep_max_id_offset st doc hmax
    have hmax2 : 1 ≤ (mergeStep st doc).max_id := by
      rw [hoff, nextOffset]; omega
    rw [mergeAccum, ih (mergeStep st doc) hmax2, hoff, mergeStep_document, mergeStep_pagenum]
    have hgp : (doc.renumber_objects_with st.max_id).get_pages =
        doc.pageOrder.map (docMap doc st.max_id) := renumber_pageOrder doc st.max_id
    cases hp : doc.pageOrder with
    | nil =>
      rw [hgp, hp]
      simp [List.map_cons, contributingFirstPages, hp]
    | cons p0 t0 =>
      rw [hgp, hp]
      simp only [List.map_cons, List.map_nil, Document.add_bookmark]
      rw [List.append_assoc]
      congr 1
      simp [contributingFirstPages, hp, labelBookmarks, mkBookmark]

theorem objBlocks_keys_lower (ds : List Document) : ∀ (s : Nat),
    ∀ k ∈ poolKeys (objBlocks s ds), s ≤ k := by
  induction ds with
  | nil => intro s k hk; simp [objBlocks, poolKeys] at hk
  | cons d t ih =>
    intro s k hk
    rw [objBlocks, poolKeys, List.map_append] at hk
    rcases List.mem_append.mp hk with h | h
    · exact (renumber_keys_bounds d s k h).1
    · have := ih (nextOffset d s) k h
      rw [nextOffset] at this
      omega

theorem objBlocks_sorted (ds : List Document) : ∀ (s : Nat),
    (∀ d ∈ ds, poolSorted d.objects) → poolSorted (objBlocks s ds) := by
  induction ds with
  | nil => intro s _; simp [objBlocks, poolSorted]
  | cons d t ih =>
    intro s hs
    rw [objBlocks, poolSorted, List.pairwise_append]
    refine ⟨renumber_sorted d s (hs d (by simp)), ih (nextOffset d s) (fun q hq => hs q (by simp [hq])), ?_⟩
    intro a ha b hb
    have ha1 := (renumber_keys_bounds d s a.1 (List.mem_map_of_mem Prod.fst ha)).2
    have hb1 := objBlocks_keys_lower t (nextOffset d s) b.1 (List.mem_map_of_mem Prod.fst hb)
    rw [nextOffset] at hb1
    omega

/-! ### Classification lemmas -/

theorem isCatalogEntry_iff (e : Nat × Object) :
    isCatalogEntry e = true ↔ (e.2.type_name).getD "" = "Catalog" := by
  simp [isCatalogEntry]

theorem isPagesEntry_iff (e : Nat × Object) :
    isPagesEntry e = true ↔ (e.2.type_name).getD "" = "Pages" := by
  simp [isPagesEntry]

theorem classifyStep_catalog (st : ClassifyState) (e : Nat × Object)
    (h : (e.2.type_name).getD "" = "Catalog") :
    classifyStep st e = { st with
      catalog_object := some
        (match st.catalog_object with
         | some (id, _) => id
         | none => e.1, e.2) } := by
  obtain ⟨id, o⟩ := e
  simp only [classifyStep, h]

theorem classifyStep_pages_dict (st : ClassifyState) (e : Nat × Object) (dd : Dict)
    (h : (e.2.type_name).getD "" = "Pages") (hd : e.2.as_dict = some dd) :
    classifyStep st e = { st with
      pages_object := some
        (match st.pages_object with
         | some (id, _) => id
         | none => e.1,
         .dictionary
           (match st.pages_object with
            | some (_, old) =>
              match old.as_dict with
              | some old_dictionary => dd.extend old_dictionary
              | none => dd
            | none => dd)) } := by
  obtain ⟨id, o⟩ := e
  simp only [classifyStep, h, hd]

theorem classifyStep_pages_nondict (st : ClassifyState) (e : Nat × Object)
    (h : (e.2.type_name).getD "" = "Pages") (hd : e.2.as_dict = none) :
    classifyStep st e = st := by
  obtain ⟨id, o⟩ := e
  simp only [classifyStep, h, hd]

theorem classifyStep_skip (st : ClassifyState) (e : Nat × Object)
    (h : (e.2.type_name).getD "" = "Page" ∨ (e.2.type_name).getD "" = "Outlines" ∨
      (e.2.type_name).getD "" = "Outline") :
    classifyStep st e = st := by
  obtain ⟨id, o⟩ := e
  rcases h with h | h | h <;> simp only [classifyStep, h]

theorem classifyStep_other (st : ClassifyState) (e : Nat × Object)
    (h : isOtherEntry e = true) :
    classifyStep st e = { st with outPool := poolInsert st.outPool e.1 e.2 } := by
  obtain ⟨id, o⟩ := e
  simp only [isOtherEntry, Bool.not_eq_true', Bool.or_eq_false_iff, beq_eq_false_iff_ne,
    ne_eq] at h
  simp only [classifyStep]
  split
  · simp_all
  · simp_all
  · simp_all
  · simp_all
  · simp_all
  · rfl

theorem entry_cases (e : Nat × Object) :
    (e.2.type_name).getD "" = "Catalog" ∨
    ((e.2.type_name).getD "" = "Pages" ∧ ∃ dd, e.2.as_dict = some dd) ∨
    ((e.2.type_name).getD "" = "Pages" ∧ e.2.as_dict = none) ∨
    ((e.2.type_name).getD "" = "Page" ∨ (e.2.type_name).getD "" = "Outlines" ∨
      (e.2.type_name).getD "" = "Outline") ∨
    isOtherEntry e = true := by
  by_cases h1 : (e.2.type_name).getD "" = "Catalog"
  · exact Or.inl h1
  by_cases h2 : (e.2.type_name).getD "" = "Pages"
  · cases hd : e.2.as_dict with
    | some dd => exact Or.inr (Or.inl ⟨h2, dd, rfl⟩)
    | none => exact Or.inr (Or.inr (Or.inl ⟨h2, rfl⟩))
  by_cases h3 : (e.2.type_name).getD "" = "Page"
  · exact Or.inr (Or.inr (Or.inr (Or.inl (Or.inl h3))))
  by_cases h4 : (e.2.type_name).getD "" = "Outlines"
  · exact Or.inr (Or.inr (Or.inr (Or.inl (Or.inr (Or.inl h4)))))
  by_cases h5 : (e.2.type_name).getD "" = "Outline"
  · exact Or.inr (Or.inr (Or.inr (Or.inl (Or.inr (Or.inr h5)))))
  refine Or.inr (Or.inr (Or.inr (Or.inr ?_)))
  simp [isOtherEntry, h1, h2, h3, h4, h5]

theorem classifyStep_catalog_unchanged (st : ClassifyState) (e : Nat × Object)
    (h : (e.2.type_name).getD "" ≠ "Catalog") :
    (classifyStep st e).catalog_object = st.catalog_object := by
  obtain ⟨id, o⟩ := e
  simp only [classifyStep]
  split
  · simp_all
  · cases o.as_dict <;> rfl
  · rfl
  · rfl
  · rfl
  · rfl

theorem classifyStep_pages_unchanged (st : ClassifyState) (e : Nat × Object)
    (h : (e.2.type_name).getD "" ≠ "Pages") :
    (classifyStep st e).pages_object = st.pages_object := by
  obtain ⟨id, o⟩ := e
  simp only [classifyStep]
  split
  · rfl
  · simp_all
  · rfl
  · rfl
  · rfl
  · rfl

theorem classifyStep_outPool_unchanged (st : ClassifyState) (e : Nat × Object)
    (h : isOtherEntry e = false) :
    (classifyStep st e).outPool = st.outPool := by
  obtain ⟨id, o⟩ := e
  simp only [isOtherEntry, Bool.not_eq_false', Bool.or_eq_true_iff, beq_iff_eq] at h
  simp only [classifyStep]
  split
  · rfl
  · cases o.as_dict <;> rfl
  · rfl
  · rfl
  · rfl
  · simp_all

theorem getLast?_cons_or {α : Type} (a : α) (l : List α) :
    (a :: l).getLast? = (l.getLast?).or (some a) := by
  induction l generalizing a with
  | nil => rfl
  | cons b t ih =>
    rw [List.getLast?_cons_cons, ih b]
    cases hg : t.getLast? <;> simp

theorem classifyFold_catalog_id (l : Pool) : ∀ st : ClassifyState,
    (l.foldl classifyStep st).catalog_object.map Prod.fst =
      (st.catalog_object.map Prod.fst).or
        (((l.filter isCatalogEntry).head?).map Prod.fst) := by
  induction l with
  | nil => intro st; cases hc : st.catalog_object <;> simp [hc]
  | cons e t ih =>
    intro st
    rw [List.foldl_cons, List.filter_cons]
    by_cases hc : (e.2.type_name).getD "" = "Catalog"
    · rw [classifyStep_catalog st e hc, if_pos ((isCatalogEntry_iff e).mpr hc)]
      rw [ih]
      cases hcat : st.catalog_object with
      | none => simp
      | some c => obtain ⟨cid, co⟩ := c; simp
    · have hne : ¬isCatalogEntry e = true := fun hx => hc ((isCatalogEntry_iff e).mp hx)
      rw [if_neg hne, ih, classifyStep_catalog_unchanged st e hc]

theorem classifyFold_catalog_content (l : Pool) : ∀ st : ClassifyState,
    (l.foldl classifyStep st).catalog_object.map Prod.snd =
      (((l.filter isCatalogEntry).getLast?).map Prod.snd).or
        (st.catalog_object.map Prod.snd) := by
  induction l with
  | nil => intro st; cases hc : st.catalog_object <;> simp [hc]
  | cons e t ih =>
    intro st
    rw [List.foldl_cons, List.filter_cons]
    by_cases hc : (e.2.type_name).getD "" = "Catalog"
    · rw [classifyStep_catalog st e hc, if_pos ((isCatalogEntry_iff e).mpr hc)]
      rw [ih, getLast?_cons_or, Option.map_or', Option.or_assoc]
      have hsnd : (({ st with
          catalog_object := some
            (match st.catalog_object with
             | some (id, _) => id
             | none => e.1, e.2) } : ClassifyState).catalog_object).map Prod.snd =
          some e.2 := by
        cases st.catalog_object with
        | none => rfl
        | some c => obtain ⟨cid, co⟩ := c; rfl
      rw [hsnd]
      cases hg : ((t.filter isCatalogEntry).getLast?).map Prod.snd <;>
        cases hst : (st.catalog_object).map Prod.snd <;> simp
    · have hne : ¬isCatalogEntry e = true := fun hx => hc ((isCatalogEntry_iff e).mp hx)
      rw [if_neg hne, ih, classifyStep_catalog_unchanged st e hc]

theorem classifyFold_outPool (l : Pool) : ∀ st : ClassifyState,
    (∀ kv ∈ st.outPool, ∀ e ∈ l, kv.1 < e.1) → poolSorted l →
    (l.foldl classifyStep st).outPool = st.outPool ++ l.filter isOtherEntry := by
  induction l with
  | nil => intro st _ _; simp
  | cons e t ih =>
    intro st hcross hsort
    rw [poolSorted, List.pairwise_cons] at hsort
    rw [List.foldl_cons, List.filter_cons]
    by_cases ho : isOtherEntry e = true
    · rw [classifyStep_other st e ho, if_pos ho]
      have hins : poolInsert st.outPool e.1 e.2 = st.outPool ++ [e] := by
        have := poolInsert_append_left st.outPool [] e.1 e.2
          (fun x hx => hcross x hx e (by simp))
        simpa using this
      rw [ih _ ?_ hsort.2]
      · rw [hins, List.append_assoc]
        rfl
      · intro kv hkv e2 he2
        rw [hins] at hkv
        rcases List.mem_append.mp hkv with hx | hx
        · exact hcross kv hx e2 (List.mem_cons_of_mem _ he2)
        · simp at hx
          rw [hx]
          exact hsort.1 e2 he2
    · rw [if_neg ho, ih _ ?_ hsort.2, classifyStep_outPool_unchanged st e (by simpa using ho)]
      intro kv hkv e2 he2
      rw [classifyStep_outPool_unchanged st e (by simpa using ho)] at hkv
      exact hcross kv hkv e2 (List.mem_cons_of_mem _ he2)

theorem pagesDicts_cons_dict (e : Nat × Object) (t : Pool) (dd : Dict)
    (h : isPagesEntry e = true) (hd : e.2.as_dict = some dd) :
    pagesDicts (e :: t) = (e.1, dd) :: pagesDicts t := by
  simp [pagesDicts, h, hd]

theorem pagesDicts_cons_notPages (e : Nat × Object) (t : Pool)
    (h : isPagesEntry e = false) :
    pagesDicts (e :: t) = pagesDicts t := by
  simp [pagesDicts, h]

theorem pagesDicts_cons_nondict (e : Nat × Object) (t : Pool)
    (hd : e.2.as_dict = none) :
    pagesDicts (e :: t) = pagesDicts t := by
  by_cases h : isPagesEntry e <;> simp [pagesDicts, h, hd]

theorem classifyFold_pages_some (l : Pool) : ∀ (st : ClassifyState) (id0 : Nat) (D0 : Dict),
    st.pages_object = some (id0, .dictionary D0) →
    D0.keys.Nodup →
    (∀ pd ∈ pagesDicts l, pd.2.keys.Nodup) →
    ∃ D : Dict, (l.foldl classifyStep st).pages_object = some (id0, .dictionary D) ∧
      D.keys.Nodup ∧
      ∀ k, D.get k = (D0.get k).or (firstSeenVal k (pagesDicts l)) := by
  induction l with
  | nil =>
    intro st id0 D0 hst hnd _
    exact ⟨D0, hst, hnd, fun k => by simp [firstSeenVal, Option.or_none]⟩
  | cons e t ih =>
    intro st id0 D0 hst hnd hdicts
    rw [List.foldl_cons]
    by_cases hp : (e.2.type_name).getD "" = "Pages"
    · cases hd : e.2.as_dict with
      | some dd =>
        have hpd : pagesDicts (e :: t) = (e.1, dd) :: pagesDicts t :=
          pagesDicts_cons_dict e t dd ((isPagesEntry_iff e).mpr hp) hd
        have hddnd : dd.keys.Nodup := by
          have := hdicts (e.1, dd) (by rw [hpd]; simp)
          exact this
        rw [classifyStep_pages_dict st e dd hp hd]
        have hst2 : ({ st with
            pages_object := some
              (match st.pages_object with
               | some (id, _) => id
               | none => e.1,
               .dictionary
                 (match st.pages_object with
                  | some (_, old) =>
                    match old.as_dict with
                    | some old_dictionary => dd.extend old_dictionary
                    | none => dd
                  | none => dd)) } : ClassifyState).pages_object =
            some (id0, .dictionary (dd.extend D0)) := by
          rw [hst]
          rfl
        obtain ⟨D, hD, hDnd, hDget⟩ := ih _ id0 (dd.extend D0)
          (by rw [hst2])
          (Dict.nodup_keys_extend dd D0 hddnd)
          (fun pd hpd2 => hdicts pd (by rw [hpd]; exact List.mem_cons_of_mem _ hpd2))
        refine ⟨D, hD, hDnd, fun k => ?_⟩
        rw [hDget k, Dict.extend_get dd D0 hnd k, hpd, firstSeenVal, Option.or_assoc]
      | none =>
        rw [classifyStep_pages_nondict st e hp hd,
          pagesDicts_cons_nondict e t hd] at *
        exact ih st id0 D0 hst hnd hdicts
    · have hne : isPagesEntry e = false := by
        rw [← Bool.not_eq_true]
        exact fun hx => hp ((isPagesEntry_iff e).mp hx)
      rw [pagesDicts_cons_notPages e t hne] at hdicts ⊢
      obtain ⟨D, hD, hDnd, hDget⟩ := ih (classifyStep st e) id0 D0
        (by rw [classifyStep_pages_unchanged st e hp, hst]) hnd hdicts
      exact ⟨D, hD, hDnd, hDget⟩

theorem classifyFold_pages_none (l : Pool) : ∀ (st : ClassifyState),
    st.pages_object = none →
    (∀ pd ∈ pagesDicts l, pd.2.keys.Nodup) →
    (pagesDicts l = [] ∧ (l.foldl classifyStep st).pages_object = none) ∨
    (∃ id0 dd0 rest, pagesDicts l = (id0, dd0) :: rest ∧
      ∃ D : Dict, (l.foldl classifyStep st).pages_object = some (id0, .dictionary D) ∧
        D.keys.Nodup ∧
        ∀ k, D.get k = firstSeenVal k (pagesDicts l)) := by
  induction l with
  | nil => intro st hst _; exact Or.inl ⟨rfl, hst⟩
  | cons e t ih =>
    intro st hst hdicts
    rw [List.foldl_cons]
    by_cases hp : (e.2.type_name).getD "" = "Pages"
    · cases hd : e.2.as_dict with
      | some dd =>
        have hpd : pagesDicts (e :: t) = (e.1, dd) :: pagesDicts t :=
          pagesDicts_cons_dict e t dd ((isPagesEntry_iff e).mpr hp) hd
        have hddnd : dd.keys.Nodup := hdicts (e.1, dd) (by rw [hpd]; simp)
        rw [classifyStep_pages_dict st e dd hp hd]
        have hst2 : ({ st with
            pages_object := some
              (match st.pages_object with
               | some (id, _) => id
               | none => e.1,
               .dictionary
                 (match st.pages_object with
                  | some (_, old) =>
                    match old.as_dict with
                    | some old_dictionary => dd.extend old_dictionary
                    | none => dd
                  | none => dd)) } : ClassifyState).pages_object =
            some (e.1, .dictionary dd) := by
          rw [hst]
        obtain ⟨D, hD, hDnd, hDget⟩ := classifyFold_pages_some t _ e.1 dd hst2 hddnd
          (fun pd hpd2 => hdicts pd (by rw [hpd]; exact List.mem_cons_of_mem _ hpd2))
        refine Or.inr ⟨e.1, dd, pagesDicts t, hpd, D, hD, hDnd, fun k => ?_⟩
        rw [hDget k, hpd, firstSeenVal]
      | none =>
        rw [classifyStep_pages_nondict st e hp hd]
        rw [pagesDicts_cons_nondict e t hd] at hdicts ⊢
        exact ih st hst hdicts
    · have hne : isPagesEntry e = false := by
        rw [← Bool.not_eq_true]
        exact fun hx => hp ((isPagesEntry_iff e).mp hx)
      rw [pagesDicts_cons_notPages e t hne] at hdicts ⊢
      exact ih (classifyStep st e)
        (by rw [classifyStep_pages_unchanged st e hp, hst]) hdicts

/-! ### Assembled stage lemmas -/

theorem validDoc_sorted {d : Document} (h : ValidDoc d) : poolSorted d.objects := h.1

theorem validDoc_pageOrder_mem {d : Document} (h : ValidDoc d) :
    ∀ pid ∈ d.pageOrder, pid ∈ poolKeys d.objects := by
  intro pid hpid
  have := h.2.2.1 pid hpid
  rw [← poolGet_isSome_iff_mem]
  cases hg : poolGet d.objects pid with
  | none => rw [hg] at this; exact absurd this (by simp [isPageEntry])
  | some o => simp

theorem accumOf_documents_objects (docs : List (Document × String)) (h : ValidDocs docs) :
    (accumOf docs).documents_objects = objBlocks 1 (docs.map Prod.fst) := by
  have := mergeAccum_documents_objects docs initState (by simp [initState])
    (by simp [initState]) (fun p hp => validDoc_sorted (h p hp))
  simpa [accumOf, initState] using this

theorem accumOf_documents_pages (docs : List (Document × String)) (h : ValidDocs docs) :
    (accumOf docs).documents_pages = pageBlocks 1 (docs.map Prod.fst) := by
  have := mergeAccum_documents_pages docs initState (by simp [initState])
    (by simp [initState]) (fun p hp => validDoc_pageOrder_mem (h p hp))
  simpa [accumOf, initState] using this

theorem accumOf_bookmarks (docs : List (Document × String)) :
    (accumOf docs).document.bookmarks =
      labelBookmarks 1 (contributingFirstPages 1 (docs.map Prod.fst)) := by
  have := mergeAccum_bookmarks docs initState (by simp [initState])
  simpa [accumOf, initState, Document.with_version] using this

theorem accumOf_document_objects (docs : List (Document × String)) :
    (accumOf docs).document.objects = [] := by
  have := mergeAccum_document_objects docs initState
  simpa [accumOf, initState, Document.with_version] using this

theorem accumOf_document_trailer (docs : List (Document × String)) :
    (accumOf docs).document.trailer = .nil := by
  have := mergeAccum_document_trailer docs initState
  simpa [accumOf, initState, Document.with_version] using this

theorem classifyOf_eq (docs : List (Document × String)) :
    classifyOf docs =
      (accumOf docs).documents_objects.foldl classifyStep ⟨none, none, []⟩ := by
  rw [classifyOf, classify, accumOf_document_objects]

theorem dictKeysNodup_spec (o : Object) (h : dictKeysNodup o = true) :
    ∃ dd, o.as_dict = some dd ∧ dd.keys.Nodup := by
  unfold dictKeysNodup at h
  cases hd : o.as_dict with
  | none => rw [hd] at h; exact absurd h (by simp)
  | some dd => rw [hd] at h; exact ⟨dd, rfl, by simpa using h⟩

theorem wellTyped_renObj (m : Nat → Nat) (o : Object) (h : wellTyped o) :
    wellTyped (renObj m o) := by
  intro hor
  rw [type_name_renObj] at hor
  obtain ⟨dd, hdd, hnd⟩ := dictKeysNodup_spec o (h hor)
  unfold dictKeysNodup
  rw [as_dict_renObj, hdd]
  simpa [keys_renDict] using hnd

theorem mem_objBlocks (ds : List Document) : ∀ (s : Nat), ∀ kv ∈ objBlocks s ds,
    ∃ d ∈ ds, ∃ s', ∃ kv0 ∈ d.objects,
      kv = (renumMap (poolKeys d.objects) s' kv0.1,
        renObj (renumMap (poolKeys d.objects) s') kv0.2) := by
  induction ds with
  | nil => intro s kv hkv; simp [objBlocks] at hkv
  | cons d t ih =>
    intro s kv hkv
    rw [objBlocks] at hkv
    rcases List.mem_append.mp hkv with h | h
    · rw [renumber_objects] at h
      obtain ⟨kv0, hkv0, rfl⟩ := List.mem_map.mp h
      exact ⟨d, by simp, s, kv0, hkv0, rfl⟩
    · obtain ⟨d2, hd2, s', kv0, hkv0, heq⟩ := ih (nextOffset d s) kv h
      exact ⟨d2, List.mem_cons_of_mem _ hd2, s', kv0, hkv0, heq⟩

theorem objBlocks_wellTyped (docs : List (Document × String)) (h : ValidDocs docs) :
    ∀ kv ∈ objBlocks 1 (docs.map Prod.fst), wellTyped kv.2 := by
  intro kv hkv
  obtain ⟨d, hd, s', kv0, hkv0, heq⟩ := mem_objBlocks (docs.map Prod.fst) 1 kv hkv
  obtain ⟨p, hp, hpd⟩ := List.mem_map.mp hd
  have hw : wellTyped kv0.2 := (h p hp).2.2.2 kv0 (hpd ▸ hkv0)
  rw [heq]
  exact wellTyped_renObj _ kv0.2 hw

theorem mem_pagesDicts (l : Pool) (pd : Nat × Dict) (h : pd ∈ pagesDicts l) :
    ∃ kv ∈ l, isPagesEntry kv = true ∧ kv.2.as_dict = some pd.2 ∧ kv.1 = pd.1 := by
  obtain ⟨kv, hkv, heq⟩ := List.mem_filterMap.mp h
  by_cases hp : isPagesEntry kv = true
  · rw [if_pos hp] at heq
    cases hd : kv.2.as_dict with
    | none => rw [hd] at heq; simp at heq
    | some dd =>
      rw [hd] at heq
      simp at heq
      exact ⟨kv, hkv, hp, by rw [hd, ← heq], by rw [← heq]⟩
  · rw [if_neg hp] at heq
    simp at heq

theorem isPagesEntry_type_name (kv : Nat × Object) (h : isPagesEntry kv = true) :
    kv.2.type_name = some "Pages" := by
  rw [isPagesEntry_iff] at h
  cases ht : kv.2.type_name with
  | none => rw [ht] at h; simp at h
  | some t => rw [ht] at h; simp at h; rw [h]

theorem isCatalogEntry_type_name (kv : Nat × Object) (h : isCatalogEntry kv = true) :
    kv.2.type_name = some "Catalog" := by
  rw [isCatalogEntry_iff] at h
  cases ht : kv.2.type_name with
  | none => rw [ht] at h; simp at h
  | some t => rw [ht] at h; simp at h; rw [h]

theorem pagesDicts_nodup_of_valid (docs : List (Document × String)) (h : ValidDocs docs) :
    ∀ pd ∈ pagesDicts ((accumOf docs).documents_objects), pd.2.keys.Nodup := by
  intro pd hpd
  rw [accumOf_documents_objects docs h] at hpd
  obtain ⟨kv, hkv, hp, hd, _⟩ := mem_pagesDicts _ pd hpd
  have hw := objBlocks_wellTyped docs h kv hkv
  obtain ⟨dd, hdd, hnd⟩ := dictKeysNodup_spec kv.2 (hw (Or.inr (isPagesEntry_type_name kv hp)))
  rw [hdd] at hd
  cases hd
  exact hnd

theorem merge_eq (docs : List (Document × String)) :
    merge docs =
      match (classifyOf docs).pages_object with
      | none => .error "Pages root not found"
      | some pages_object =>
        match (classifyOf docs).catalog_object with
        | none => .error "Catalog root not found."
        | some catalog_object =>
          .ok (postPasses
            (preRenumberDoc (accumOf docs) (classifyOf docs) pages_object catalog_object)
            catalog_object.1) :=
  rfl

theorem classifyOf_catalog_id (docs : List (Document × String)) :
    (classifyOf docs).catalog_object.map Prod.fst =
      (((accumOf docs).documents_objects.filter isCatalogEntry).head?).map Prod.fst := by
  rw [classifyOf_eq, classifyFold_catalog_id]
  simp

theorem classifyOf_catalog_content (docs : List (Document × String)) :
    (classifyOf docs).catalog_object.map Prod.snd =
      (((accumOf docs).documents_objects.filter isCatalogEntry).getLast?).map Prod.snd := by
  rw [classifyOf_eq, classifyFold_catalog_content]
  simp [Option.or_none]

theorem type_name_exists_in_blocks (ds : List Document) : ∀ (s : Nat), ∀ d ∈ ds,
    ∀ kv0 ∈ d.objects, ∃ kv ∈ objBlocks s ds,
      kv.2.type_name = kv0.2.type_name ∧ kv.2.as_dict.isSome = kv0.2.as_dict.isSome := by
  induction ds with
  | nil => intro s d hd; simp at hd
  | cons d0 t ih =>
    intro s d hd kv0 hkv0
    rcases List.mem_cons.mp hd with rfl | hd2
    · refine ⟨(renumMap (poolKeys d.objects) s kv0.1,
        renObj (renumMap (poolKeys d.objects) s) kv0.2), ?_, ?_, ?_⟩
      · rw [objBlocks]
        refine List.mem_append.mpr (Or.inl ?_)
        rw [renumber_objects]
        exact List.mem_map_of_mem _ hkv0
      · exact type_name_renObj _ kv0.2
      · rw [as_dict_renObj]
        cases kv0.2.as_dict <;> rfl
    · obtain ⟨kv, hkv, h1, h2⟩ := ih (nextOffset d0 s) d hd2 kv0 hkv0
      exact ⟨kv, by rw [objBlocks]; exact List.mem_append.mpr (Or.inr hkv), h1, h2⟩

theorem no_catalog_filter_nil (docs : List (Document × String)) (hv : ValidDocs docs)
    (hno : ∀ p ∈ docs, ∀ kv ∈ p.1.objects, kv.2.type_name ≠ some "Catalog") :
    (accumOf docs).documents_objects.filter isCatalogEntry = [] := by
  rw [accumOf_documents_objects docs hv, List.filter_eq_nil_iff]
  intro kv hkv hcat
  obtain ⟨d, hd, s', kv0, hkv0, heq⟩ := mem_objBlocks (docs.map Prod.fst) 1 kv hkv
  obtain ⟨p, hp, hpd⟩ := List.mem_map.mp hd
  have ht := isCatalogEntry_type_name kv hcat
  rw [heq] at ht
  simp only at ht
  rw [type_name_renObj] at ht
  exact hno p hp kv0 (hpd ▸ hkv0) ht

theorem no_pages_pagesDicts_nil (docs : List (Document × String)) (hv : ValidDocs docs)
    (hno : ∀ p ∈ docs, ∀ kv ∈ p.1.objects, kv.2.type_name ≠ some "Pages") :
    pagesDicts ((accumOf docs).documents_objects) = [] := by
  cases hpd : pagesDicts ((accumOf docs).documents_objects) with
  | nil => rfl
  | cons pd r =>
    exfalso
    have hmem : pd ∈ pagesDicts ((accumOf docs).documents_objects) := by
      rw [hpd]; simp
    obtain ⟨kv, hkv, hpg, _, _⟩ := mem_pagesDicts _ pd hmem
    rw [accumOf_documents_objects docs hv] at hkv
    obtain ⟨d, hd, s', kv0, hkv0, heq⟩ := mem_objBlocks (docs.map Prod.fst) 1 kv hkv
    obtain ⟨p, hp, hpdq⟩ := List.mem_map.mp hd
    have ht := isPagesEntry_type_name kv hpg
    rw [heq] at ht
    simp only at ht
    rw [type_name_renObj] at ht
    exact hno p hp kv0 (hpdq ▸ hkv0) ht

theorem some_pages_pagesDicts_ne_nil (docs : List (Document × String)) (hv : ValidDocs docs)
    (hsome : ∃ p ∈ docs, ∃ kv ∈ p.1.objects, kv.2.type_name = some "Pages") :
    pagesDicts ((accumOf docs).documents_objects) ≠ [] := by
  obtain ⟨p, hp, kv0, hkv0, ht⟩ := hsome
  obtain ⟨kv, hkv, h1, h2⟩ := type_name_exists_in_blocks (docs.map Prod.fst) 1 p.1
    (List.mem_map_of_mem Prod.fst hp) kv0 hkv0
  have hcat : kv.2.type_name = some "Pages" := by rw [h1, ht]
  have hw := objBlocks_wellTyped docs hv kv hkv
  obtain ⟨dd, hdd, _⟩ := dictKeysNodup_spec kv.2 (hw (Or.inr hcat))
  have hmem : (kv.1, dd) ∈ pagesDicts ((accumOf docs).documents_objects) := by
    rw [accumOf_documents_objects docs hv]
    refine List.mem_filterMap.mpr ⟨kv, hkv, ?_⟩
    rw [if_pos (by rw [isPagesEntry_iff, hcat]; rfl), hdd]
    rfl
  intro hnil
  rw [hnil] at hmem
  simp at hmem

theorem firstSeenVal_isSome (k : String) (l : List (Nat × Dict)) :
    (firstSeenVal k l).isSome = true ↔ ∃ pd ∈ l, (pd.2.get k).isSome = true := by
  induction l with
  | nil => simp [firstSeenVal]
  | cons pd t ih =>
    obtain ⟨id0, dd⟩ := pd
    rw [firstSeenVal]
    cases hg : dd.get k <;> simp [hg, ih]

/-- C1, counterexample: merging `exCatA` before `exCatB` (each with a Catalog
whose `Marker` field distinguishes it), the surviving Catalog keeps the
first-encountered id but its content is the LAST-encountered Catalog's
(`Marker = "B"`), not the first-encountered one's (`Marker = "A"`) as the
claim states — and `Marker` is not a Pages/Outlines finalization field. -/
theorem C1_counterexample :
    strVal (fieldAt (mergedObjects (merge [(exCatA, "a.pdf"), (exCatB, "b.pdf")])) 1 "Marker")
      = some "B" ∧
    typeAt (mergedObjects (merge [(exCatA, "a.pdf"), (exCatB, "b.pdf")])) 1 = some "Catalog" ∧
    countType (mergedObjects (merge [(exCatA, "a.pdf"), (exCatB, "b.pdf")])) "Catalog" = 1 ∧
    strVal (fieldAt exCatA.objects 1 "Marker") = some "A" ∧
    strVal (fieldAt exCatB.objects 1 "Marker") = some "B" ∧
    (some "B" : Option String) ≠ some "A" :=
  ⟨rfl, rfl, rfl, rfl, rfl, by decide⟩

/-- C2, counterexample: for `exRevPages`, whose page-tree order is `[4, 3]`
(object id 4 is the first page, id 3 the second), the merged Kids order is
`[3, 4]` — ascending object-id order — which puts the document's second page
first, contradicting "within each document in that document's original
intra-document page order". -/
theorem C2_counterexample :
    kidsAt (mergedObjects (merge [(exRevPages, "p.pdf")])) 2 = [3, 4] ∧
    strVal (fieldAt (mergedObjects (merge [(exRevPages, "p.pdf")])) 4 "Which") = some "first" ∧
    strVal (fieldAt (mergedObjects (merge [(exRevPages, "p.pdf")])) 3 "Which") = some "second" ∧
    pageOrderKidsIds 1 [exRevPages] = [4, 3] ∧
    ([3, 4] : List Nat) ≠ [4, 3] :=
  ⟨rfl, rfl, rfl, rfl, by decide⟩

/-- C3, counterexample: an input with no Catalog AND no Pages fails with the
MissingPages condition ("Pages root not found"), not MissingCatalog, because
the Pages check (line 161) runs before the Catalog check (line 178). -/
theorem C3_counterexample :
    merge [(exUntyped, "x.pdf")] = .error "Pages root not found" ∧
    countType exUntyped.objects "Catalog" = 0 ∧
    "Pages root not found" ≠ "Catalog root not found." :=
  ⟨rfl, rfl, by decide⟩

/-- C7, evaluation at the failing input: for `exOutlineFirst` the dropped
Outline at id 1 leaves a gap below the Catalog (id 2), the dense renumbering
moves the Catalog to id 1, and the outline attachment — which looks up the
STALE pre-renumbering Catalog id 2 — sets `Outlines` on the Pages object
instead; the surviving Catalog ends up without any `Outlines` link. -/
theorem C7_code_bug_eval :
    typeAt (mergedObjects (merge [(exOutlineFirst, "c.pdf")])) 1 = some "Catalog" ∧
    fieldAt (mergedObjects (merge [(exOutlineFirst, "c.pdf")])) 1 "Outlines" = none ∧
    typeAt (mergedObjects (merge [(exOutlineFirst, "c.pdf")])) 2 = some "Pages" ∧
    refVal (fieldAt (mergedObjects (merge [(exOutlineFirst, "c.pdf")])) 2 "Outlines") = some 4 ∧
    typeAt (mergedObjects (merge [(exOutlineFirst, "c.pdf")])) 4 = some "Outlines" ∧
    countType (mergedObjects (merge [(exOutlineFirst, "c.pdf")])) "Catalog" = 1 :=
  ⟨rfl, rfl, rfl, rfl, rfl, rfl⟩

/-- C9, counterexample: merging `exStaleRef` (whose `Other` object 4 holds a
reference to 10) with `exManyOutlines` (whose dropped Outline objects receive
phase-1 ids 8-10), the copied reference to 10 survives verbatim while no
object of the final pool has id 10: a dangling reference. -/
theorem C9_counterexample :
    refVal (fieldAt (mergedObjects (merge [(exStaleRef, "a.pdf"), (exManyOutlines, "b.pdf")])) 4 "X")
      = some 10 ∧
    10 ∈ poolRefs (mergedObjects (merge [(exStaleRef, "a.pdf"), (exManyOutlines, "b.pdf")])) ∧
    10 ∉ poolKeys (mergedObjects (merge [(exStaleRef, "a.pdf"), (exManyOutlines, "b.pdf")])) :=
  ⟨rfl, by decide, by decide⟩

/-! ### Discovery lemmas -/

mutual

theorem load_documents_filterMap : ∀ entries : FSEntryList,
    load_documents_from_path entries = (treeFiles entries).filterMap discoveryKeep
  | .nil => rfl
  | .cons e t => by
    rw [load_documents_from_path, treeFiles, List.filterMap_append,
      loadEntry_filterMap e, load_documents_filterMap t]

theorem loadEntry_filterMap : ∀ e : FSEntry,
    loadEntry e = (entryFiles e).filterMap discoveryKeep
  | .file n p => by
    by_cases h : n.endsWith ".pdf" ∧ n ≠ DEFAULT_FILE_NAME
    · cases p <;> simp [loadEntry, entryFiles, discoveryKeep, h]
    · cases p <;> simp [loadEntry, entryFiles, discoveryKeep, h]
  | .dir entries => by
    rw [loadEntry, entryFiles, load_documents_filterMap entries]
  | .broken => rfl

end

/-- C6: the accumulation loop of the merge emits exactly one top-level
bookmark per document that contributes at least one page, in merge order,
labeled `Page_<n>` with a 1-based counter incremented only for contributing
documents, targeting the document's first page's post-renumbering id
(`contributingFirstPages`/`labelBookmarks` transcribe the claim); documents
with zero pages emit nothing and do not advance the counter. Concretely, A
with two pages before B with one page yields exactly `Page_1 → A.page1`
(id 3) and `Page_2 → B.page1` (id 7 after renumbering). -/
theorem C6_bookmarks :
    (∀ docs : List (Document × String),
      (accumOf docs).document.bookmarks =
        labelBookmarks 1 (contributingFirstPages 1 (docs.map Prod.fst))) ∧
    (accumOf [(exTwoPage, "a.pdf"), (exCatB, "b.pdf")]).document.bookmarks =
      [mkBookmark 1 3, mkBookmark 2 7] :=
  ⟨fun docs => accumOf_bookmarks docs, rfl⟩

theorem catalogFinalDict_get (dd : Dict) (pid : Nat) (hnd : dd.keys.Nodup) :
    (catalogFinalDict dd pid).get "Pages" = some (.reference pid) ∧
    (catalogFinalDict dd pid).get "Outlines" = none ∧
    ∀ k, k ≠ "Pages" → k ≠ "Outlines" → (catalogFinalDict dd pid).get k = dd.get k := by
  unfold catalogFinalDict
  refine ⟨?_, ?_, ?_⟩
  · rw [Dict.get_remove_ne _ _ _ (by decide), Dict.get_set_self]
  · exact Dict.get_remove_self _ _ (Dict.nodup_keys_set dd "Pages" _ hnd)
  · intro k h1 h2
    rw [Dict.get_remove_ne _ _ _ h2, Dict.get_set_ne _ _ _ _ h1]

theorem buildFinalPool_catalog (st : MergeState) (cs : ClassifyState)
    (po co : Nat × Object) (dd : Dict) (hd : co.2.as_dict = some dd) :
    poolGet (buildFinalPool st cs po co) co.1 =
      some (.dictionary (catalogFinalDict dd po.1)) := by
  unfold buildFinalPool
  rw [hd]
  exact poolGet_insert_self _ _ _

theorem as_dict_some_eq {o : Object} {dd : Dict} (h : o.as_dict = some dd) :
    o = .dictionary dd := by
  cases o <;> simp [Object.as_dict] at h
  rw [h]

/-- C3, amended: if no input graph contains a Catalog-typed object, the merge
fails and no output file is written; the failure is the MissingCatalog
condition ("Catalog root not found.") when some input contains a Pages-typed
object, but for input sequences that also lack a Pages object the Pages check
runs first and the failure is MissingPages ("Pages root not found"). -/
theorem C3_amended_missing_catalog (docs : List (Document × String))
    (hv : ValidDocs docs)
    (hnocat : ∀ p ∈ docs, ∀ kv ∈ p.1.objects, kv.2.type_name ≠ some "Catalog") :
    ((∃ p ∈ docs, ∃ kv ∈ p.1.objects, kv.2.type_name = some "Pages") →
      merge docs = .error "Catalog root not found.") ∧
    ((∀ p ∈ docs, ∀ kv ∈ p.1.objects, kv.2.type_name ≠ some "Pages") →
      merge docs = .error "Pages root not found") ∧
    (∀ (inTree : FSEntryList) (outpath : String),
      sortByName (load_documents_from_path inTree) = docs →
      mainRun inTree outpath = none) := by
  have hcatnone : (classifyOf docs).catalog_object = none := by
    have h1 := classifyOf_catalog_id docs
    rw [no_catalog_filter_nil docs hv hnocat] at h1
    simpa using h1
  have hnodups := pagesDicts_nodup_of_valid docs hv
  have hMCat : (∃ p ∈ docs, ∃ kv ∈ p.1.objects, kv.2.type_name = some "Pages") →
      merge docs = .error "Catalog root not found." := by
    intro hsome
    have hne := some_pages_pagesDicts_ne_nil docs hv hsome
    rcases classifyFold_pages_none ((accumOf docs).documents_objects) ⟨none, none, []⟩ rfl
        hnodups with ⟨he, _⟩ | ⟨i, d, r, hpd2, D, hD, _, _⟩
    · exact absurd he hne
    · have hpo : (classifyOf docs).pages_object = some (i, .dictionary D) := by
        rw [classifyOf_eq]; exact hD
      rw [merge_eq, hpo, hcatnone]
  have hMPag : (∀ p ∈ docs, ∀ kv ∈ p.1.objects, kv.2.type_name ≠ some "Pages") →
      merge docs = .error "Pages root not found" := by
    intro hnone
    have hnil := no_pages_pagesDicts_nil docs hv hnone
    rcases classifyFold_pages_none ((accumOf docs).documents_objects) ⟨none, none, []⟩ rfl
        hnodups with ⟨_, hpnone⟩ | ⟨i, d, r, hpd2, _⟩
    · have hpo : (classifyOf docs).pages_object = none := by
        rw [classifyOf_eq]; exact hpnone
      rw [merge_eq, hpo]
    · rw [hnil] at hpd2
      simp at hpd2
  refine ⟨hMCat, hMPag, ?_⟩
  intro inTree outpath hload
  rw [mainRun]
  by_cases hlen : (load_documents_from_path inTree).length = 0
  · simp [hlen]
  · simp only [hlen, if_false]
    rw [hload]
    by_cases hp : ∃ p ∈ docs, ∃ kv ∈ p.1.objects, kv.2.type_name = some "Pages"
    · rw [hMCat hp]
    · push_neg at hp
      rw [hMPag hp]

/-- C3, witness: `exNoCat` (a Pages tree and a page, no Catalog anywhere)
fails with the MissingCatalog condition. -/
theorem C3_witness : merge [(exNoCat, "n.pdf")] = .error "Catalog root not found." :=
  (C3_amended_missing_catalog [(exNoCat, "n.pdf")] (by decide) (by decide)).1 (by decide)

/-- C1, amended: the surviving Catalog keeps the id of the first-encountered
Catalog (by document order), but its dictionary content is the
LAST-encountered Catalog's content used as-is — no field merge from any other
Catalog — apart from the Pages/Outlines updates of catalog finalization:
`Pages` is set to the surviving Pages id, `Outlines` is removed, and every
other key holds exactly the last-encountered Catalog's value. -/
theorem C1_amended_catalog_survival (docs : List (Document × String))
    (hv : ValidDocs docs) (e1 e2 po : Nat × Object)
    (hfirst : ((accumOf docs).documents_objects.filter isCatalogEntry).head? = some e1)
    (hlast : ((accumOf docs).documents_objects.filter isCatalogEntry).getLast? = some e2)
    (hpo : (classifyOf docs).pages_object = some po) :
    ∃ dd : Dict, e2.2 = .dictionary dd ∧
      (classifyOf docs).catalog_object = some (e1.1, e2.2) ∧
      merge docs = .ok (postPasses
        (preRenumberDoc (accumOf docs) (classifyOf docs) po (e1.1, e2.2)) e1.1) ∧
      poolGet (buildFinalPool (accumOf docs) (classifyOf docs) po (e1.1, e2.2)) e1.1 =
        some (.dictionary (catalogFinalDict dd po.1)) ∧
      (catalogFinalDict dd po.1).get "Pages" = some (.reference po.1) ∧
      (catalogFinalDict dd po.1).get "Outlines" = none ∧
      (∀ k, k ≠ "Pages" → k ≠ "Outlines" → (catalogFinalDict dd po.1).get k = dd.get k) := by
  have hid := classifyOf_catalog_id docs
  rw [hfirst] at hid
  have hcont := classifyOf_catalog_content docs
  rw [hlast] at hcont
  have hcat : (classifyOf docs).catalog_object = some (e1.1, e2.2) := by
    cases hc : (classifyOf docs).catalog_object with
    | none => rw [hc] at hid; simp at hid
    | some c =>
      rw [hc] at hid hcont
      simp at hid hcont
      rw [← hid, ← hcont]
  have he2mem : e2 ∈ (accumOf docs).documents_objects.filter isCatalogEntry :=
    List.mem_of_getLast?_eq_some hlast
  have he2DO : e2 ∈ (accumOf docs).documents_objects := List.mem_of_mem_filter he2mem
  have he2cat : isCatalogEntry e2 = true := List.of_mem_filter he2mem
  have hw : wellTyped e2.2 := by
    rw [accumOf_documents_objects docs hv] at he2DO
    exact objBlocks_wellTyped docs hv e2 he2DO
  obtain ⟨dd, hdd, hnd⟩ :=
    dictKeysNodup_spec e2.2 (hw (Or.inl (isCatalogEntry_type_name e2 he2cat)))
  obtain ⟨g1, g2, g3⟩ := catalogFinalDict_get dd po.1 hnd
  refine ⟨dd, as_dict_some_eq hdd, hcat, ?_, ?_, g1, g2, g3⟩
  · rw [merge_eq, hpo, hcat]
  · exact buildFinalPool_catalog (accumOf docs) (classifyOf docs) po (e1.1, e2.2) dd hdd

/-- C1, witness: instantiation at `exCatA` before `exCatB` — the surviving
Catalog id is 1 (first-encountered) while its finalized content is the
second Catalog's (`Marker = "B"`). -/
theorem C1_witness :
    ∃ dd : Dict,
      (Object.dictionary (Dict.ofList
        [("Type", .name "Catalog"), ("Pages", .reference 5), ("Marker", .string "B")])) =
        .dictionary dd ∧
      (classifyOf [(exCatA, "a.pdf"), (exCatB, "b.pdf")]).catalog_object =
        some (1, .dictionary (Dict.ofList
          [("Type", .name "Catalog"), ("Pages", .reference 5), ("Marker", .string "B")])) ∧
      merge [(exCatA, "a.pdf"), (exCatB, "b.pdf")] = .ok (postPasses
        (preRenumberDoc (accumOf [(exCatA, "a.pdf"), (exCatB, "b.pdf")])
          (classifyOf [(exCatA, "a.pdf"), (exCatB, "b.pdf")])
          (2, .dictionary (Dict.ofList
            [("Type", .name "Pages"),
             ("Kids", .array (ObjList.ofList [.reference 3])),
             ("Count", .integer 1), ("PM", .string "pa"), ("OnlyB", .integer 9)]))
          (1, .dictionary (Dict.ofList
            [("Type", .name "Catalog"), ("Pages", .reference 5), ("Marker", .string "B")])))
        1) ∧
      poolGet (buildFinalPool (accumOf [(exCatA, "a.pdf"), (exCatB, "b.pdf")])
          (classifyOf [(exCatA, "a.pdf"), (exCatB, "b.pdf")])
          (2, .dictionary (Dict.ofList
            [("Type", .name "Pages"),
             ("Kids", .array (ObjList.ofList [.reference 3])),
             ("Count", .integer 1), ("PM", .string "pa"), ("OnlyB", .integer 9)]))
          (1, .dictionary (Dict.ofList
            [("Type", .name "Catalog"), ("Pages", .reference 5), ("Marker", .string "B")])))
          1 =
        some (.dictionary (catalogFinalDict dd 2)) ∧
      (catalogFinalDict dd 2).get "Pages" = some (.reference 2) ∧
      (catalogFinalDict dd 2).get "Outlines" = none ∧
      (∀ k, k ≠ "Pages" → k ≠ "Outlines" → (catalogFinalDict dd 2).get k = dd.get k) :=
  C1_amended_catalog_survival [(exCatA, "a.pdf"), (exCatB, "b.pdf")] (by decide)
    (1, .dictionary (Dict.ofList
      [("Type", .name "Catalog"), ("Pages", .reference 2), ("Marker", .string "A")]))
    (4, .dictionary (Dict.ofList
      [("Type", .name "Catalog"), ("Pages", .reference 5), ("Marker", .string "B")]))
    (2, .dictionary (Dict.ofList
      [("Type", .name "Pages"), ("Kids", .array (ObjList.ofList [.reference 3])),
       ("Count", .integer 1), ("PM", .string "pa"), ("OnlyB", .integer 9)]))
    rfl rfl rfl

/-- C8: when the accumulated objects contain two or more Pages-typed
dictionaries, classification folds each subsequently encountered Pages
dictionary into the first-encountered one: the surviving Pages id is the
first-encountered one, the surviving dictionary's value at every key is the
first-seen value (`firstSeenVal`), and its key set is exactly the union of
the encountered Pages dictionaries' keys (keys absent from the surviving
dictionary are added, first-seen value wins on conflict). -/
theorem C8_pages_fold (docs : List (Document × String)) (id0 : Nat) (dd0 : Dict)
    (rest : List (Nat × Dict))
    (hv : ValidDocs docs)
    (hpd : pagesDicts ((accumOf docs).documents_objects) = (id0, dd0) :: rest)
    (_hmore : rest ≠ []) :
    ∃ D : Dict, (classifyOf docs).pages_object = some (id0, .dictionary D) ∧
      (∀ k, D.get k = firstSeenVal k ((id0, dd0) :: rest)) ∧
      (∀ k, (D.get k).isSome = true ↔
        (dd0.get k).isSome = true ∨ ∃ pd ∈ rest, (pd.2.get k).isSome = true) := by
  rw [classifyOf_eq]
  have hnodups := pagesDicts_nodup_of_valid docs hv
  rcases classifyFold_pages_none ((accumOf docs).documents_objects) ⟨none, none, []⟩ rfl
      hnodups with ⟨he, _⟩ | ⟨i, d, r, hpd2, D, hD, hnd, hget⟩
  · rw [hpd] at he
    simp at he
  · have hcons := hpd2.symm.trans hpd
    rw [List.cons.injEq, Prod.mk.injEq] at hcons
    obtain ⟨⟨hi, hdq⟩, hr⟩ := hcons
    refine ⟨D, by rw [hD, hi], fun k => by rw [hget k, hpd], fun k => ?_⟩
    rw [hget k, hpd, firstSeenVal_isSome]
    simp

/-- C8, witness: with `exCatA` (Pages dict carrying `PM = "pa"`) merged before
`exCatB` (Pages dict carrying `PM = "pb"` and `OnlyB = 9`), the surviving
Pages dictionary sits at the first-encountered id 2, keeps the first-seen
`PM = "pa"` and gains the absent key `OnlyB = 9`. -/
theorem C8_witness :
    ∃ D : Dict,
      (classifyOf [(exCatA, "a.pdf"), (exCatB, "b.pdf")]).pages_object =
        some (2, .dictionary D) ∧
      strVal (D.get "PM") = some "pa" ∧
      intVal (D.get "OnlyB") = some 9 := by
  obtain ⟨D, hD, hget, _⟩ := C8_pages_fold [(exCatA, "a.pdf"), (exCatB, "b.pdf")] 2
    (Dict.ofList
      [("Type", .name "Pages"), ("Kids", .array (ObjList.ofList [.reference 3])),
       ("Count", .integer 1), ("PM", .string "pa")])
    [(5, Dict.ofList
      [("Type", .name "Pages"), ("Kids", .array (ObjList.ofList [.reference 6])),
       ("Count", .integer 1), ("PM", .string "pb"), ("OnlyB", .integer 9)])]
    (by decide) rfl (List.cons_ne_nil _ _)
  refine ⟨D, hD, ?_, ?_⟩
  · rw [hget "PM"]
    rfl
  · rw [hget "OnlyB"]
    rfl

theorem poolKeys_sorted_of (p : Pool) (h : poolSorted p) :
    (poolKeys p).Pairwise (· < ·) := by
  rw [poolKeys, List.pairwise_map]
  exact h

theorem poolKeys_poolExtend_perm (l : Pool) : ∀ acc : Pool,
    (l.map Prod.fst).Nodup → (∀ k ∈ poolKeys acc, k ∉ l.map Prod.fst) →
    (poolKeys (poolExtend acc l)).Perm (poolKeys acc ++ l.map Prod.fst) := by
  induction l with
  | nil => intro acc _ _; simp [poolExtend]
  | cons kv t ih =>
    intro acc hnd hacc
    obtain ⟨k, v⟩ := kv
    simp only [List.map_cons, List.nodup_cons] at hnd
    have hk : k ∉ poolKeys acc := fun hx => hacc k hx (by simp)
    have hperm1 := poolKeys_insert_perm_not_mem acc k v hk
    have ihp := ih (poolInsert acc k v) hnd.2 (by
      intro k' hk'
      rw [hperm1.mem_iff] at hk'
      rcases List.mem_cons.mp hk' with rfl | hk'
      · exact hnd.1
      · exact fun hmem => hacc k' hk' (List.mem_cons_of_mem _ hmem))
    rw [poolExtend]
    refine ihp.trans ?_
    refine ((hperm1.append_right (t.map Prod.fst)).trans ?_)
    simpa using List.perm_middle.symm

theorem sorted_keys_eq_mergeSort (ks l : List Nat) (hperm : ks.Perm l)
    (hsort : ks.Pairwise (· < ·)) : ks = l.mergeSort (fun a b => a ≤ b) := by
  refine List.eq_of_perm_of_sorted (r := (· ≤ ·))
    (hperm.trans (List.mergeSort_perm l _).symm) (hsort.imp le_of_lt) ?_
  have hms := @List.sorted_mergeSort Nat (fun a b : Nat => a ≤ b)
    (fun a b c hab hbc => by simp at hab hbc ⊢; omega)
    (fun a b => by simp; omega) l
  exact hms.imp (fun h => by simpa using h)

theorem pageBlock_keys (d : Document) (s : Nat) (hnd : d.pageOrder.Nodup)
    (hsub : ∀ pid ∈ d.pageOrder, pid ∈ poolKeys d.objects) :
    poolKeys (poolOfList (pageEntriesOf (d.renumber_objects_with s))) =
      ascendingPageIds d s := by
  have hkeys : (pageEntriesOf (d.renumber_objects_with s)).map Prod.fst =
      d.pageOrder.map (docMap d s) := by
    have := pageEntriesOf_keys (d.renumber_objects_with s)
    rw [poolKeys] at this
    rw [this, renumber_pageOrder]
    rfl
  have hmnodup : ((pageEntriesOf (d.renumber_objects_with s)).map Prod.fst).Nodup := by
    rw [hkeys]
    exact hnd.map_on (fun x hx y hy hxy =>
      renumMap_inj (poolKeys d.objects) s (hsub x hx) (hsub y hy) hxy)
  have hperm := poolKeys_poolExtend_perm (pageEntriesOf (d.renumber_objects_with s)) []
    hmnodup (by simp [poolKeys])
  rw [hkeys] at hperm
  exact sorted_keys_eq_mergeSort _ _ (by simpa [poolOfList] using hperm)
    (poolKeys_sorted_of _ (poolSorted_poolOfList _))

theorem pageBlocks_keys (ds : List Document) : ∀ s : Nat,
    (∀ d ∈ ds, d.pageOrder.Nodup ∧ ∀ pid ∈ d.pageOrder, pid ∈ poolKeys d.objects) →
    poolKeys (pageBlocks s ds) = idOrderKidsIds s ds := by
  induction ds with
  | nil => intro s _; simp [pageBlocks, idOrderKidsIds, poolKeys]
  | cons d t ih =>
    intro s h
    rw [pageBlocks, idOrderKidsIds, poolKeys, List.map_append]
    have hd := h d (by simp)
    rw [← poolKeys, pageBlock_keys d s hd.1 hd.2,
      ← poolKeys, ih (nextOffset d s) (fun q hq => h q (by simp [hq]))]

theorem strLe_trans {x y z : String} (h1 : String.le x y) (h2 : String.le y z) :
    String.le x z := by
  intro hzx
  by_cases hyz : @LT.lt String String.instLT y z
  · exact h1 (String.lt_trans hyz hzx)
  · exact h1 ((String.lt_antisymm h2 hyz) ▸ hzx)

theorem strLe_total (x y : String) : String.le x y ∨ String.le y x := by
  by_cases h : @LT.lt String String.instLT y x
  · exact Or.inr (fun hxy => String.lt_irrefl x (String.lt_trans hxy h))
  · exact Or.inl h

theorem validDocs_sortByName (docs : List (Document × String)) (hv : ValidDocs docs) :
    ValidDocs (sortByName docs) := by
  intro p hp
  rw [sortByName, List.mem_mergeSort] at hp
  exact hv p hp

/-- C2, amended: for every successfully merged input sequence, the final Kids
order of the surviving Pages object lists all pages grouped by document in
filename-ascending document order, and within each document in ascending
(renumbered) object-id order — which coincides with the document's original
intra-document page order exactly when its page objects are numbered in page
order, but not in general (counterexample `C2_counterexample`). The collected
id list `kidsIdsOf` is literally what the rebuilt Pages dictionary's `Kids`
array references, in order. -/
theorem C2_amended_kids_order (docs : List (Document × String)) (hv : ValidDocs docs) :
    kidsIdsOf (sortByName docs) = idOrderKidsIds 1 ((sortByName docs).map Prod.fst) ∧
    List.Pairwise (fun a b => String.le a b) ((sortByName docs).map Prod.snd) ∧
    ∀ dictionary : Dict,
      (pagesFinalDict (accumOf (sortByName docs)).documents_pages dictionary).get "Kids" =
        some (.array (ObjList.ofList
          ((kidsIdsOf (sortByName docs)).map Object.reference))) := by
  have hvs := validDocs_sortByName docs hv
  refine ⟨?_, ?_, ?_⟩
  · rw [kidsIdsOf, accumOf_documents_pages _ hvs, ← poolKeys, pageBlocks_keys]
    intro d hd
    obtain ⟨p, hp, rfl⟩ := List.mem_map.mp hd
    exact ⟨(hvs p hp).2.1, validDoc_pageOrder_mem (hvs p hp)⟩
  · have hms := @List.sorted_mergeSort (Document × String)
      (fun a b : Document × String => @decide (String.le a.2 b.2) (String.decLE a.2 b.2))
      (fun a b c hab hbc =>
        decide_eq_true (strLe_trans (of_decide_eq_true hab) (of_decide_eq_true hbc)))
      (fun a b => by
        rcases strLe_total a.2 b.2 with h | h <;> simp [decide_eq_true h]) docs
    have hp2 : (sortByName docs).Pairwise
        (fun a b : Document × String => String.le a.2 b.2) := by
      rw [sortByName]
      exact hms.imp (fun h => of_decide_eq_true h)
    exact List.pairwise_map.mpr hp2
  · intro dictionary
    rw [pagesFinalDict, Dict.get_set_self, kidsIdsOf, List.map_map]
    rfl

/-- C2, witness: at `exTwoPage` (pages in id order 3,4) before `exCatB`
(page renumbered to 7), the Kids id list is `[3, 4, 7]` as the amended claim
describes. -/
theorem C2_witness :
    kidsIdsOf (sortByName [(exTwoPage, "a.pdf"), (exCatB, "b.pdf")]) =
      idOrderKidsIds 1
        ((sortByName [(exTwoPage, "a.pdf"), (exCatB, "b.pdf")]).map Prod.fst) ∧
    kidsIdsOf (sortByName [(exTwoPage, "a.pdf"), (exCatB, "b.pdf")]) = [3, 4, 7] := by
  have hab : String.le "a.pdf" "b.pdf" :=
    @of_decide_eq_true _ (String.decLE "a.pdf" "b.pdf") rfl
  have hsorted : sortByName [(exTwoPage, "a.pdf"), (exCatB, "b.pdf")] =
      [(exTwoPage, "a.pdf"), (exCatB, "b.pdf")] := by
    rw [sortByName]
    refine List.mergeSort_of_sorted ?_
    refine List.Pairwise.cons ?_ (List.pairwise_singleton _ _)
    intro b hb
    simp only [List.mem_singleton] at hb
    subst hb
    exact decide_eq_true hab
  refine ⟨(C2_amended_kids_order [(exTwoPage, "a.pdf"), (exCatB, "b.pdf")] (by decide)).1, ?_⟩
  rw [hsorted]
  rfl

/-- C10: source discovery keeps a file exactly when its name ends in `.pdf`
and differs from the constant `"merged.pdf"` (`DEFAULT_FILE_NAME`), for every
directory tree and independently of the user-supplied output path — the
output path is not an input of `load_documents_from_path` at all, and
`mainRun`'s result depends on it only as the reported write path: a file
bearing a custom output name is still merged, and a file literally named
`merged.pdf` is excluded even when it is not the output target. -/
theorem C10_discovery_filter :
    (∀ entries : FSEntryList,
      load_documents_from_path entries = (treeFiles entries).filterMap discoveryKeep) ∧
    (∀ (fname : String) (parsed : Option Document),
      discoveryKeep (fname, parsed) =
        if fname.endsWith ".pdf" ∧ fname ≠ "merged.pdf" then
          parsed.map (fun d => (d, fname))
        else none) ∧
    (∀ (inTree : FSEntryList) (outA outB : String),
      mainRun inTree outA = (mainRun inTree outB).map (fun p => (outA, p.2))) := by
  refine ⟨load_documents_filterMap, fun fname parsed => rfl, ?_⟩
  intro inTree outA outB
  rw [mainRun, mainRun]
  by_cases h : (load_documents_from_path inTree).length = 0
  · simp [h]
  · simp only [h, if_false]
    cases merge (sortByName (load_documents_from_path inTree)) <;> simp

/-! ### Sorted-pool membership and counting lemmas -/

theorem poolGet_mem (p : Pool) (k : Nat) (v : Object) (h : poolGet p k = some v) :
    (k, v) ∈ p := by
  induction p with
  | nil => simp [poolGet] at h
  | cons kv t ih =>
    obtain ⟨k0, v0⟩ := kv
    by_cases hk : k0 = k
    · subst hk
      rw [poolGet, if_pos rfl] at h
      injection h with h2
      subst h2
      exact List.mem_cons_self _ _
    · rw [poolGet, if_neg hk] at h
      exact List.mem_cons_of_mem _ (ih h)

theorem mem_poolGet_sorted (p : Pool) : poolSorted p → ∀ (k : Nat) (v : Object),
    (k, v) ∈ p → poolGet p k = some v := by
  induction p with
  | nil => intro _ k v h; simp at h
  | cons kv t ih =>
    intro hs k v h
    obtain ⟨k0, v0⟩ := kv
    rw [poolSorted, List.pairwise_cons] at hs
    rcases List.mem_cons.mp h with he | ht
    · rw [Prod.mk.injEq] at he
      obtain ⟨rfl, rfl⟩ := he
      rw [poolGet, if_pos rfl]
    · have hlt : k0 < k := hs.1 (k, v) ht
      rw [poolGet, if_neg (by omega)]
      exact ih hs.2 k v ht

theorem sorted_key_unique (p : Pool) (hs : poolSorted p) {k : Nat} {v1 v2 : Object}
    (h1 : (k, v1) ∈ p) (h2 : (k, v2) ∈ p) : v1 = v2 := by
  have e1 := mem_poolGet_sorted p hs k v1 h1
  have e2 := mem_poolGet_sorted p hs k v2 h2
  rw [e1] at e2
  exact Option.some.inj e2

theorem poolKeys_nodup (p : Pool) (hs : poolSorted p) : (poolKeys p).Nodup :=
  (poolKeys_sorted_of p hs).imp (fun h => Nat.ne_of_lt h)

theorem mem_poolKeys_exists (p : Pool) (k : Nat) (h : k ∈ poolKeys p) :
    ∃ v, (k, v) ∈ p := by
  obtain ⟨kv, hkv, hfst⟩ := List.mem_map.mp h
  exact ⟨kv.2, by rw [← hfst]; simpa using hkv⟩

theorem countP_poolInsert_fresh (p : Pool) (k : Nat) (v : Object)
    (P : Nat × Object → Bool) (h : k ∉ poolKeys p) :
    (poolInsert p k v).countP P = p.countP P + (if P (k, v) then 1 else 0) := by
  induction p with
  | nil => simp [poolInsert, List.countP_cons]
  | cons kv t ih =>
    obtain ⟨k0, v0⟩ := kv
    simp only [poolKeys, List.map_cons, List.mem_cons, not_or] at h
    rcases Nat.lt_trichotomy k k0 with h0 | h0 | h0
    · rw [poolInsert, if_pos h0]
      simp only [List.countP_cons]
    · exact absurd h0 h.1
    · rw [poolInsert, if_neg (by omega), if_neg (by omega)]
      rw [List.countP_cons, List.countP_cons, ih (by simpa [poolKeys] using h.2)]
      omega

theorem countType_insert_fresh (p : Pool) (k : Nat) (v : Object) (t : String)
    (h : k ∉ poolKeys p) :
    countType (poolInsert p k v) t =
      countType p t + (if v.type_name == some t then 1 else 0) := by
  rw [countType, countType, countP_poolInsert_fresh p k v _ h]

theorem countP_poolInsert_replace (p : Pool) : poolSorted p → ∀ (k : Nat) (v w : Object)
    (P : Nat × Object → Bool), poolGet p k = some w → P (k, v) = P (k, w) →
    (poolInsert p k v).countP P = p.countP P := by
  induction p with
  | nil => intro _ k v w P hget _; simp [poolGet] at hget
  | cons kv t ih =>
    intro hs k v w P hget hPeq
    obtain ⟨k0, v0⟩ := kv
    rw [poolSorted, List.pairwise_cons] at hs
    by_cases hk : k0 = k
    · subst hk
      rw [poolGet, if_pos rfl] at hget
      injection hget with hw
      rw [poolInsert, if_neg (lt_irrefl k0), if_pos rfl]
      rw [List.countP_cons, List.countP_cons, hPeq, hw]
    · rw [poolGet, if_neg hk] at hget
      have hmem : k ∈ poolKeys t := by
        rw [← poolGet_isSome_iff_mem, hget]
        rfl
      have hlt : k0 < k := by
        obtain ⟨kv2, hkv2, hfst⟩ := List.mem_map.mp hmem
        have := hs.1 kv2 hkv2
        omega
      rw [poolInsert, if_neg (by omega), if_neg (by omega)]
      rw [List.countP_cons, List.countP_cons, ih hs.2 k v w P hget hPeq]

theorem countType_insert_replace (p : Pool) (hs : poolSorted p) (k : Nat) (v w : Object)
    (t : String) (hget : poolGet p k = some w) (hty : v.type_name = w.type_name) :
    countType (poolInsert p k v) t = countType p t := by
  rw [countType, countType]
  exact countP_poolInsert_replace p hs k v w _ hget (by simp [hty])

theorem countType_append (p q : Pool) (t : String) :
    countType (p ++ q) t = countType p t + countType q t := by
  rw [countType, countType, countType, List.countP_append]

theorem countType_map_ren (p : Pool) (m : Nat → Nat) (t : String) :
    countType (p.map (fun kv => (m kv.1, renObj m kv.2))) t = countType p t := by
  simp only [countType]
  induction p with
  | nil => rfl
  | cons kv r ih =>
    simp only [List.map_cons, List.countP_cons, ih, type_name_renObj]

theorem mem_poolRefs (p : Pool) (r : Nat) :
    r ∈ poolRefs p ↔ ∃ kv ∈ p, r ∈ objRefs kv.2 := by
  rw [poolRefs]
  simp only [List.mem_flatten, List.mem_map]
  constructor
  · rintro ⟨l, ⟨kv, hkv, rfl⟩, hr⟩
    exact ⟨kv, hkv, hr⟩
  · rintro ⟨kv, hkv, hr⟩
    exact ⟨objRefs kv.2, ⟨kv, hkv, rfl⟩, hr⟩

/-! ### Further dictionary field lemmas -/

theorem Dict.typeName_set_ne (d : Dict) (k : String) (v : Object) (h : k ≠ "Type") :
    (d.set k v).typeName = d.typeName := by
  rw [Dict.typeName, Dict.typeName, Dict.get_set_ne d k "Type" v (Ne.symm h)]

theorem Dict.typeName_remove_ne (d : Dict) (k : String) (h : k ≠ "Type") :
    (d.remove k).typeName = d.typeName := by
  rw [Dict.typeName, Dict.typeName, Dict.get_remove_ne d k "Type" (Ne.symm h)]

theorem dictRefs_set (d : Dict) (k : String) (v : Object) :
    ∀ r ∈ dictRefs (d.set k v), r ∈ objRefs v ∨ r ∈ dictRefs d := by
  induction d using Dict.inductionOn with
  | nil =>
    intro r hr
    rw [Dict.set, dictRefs, dictRefs] at hr
    simp at hr
    exact Or.inl hr
  | cons k0 v0 t ih =>
    intro r hr
    rw [Dict.set] at hr
    by_cases hk : k0 = k
    · rw [if_pos hk, dictRefs] at hr
      rcases List.mem_append.mp hr with h | h
      · exact Or.inl h
      · exact Or.inr (by rw [dictRefs]; exact List.mem_append_right _ h)
    · rw [if_neg hk, dictRefs] at hr
      rcases List.mem_append.mp hr with h | h
      · exact Or.inr (by rw [dictRefs]; exact List.mem_append_left _ h)
      · rcases ih r h with h2 | h2
        · exact Or.inl h2
        · exact Or.inr (by rw [dictRefs]; exact List.mem_append_right _ h2)

theorem dictRefs_remove_sub (d : Dict) (k : String) :
    ∀ r ∈ dictRefs (d.remove k), r ∈ dictRefs d := by
  induction d using Dict.inductionOn with
  | nil =>
    intro r hr
    rw [Dict.remove] at hr
    simp [dictRefs] at hr
  | cons k0 v0 t ih =>
    intro r hr
    rw [Dict.remove] at hr
    by_cases hk : k0 = k
    · rw [if_pos hk] at hr
      rw [dictRefs]
      exact List.mem_append_right _ hr
    · rw [if_neg hk, dictRefs] at hr
      rw [dictRefs]
      rcases List.mem_append.mp hr with h | h
      · exact List.mem_append_left _ h
      · exact List.mem_append_right _ (ih r h)

theorem isOtherEntry_ne_type (kv : Nat × Object) (h : isOtherEntry kv = true) :
    kv.2.type_name ≠ some "Catalog" ∧ kv.2.type_name ≠ some "Pages" ∧
    kv.2.type_name ≠ some "Page" ∧ kv.2.type_name ≠ some "Outlines" ∧
    kv.2.type_name ≠ some "Outline" := by
  refine ⟨?_, ?_, ?_, ?_, ?_⟩ <;> intro hc <;> simp [isOtherEntry, hc] at h

/-! ### Page insertion loop lemmas -/

theorem insertPages_cons (e : Nat × Object) (t : Pool) (pid : Nat) (base : Pool) :
    insertPages (e :: t) pid base =
      insertPages t pid
        (match e.2.as_dict with
         | some dd => poolInsert base e.1 (.dictionary (dd.set "Parent" (.reference pid)))
         | none => base) := rfl

theorem insertPages_poolGet_not_mem (dp : Pool) (pid : Nat) : ∀ (base : Pool) (k : Nat),
    k ∉ poolKeys dp → poolGet (insertPages dp pid base) k = poolGet base k := by
  induction dp with
  | nil => intro base k _; rfl
  | cons e t ih =>
    intro base k hk
    simp only [poolKeys, List.map_cons, List.mem_cons, not_or] at hk
    rw [insertPages_cons]
    cases hd : e.2.as_dict with
    | some dd =>
      simp only [hd]
      rw [ih _ k hk.2, poolGet_insert_ne _ _ _ _ hk.1]
    | none =>
      simp only [hd]
      exact ih _ k hk.2

theorem insertPages_poolGet_mem (dp : Pool) (pid : Nat) : ∀ (base : Pool),
    (poolKeys dp).Nodup → ∀ kv ∈ dp, ∀ dd, kv.2 = .dictionary dd →
    poolGet (insertPages dp pid base) kv.1 =
      some (.dictionary (dd.set "Parent" (.reference pid))) := by
  induction dp with
  | nil => intro base _ kv hkv; simp at hkv
  | cons e t ih =>
    intro base hnd kv hkv dd hdd
    simp only [poolKeys, List.map_cons, List.nodup_cons] at hnd
    rw [insertPages_cons]
    rcases List.mem_cons.mp hkv with rfl | hkv2
    · have hd : kv.2.as_dict = some dd := by rw [hdd]; rfl
      simp only [hd]
      rw [insertPages_poolGet_not_mem t pid _ kv.1 hnd.1, poolGet_insert_self]
    · cases hd : e.2.as_dict with
      | some dd0 =>
        simp only [hd]
        exact ih _ hnd.2 kv hkv2 dd hdd
      | none =>
        simp only [hd]
        exact ih _ hnd.2 kv hkv2 dd hdd

theorem mem_insertPages (dp : Pool) (pid : Nat) : ∀ (base : Pool),
    ∀ x ∈ insertPages dp pid base,
    x ∈ base ∨ ∃ kv ∈ dp, ∃ dd, kv.2 = .dictionary dd ∧
      x = (kv.1, .dictionary (dd.set "Parent" (.reference pid))) := by
  induction dp with
  | nil => intro base x hx; exact Or.inl hx
  | cons e t ih =>
    intro base x hx
    rw [insertPages_cons] at hx
    cases hd : e.2.as_dict with
    | some dd =>
      simp only [hd] at hx
      rcases ih _ x hx with hx2 | ⟨kv, hkv, dd2, h1, h2⟩
      · rcases mem_poolInsert _ _ _ x hx2 with h3 | h3
        · exact Or.inr ⟨e, by simp, dd, as_dict_some_eq hd, h3⟩
        · exact Or.inl h3
      · exact Or.inr ⟨kv, List.mem_cons_of_mem _ hkv, dd2, h1, h2⟩
    | none =>
      simp only [hd] at hx
      rcases ih _ x hx with hx2 | ⟨kv, hkv, dd2, h1, h2⟩
      · exact Or.inl hx2
      · exact Or.inr ⟨kv, List.mem_cons_of_mem _ hkv, dd2, h1, h2⟩

theorem insertPages_sorted (dp : Pool) (pid : Nat) : ∀ base, poolSorted base →
    poolSorted (insertPages dp pid base) := by
  induction dp with
  | nil => intro base h; exact h
  | cons e t ih =>
    intro base h
    rw [insertPages_cons]
    cases hd : e.2.as_dict with
    | some dd =>
      simp only [hd]
      exact ih _ (poolSorted_insert _ _ _ h)
    | none =>
      simp only [hd]
      exact ih _ h

theorem poolKeys_insertPages_subset (dp : Pool) (pid : Nat) (base : Pool) :
    ∀ k ∈ poolKeys (insertPages dp pid base), k ∈ poolKeys base ∨ k ∈ poolKeys dp := by
  intro k hk
  obtain ⟨v, hv⟩ := mem_poolKeys_exists _ k hk
  rcases mem_insertPages dp pid base (k, v) hv with h | ⟨kv, hkv, dd, h1, h2⟩
  · exact Or.inl (List.mem_map_of_mem Prod.fst h)
  · rw [Prod.mk.injEq] at h2
    exact Or.inr (by rw [h2.1]; exact List.mem_map_of_mem Prod.fst hkv)

theorem countType_insertPages (dp : Pool) (pid : Nat) (τ : String) : ∀ base : Pool,
    poolSorted base →
    (poolKeys dp).Nodup →
    (∀ kv ∈ dp, kv.1 ∉ poolKeys base) →
    (∀ kv ∈ dp, ∀ dd, kv.2.as_dict = some dd → dd.typeName ≠ some τ) →
    countType (insertPages dp pid base) τ = countType base τ := by
  induction dp with
  | nil => intro base _ _ _ _; rfl
  | cons e t ih =>
    intro base hs hnd hfresh hty
    simp only [poolKeys, List.map_cons, List.nodup_cons] at hnd
    rw [insertPages_cons]
    cases hd : e.2.as_dict with
    | some dd =>
      simp only [hd]
      have hobj : (Object.dictionary (dd.set "Parent" (.reference pid))).type_name =
          dd.typeName := by
        show (dd.set "Parent" (.reference pid)).typeName = dd.typeName
        exact Dict.typeName_set_ne dd "Parent" _ (by decide)
      have hne : ((Object.dictionary (dd.set "Parent" (.reference pid))).type_name ==
          some τ) = false := by
        rw [hobj]
        exact beq_eq_false_iff_ne.mpr (hty e (by simp) dd hd)
      have hfresh2 : ∀ kv ∈ t, kv.1 ∉
          poolKeys (poolInsert base e.1
            (.dictionary (dd.set "Parent" (.reference pid)))) := by
        intro kv hkv hc
        rcases (mem_poolKeys_insert base e.1 kv.1 _).mp hc with h | h
        · exact hnd.1 (h ▸ List.mem_map_of_mem Prod.fst hkv)
        · exact hfresh kv (List.mem_cons_of_mem _ hkv) h
      rw [ih _ (poolSorted_insert _ _ _ hs) hnd.2 hfresh2
        (fun kv hkv => hty kv (List.mem_cons_of_mem _ hkv)),
        countType_insert_fresh base e.1 _ τ (hfresh e (by simp)), hne]
      simp
    | none =>
      simp only [hd]
      exact ih _ hs hnd.2 (fun kv hkv => hfresh kv (List.mem_cons_of_mem _ hkv))
        (fun kv hkv => hty kv (List.mem_cons_of_mem _ hkv))

/-! ### Shape of the accumulated pools -/

theorem accumOf_sorted (docs : List (Document × String)) (hv : ValidDocs docs) :
    poolSorted (accumOf docs).documents_objects := by
  rw [accumOf_documents_objects docs hv]
  refine objBlocks_sorted _ 1 ?_
  intro d hd
  obtain ⟨p, hp, rfl⟩ := List.mem_map.mp hd
  exact validDoc_sorted (hv p hp)

theorem classifyOf_outPool (docs : List (Document × String)) (hv : ValidDocs docs) :
    (classifyOf docs).outPool =
      (accumOf docs).documents_objects.filter isOtherEntry := by
  rw [classifyOf_eq]
  have := classifyFold_outPool ((accumOf docs).documents_objects) ⟨none, none, []⟩
    (by intro kv hkv; simp at hkv) (accumOf_sorted docs hv)
  simpa using this

theorem poolKeys_poolOfList_sub (l : Pool) :
    ∀ k ∈ poolKeys (poolOfList l), k ∈ poolKeys l := by
  intro k hk
  obtain ⟨v, hv⟩ := mem_poolKeys_exists _ k hk
  exact List.mem_map_of_mem Prod.fst (mem_poolOfList l (k, v) hv)

theorem pageEntries_keys_bounds (d : Document) (s : Nat)
    (hsub : ∀ pid ∈ d.pageOrder, pid ∈ poolKeys d.objects) :
    ∀ k ∈ poolKeys (pageEntriesOf (d.renumber_objects_with s)),
      s ≤ k ∧ k < nextOffset d s := by
  intro k hk
  rw [pageEntriesOf_keys, renumber_pageOrder] at hk
  obtain ⟨pid, hpid, rfl⟩ := List.mem_map.mp hk
  have hmem : pid ∈ poolKeys d.objects := hsub pid hpid
  have h1 := renumMap_lower (poolKeys d.objects) s pid hmem
  have h2 := renumMap_upper (poolKeys d.objects) s pid hmem
  have hlen : (poolKeys d.objects).length = d.objects.length := List.length_map _ _
  rw [nextOffset]
  omega

theorem pageBlocks_keys_lower (ds : List Document) : ∀ (s : Nat),
    (∀ d ∈ ds, ∀ pid ∈ d.pageOrder, pid ∈ poolKeys d.objects) →
    ∀ k ∈ poolKeys (pageBlocks s ds), s ≤ k := by
  induction ds with
  | nil => intro s _ k hk; simp [pageBlocks, poolKeys] at hk
  | cons d t ih =>
    intro s hsub k hk
    rw [pageBlocks, poolKeys, List.map_append] at hk
    rcases List.mem_append.mp hk with h | h
    · have h2 := poolKeys_poolOfList_sub _ k h
      exact (pageEntries_keys_bounds d s (hsub d (by simp)) k h2).1
    · have := ih (nextOffset d s) (fun q hq => hsub q (by simp [hq])) k h
      rw [nextOffset] at this
      omega

theorem pageBlocks_sorted (ds : List Document) : ∀ (s : Nat),
    (∀ d ∈ ds, ∀ pid ∈ d.pageOrder, pid ∈ poolKeys d.objects) →
    poolSorted (pageBlocks s ds) := by
  induction ds with
  | nil => intro s _; simp [pageBlocks, poolSorted]
  | cons d t ih =>
    intro s hsub
    rw [pageBlocks, poolSorted, List.pairwise_append]
    refine ⟨poolSorted_poolOfList _,
      ih (nextOffset d s) (fun q hq => hsub q (by simp [hq])), ?_⟩
    intro a ha b hb
    have ha2 := (pageEntries_keys_bounds d s (hsub d (by simp)) a.1
      (poolKeys_poolOfList_sub _ a.1 (List.mem_map_of_mem Prod.fst ha))).2
    have hb2 := pageBlocks_keys_lower t (nextOffset d s)
      (fun q hq => hsub q (by simp [hq])) b.1 (List.mem_map_of_mem Prod.fst hb)
    omega

theorem accumOf_pages_sorted (docs : List (Document × String)) (hv : ValidDocs docs) :
    poolSorted (accumOf docs).documents_pages := by
  rw [accumOf_documents_pages docs hv]
  refine pageBlocks_sorted _ 1 ?_
  intro d hd
  obtain ⟨p, hp, rfl⟩ := List.mem_map.mp hd
  exact validDoc_pageOrder_mem (hv p hp)

theorem mem_pageBlocks (ds : List Document) : ∀ (s : Nat),
    (∀ d ∈ ds, ∀ pid ∈ d.pageOrder, isPageEntry (poolGet d.objects pid) = true) →
    ∀ kv ∈ pageBlocks s ds,
      kv ∈ objBlocks s ds ∧ ∃ dd, kv.2 = .dictionary dd ∧ dd.typeName = some "Page" := by
  induction ds with
  | nil => intro s _ kv hkv; simp [pageBlocks] at hkv
  | cons d t ih =>
    intro s hpg kv hkv
    rw [pageBlocks] at hkv
    rcases List.mem_append.mp hkv with h | h
    · have h2 := mem_poolOfList _ kv h
      rw [pageEntriesOf, Document.get_pages, renumber_pageOrder, List.map_map] at h2
      obtain ⟨pid, hpid, rfl⟩ := List.mem_map.mp h2
      have hpe := hpg d (by simp) pid hpid
      cases hg : poolGet d.objects pid with
      | none => rw [hg] at hpe; exact absurd hpe (by simp [isPageEntry])
      | some o =>
        cases o with
        | dictionary dd0 =>
          have hty : dd0.typeName = some "Page" := by
            rw [hg] at hpe
            simpa [isPageEntry] using hpe
          have hmemk : pid ∈ poolKeys d.objects := by
            rw [← poolGet_isSome_iff_mem, hg]
            rfl
          have hget := renumber_poolGet d s pid hmemk
          rw [hg] at hget
          have hobj : (Document.get_object (d.renumber_objects_with s)
              (renumMap (poolKeys d.objects) s pid)).getD .null =
              Object.dictionary (renDict (renumMap (poolKeys d.objects) s) dd0) := by
            rw [Document.get_object, hget]
            rfl
          refine ⟨?_, renDict (renumMap (poolKeys d.objects) s) dd0, ?_, ?_⟩
          · rw [objBlocks]
            refine List.mem_append.mpr (Or.inl ?_)
            show (renumMap (poolKeys d.objects) s pid,
              (Document.get_object (d.renumber_objects_with s)
                (renumMap (poolKeys d.objects) s pid)).getD .null) ∈ _
            rw [hobj]
            exact poolGet_mem _ _ _ hget
          · show (Document.get_object (d.renumber_objects_with s)
              (renumMap (poolKeys d.objects) s pid)).getD .null = _
            exact hobj
          · rw [typeName_renDict]
            exact hty
        | null => rw [hg] at hpe; exact absurd hpe (by simp [isPageEntry])
        | boolean b => rw [hg] at hpe; exact absurd hpe (by simp [isPageEntry])
        | integer i => rw [hg] at hpe; exact absurd hpe (by simp [isPageEntry])
        | real x => rw [hg] at hpe; exact absurd hpe (by simp [isPageEntry])
        | string s0 => rw [hg] at hpe; exact absurd hpe (by simp [isPageEntry])
        | name s0 => rw [hg] at hpe; exact absurd hpe (by simp [isPageEntry])
        | array xs => rw [hg] at hpe; exact absurd hpe (by simp [isPageEntry])
        | stream d0 => rw [hg] at hpe; exact absurd hpe (by simp [isPageEntry])
        | reference r => rw [hg] at hpe; exact absurd hpe (by simp [isPageEntry])
    · obtain ⟨hmem, dd, h1, h2⟩ := ih (nextOffset d s)
        (fun q hq => hpg q (by simp [hq])) kv h
      exact ⟨by rw [objBlocks]; exact List.mem_append.mpr (Or.inr hmem), dd, h1, h2⟩

theorem accumOf_pages_entries (docs : List (Document × String)) (hv : ValidDocs docs) :
    ∀ kv ∈ (accumOf docs).documents_pages,
      kv ∈ (accumOf docs).documents_objects ∧
      ∃ dd, kv.2 = .dictionary dd ∧ dd.typeName = some "Page" := by
  intro kv hkv
  rw [accumOf_documents_pages docs hv] at hkv
  have := mem_pageBlocks (docs.map Prod.fst) 1 (by
    intro d hd
    obtain ⟨p, hp, rfl⟩ := List.mem_map.mp hd
    exact (hv p hp).2.2.1) kv hkv
  rw [accumOf_documents_objects docs hv]
  exact this

/-! ### The surviving root entries -/

theorem typeName_get_type (dd : Dict) (t : String) (h : dd.typeName = some t) :
    dd.get "Type" = some (.name t) := by
  rw [Dict.typeName] at h
  cases hgt : dd.get "Type" with
  | none => rw [hgt] at h; exact absurd h (by simp)
  | some o =>
    rw [hgt] at h
    cases o <;> simp at h
    rw [h]

theorem classifyOf_pages_entry (docs : List (Document × String)) (hv : ValidDocs docs)
    (po : Nat × Object) (hpo : (classifyOf docs).pages_object = some po) :
    ∃ D : Dict, po.2 = .dictionary D ∧ D.typeName = some "Pages" ∧
      ∃ kv ∈ (accumOf docs).documents_objects, kv.1 = po.1 ∧
        kv.2.type_name = some "Pages" := by
  have hnodups := pagesDicts_nodup_of_valid docs hv
  rcases classifyFold_pages_none ((accumOf docs).documents_objects) ⟨none, none, []⟩ rfl
      hnodups with ⟨_, hnone⟩ | ⟨id0, dd0, rest, hpd, D, hD, _, hget⟩
  · rw [classifyOf_eq, hnone] at hpo
    exact absurd hpo (by simp)
  · rw [classifyOf_eq, hD] at hpo
    injection hpo with hpo2
    subst hpo2
    have hmem0 : (id0, dd0) ∈ pagesDicts ((accumOf docs).documents_objects) := by
      rw [hpd]
      simp
    obtain ⟨kv, hkv, hp, hd, hid⟩ := mem_pagesDicts _ _ hmem0
    have htn : kv.2.type_name = some "Pages" := isPagesEntry_type_name kv hp
    have hdd0 : dd0.typeName = some "Pages" := by
      rw [as_dict_some_eq hd] at htn
      exact htn
    have hDty : D.typeName = some "Pages" := by
      rw [Dict.typeName, hget "Type", hpd, firstSeenVal, typeName_get_type dd0 "Pages" hdd0]
      rfl
    exact ⟨D, rfl, hDty, kv, hkv, hid, htn⟩

theorem classifyOf_catalog_entry (docs : List (Document × String)) (hv : ValidDocs docs)
    (co : Nat × Object) (hco : (classifyOf docs).catalog_object = some co) :
    ∃ cd : Dict, co.2 = .dictionary cd ∧ cd.typeName = some "Catalog" ∧ cd.keys.Nodup ∧
      ∃ kv ∈ (accumOf docs).documents_objects, kv.1 = co.1 ∧
        kv.2.type_name = some "Catalog" := by
  have hid := classifyOf_catalog_id docs
  have hcont := classifyOf_catalog_content docs
  rw [hco] at hid hcont
  cases hh : ((accumOf docs).documents_objects.filter isCatalogEntry).head? with
  | none => rw [hh] at hid; simp at hid
  | some e1 =>
    cases hl : ((accumOf docs).documents_objects.filter isCatalogEntry).getLast? with
    | none => rw [hl] at hcont; simp at hcont
    | some e2 =>
      rw [hh] at hid
      rw [hl] at hcont
      simp at hid hcont
      have he1 : e1 ∈ (accumOf docs).documents_objects.filter isCatalogEntry :=
        List.mem_of_mem_head? hh
      have he2mem := List.mem_of_getLast?_eq_some hl
      have he1DO := List.mem_of_mem_filter he1
      have he1cat := List.of_mem_filter he1
      have he2cat := List.of_mem_filter he2mem
      have he2DO := List.mem_of_mem_filter he2mem
      have hw : wellTyped e2.2 := by
        rw [accumOf_documents_objects docs hv] at he2DO
        exact objBlocks_wellTyped docs hv e2 he2DO
      obtain ⟨cd, hcd, hnd⟩ :=
        dictKeysNodup_spec e2.2 (hw (Or.inl (isCatalogEntry_type_name e2 he2cat)))
      have hcdty : cd.typeName = some "Catalog" := by
        have := isCatalogEntry_type_name e2 he2cat
        rw [as_dict_some_eq hcd] at this
        exact this
      refine ⟨cd, ?_, hcdty, hnd, e1, he1DO, hid.symm, isCatalogEntry_type_name e1 he1cat⟩
      rw [hcont]
      exact as_dict_some_eq hcd

/-! ### Type counts of the finalized pool -/

theorem buildFinalPool_countType (docs : List (Document × String)) (hv : ValidDocs docs)
    (po co : Nat × Object)
    (hpo : (classifyOf docs).pages_object = some po)
    (hco : (classifyOf docs).catalog_object = some co) :
    countType (buildFinalPool (accumOf docs) (classifyOf docs) po co) "Catalog" = 1 ∧
    countType (buildFinalPool (accumOf docs) (classifyOf docs) po co) "Pages" = 1 := by
  obtain ⟨D, hD2, hDty, kvp, hkvpDO, hkvp1, hkvpty⟩ := classifyOf_pages_entry docs hv po hpo
  obtain ⟨cd, hcd2, hcdty, _, kvc, hkvcDO, hkvc1, hkvcty⟩ :=
    classifyOf_catalog_entry docs hv co hco
  have hDOs : poolSorted (accumOf docs).documents_objects := accumOf_sorted docs hv
  have hout := classifyOf_outPool docs hv
  have houts : poolSorted (classifyOf docs).outPool := by
    rw [hout]
    exact List.Pairwise.filter _ hDOs
  have houtmem : ∀ kv ∈ (classifyOf docs).outPool,
      kv ∈ (accumOf docs).documents_objects ∧ isOtherEntry kv = true := by
    intro kv hkv
    rw [hout] at hkv
    exact ⟨List.mem_of_mem_filter hkv, List.of_mem_filter hkv⟩
  have hdps : poolSorted (accumOf docs).documents_pages := accumOf_pages_sorted docs hv
  have hdpnd : (poolKeys (accumOf docs).documents_pages).Nodup := poolKeys_nodup _ hdps
  have hdpmem := accumOf_pages_entries docs hv
  have hfresh1 : ∀ kv ∈ (accumOf docs).documents_pages,
      kv.1 ∉ poolKeys (classifyOf docs).outPool := by
    intro kv hkv hc
    obtain ⟨v, hvmem⟩ := mem_poolKeys_exists _ kv.1 hc
    obtain ⟨hvDO, hvother⟩ := houtmem (kv.1, v) hvmem
    obtain ⟨hkvDO, dd, hdd, hddty⟩ := hdpmem kv hkv
    have heq : v = kv.2 := sorted_key_unique _ hDOs hvDO (by simpa using hkvDO)
    have hvty : v.type_name = some "Page" := by
      rw [heq, hdd]
      exact hddty
    exact (isOtherEntry_ne_type (kv.1, v) hvother).2.2.1 hvty
  have htyP : ∀ τ : String, τ ≠ "Page" → ∀ kv ∈ (accumOf docs).documents_pages,
      ∀ dd, kv.2.as_dict = some dd → dd.typeName ≠ some τ := by
    intro τ hτ kv hkv dd hdd hc
    obtain ⟨_, dd2, hdd2, hddty⟩ := hdpmem kv hkv
    rw [hdd2] at hdd
    simp [Object.as_dict] at hdd
    rw [← hdd] at hc
    rw [hddty] at hc
    exact hτ (Option.some.inj hc).symm
  have hponotdp : po.1 ∉ poolKeys (accumOf docs).documents_pages := by
    intro hc
    obtain ⟨v, hvmem⟩ := mem_poolKeys_exists _ po.1 hc
    obtain ⟨hvDO, dd, hdd, hddty⟩ := hdpmem (po.1, v) hvmem
    have heq : v = kvp.2 := sorted_key_unique _ hDOs hvDO (by
      rw [← hkvp1]
      simpa using hkvpDO)
    have hdd2 : v = Object.dictionary dd := hdd
    have h1 : v.type_name = some "Page" := by
      rw [hdd2]
      exact hddty
    rw [heq, hkvpty] at h1
    exact absurd (Option.some.inj h1) (by decide)
  have hponotout : po.1 ∉ poolKeys (classifyOf docs).outPool := by
    intro hc
    obtain ⟨v, hvmem⟩ := mem_poolKeys_exists _ po.1 hc
    obtain ⟨hvDO, hvother⟩ := houtmem (po.1, v) hvmem
    have heq : v = kvp.2 := sorted_key_unique _ hDOs hvDO (by
      rw [← hkvp1]
      simpa using hkvpDO)
    exact (isOtherEntry_ne_type (po.1, v) hvother).2.1 (by rw [heq]; exact hkvpty)
  have hcnotdp : co.1 ∉ poolKeys (accumOf docs).documents_pages := by
    intro hc
    obtain ⟨v, hvmem⟩ := mem_poolKeys_exists _ co.1 hc
    obtain ⟨hvDO, dd, hdd, hddty⟩ := hdpmem (co.1, v) hvmem
    have heq : v = kvc.2 := sorted_key_unique _ hDOs hvDO (by
      rw [← hkvc1]
      simpa using hkvcDO)
    have hdd2 : v = Object.dictionary dd := hdd
    have h1 : v.type_name = some "Page" := by
      rw [hdd2]
      exact hddty
    rw [heq, hkvcty] at h1
    exact absurd (Option.some.inj h1) (by decide)
  have hcnotout : co.1 ∉ poolKeys (classifyOf docs).outPool := by
    intro hc
    obtain ⟨v, hvmem⟩ := mem_poolKeys_exists _ co.1 hc
    obtain ⟨hvDO, hvother⟩ := houtmem (co.1, v) hvmem
    have heq : v = kvc.2 := sorted_key_unique _ hDOs hvDO (by
      rw [← hkvc1]
      simpa using hkvcDO)
    exact (isOtherEntry_ne_type (co.1, v) hvother).1 (by rw [heq]; exact hkvcty)
  have hcnepo : co.1 ≠ po.1 := by
    intro hc
    have hm1 : (co.1, kvc.2) ∈ (accumOf docs).documents_objects := by
      rw [← hkvc1]
      simpa using hkvcDO
    have hm2 : (co.1, kvp.2) ∈ (accumOf docs).documents_objects := by
      rw [hc, ← hkvp1]
      simpa using hkvpDO
    have heq : kvc.2 = kvp.2 := sorted_key_unique _ hDOs hm1 hm2
    rw [heq, hkvpty] at hkvcty
    exact absurd (Option.some.inj hkvcty) (by decide)
  have hpoD : po.2.as_dict = some D := by rw [hD2]; rfl
  have hcoD : co.2.as_dict = some cd := by rw [hcd2]; rfl
  have hbaseC : countType (classifyOf docs).outPool "Catalog" = 0 := by
    rw [countType, List.countP_eq_zero]
    intro kv hkv
    simp only [beq_iff_eq]
    exact (isOtherEntry_ne_type kv (houtmem kv hkv).2).1
  have hbaseP : countType (classifyOf docs).outPool "Pages" = 0 := by
    rw [countType, List.countP_eq_zero]
    intro kv hkv
    simp only [beq_iff_eq]
    exact (isOtherEntry_ne_type kv (houtmem kv hkv).2).2.1
  have h1C : countType
      (insertPages (accumOf docs).documents_pages po.1 (classifyOf docs).outPool)
      "Catalog" = 0 := by
    rw [countType_insertPages _ po.1 "Catalog" _ houts hdpnd hfresh1
      (htyP "Catalog" (by decide)), hbaseC]
  have h1P : countType
      (insertPages (accumOf docs).documents_pages po.1 (classifyOf docs).outPool)
      "Pages" = 0 := by
    rw [countType_insertPages _ po.1 "Pages" _ houts hdpnd hfresh1
      (htyP "Pages" (by decide)), hbaseP]
  have h1sorted : poolSorted
      (insertPages (accumOf docs).documents_pages po.1 (classifyOf docs).outPool) :=
    insertPages_sorted _ _ _ houts
  have h1keys : po.1 ∉ poolKeys
      (insertPages (accumOf docs).documents_pages po.1 (classifyOf docs).outPool) := by
    intro hc
    rcases poolKeys_insertPages_subset _ po.1 _ po.1 hc with h | h
    · exact hponotout h
    · exact hponotdp h
  have hpfty : (Object.dictionary
      (pagesFinalDict (accumOf docs).documents_pages D)).type_name = some "Pages" := by
    show (pagesFinalDict (accumOf docs).documents_pages D).typeName = some "Pages"
    simp only [pagesFinalDict]
    rw [Dict.typeName_set_ne _ "Kids" _ (by decide),
      Dict.typeName_set_ne _ "Count" _ (by decide)]
    exact hDty
  have h2C : countType (poolInsert
      (insertPages (accumOf docs).documents_pages po.1 (classifyOf docs).outPool)
      po.1 (.dictionary (pagesFinalDict (accumOf docs).documents_pages D)))
      "Catalog" = 0 := by
    rw [countType_insert_fresh _ _ _ _ h1keys, h1C, hpfty]
    simp
  have h2P : countType (poolInsert
      (insertPages (accumOf docs).documents_pages po.1 (classifyOf docs).outPool)
      po.1 (.dictionary (pagesFinalDict (accumOf docs).documents_pages D)))
      "Pages" = 1 := by
    rw [countType_insert_fresh _ _ _ _ h1keys, h1P, hpfty]
    simp
  have h2keysc : co.1 ∉ poolKeys (poolInsert
      (insertPages (accumOf docs).documents_pages po.1 (classifyOf docs).outPool)
      po.1 (.dictionary (pagesFinalDict (accumOf docs).documents_pages D))) := by
    intro hc
    rcases (mem_poolKeys_insert _ _ _ _).mp hc with h | h
    · exact hcnepo h
    · rcases poolKeys_insertPages_subset _ po.1 _ co.1 h with h2 | h2
      · exact hcnotout h2
      · exact hcnotdp h2
  have hcfty : (Object.dictionary (catalogFinalDict cd po.1)).type_name =
      some "Catalog" := by
    show (catalogFinalDict cd po.1).typeName = some "Catalog"
    rw [catalogFinalDict, Dict.typeName_remove_ne _ _ (by decide),
      Dict.typeName_set_ne _ _ _ (by decide)]
    exact hcdty
  have hbf : buildFinalPool (accumOf docs) (classifyOf docs) po co =
      poolInsert (poolInsert
        (insertPages (accumOf docs).documents_pages po.1 (classifyOf docs).outPool)
        po.1 (.dictionary (pagesFinalDict (accumOf docs).documents_pages D)))
        co.1 (.dictionary (catalogFinalDict cd po.1)) := by
    simp only [buildFinalPool, hpoD, hcoD]
  constructor
  · rw [hbf, countType_insert_fresh _ _ _ _ h2keysc, h2C, hcfty]
    simp
  · rw [hbf, countType_insert_fresh _ _ _ _ h2keysc, h2P, hcfty]
    simp

/-! ### Outline construction lemmas -/

theorem adjust_zero_pages_objects (d : Document) :
    d.adjust_zero_pages.objects = d.objects := rfl

theorem adjust_zero_pages_max_id (d : Document) :
    d.adjust_zero_pages.max_id = d.max_id := rfl

theorem outlineItem_type_name (rootId itemId : Nat) (last : Bool) (b : Bookmark) :
    (outlineItem rootId itemId last b).type_name = some "Outline" := by
  cases last <;> rfl

theorem outlineItems_keys_bound (rootId : Nat) (bs : List Bookmark) : ∀ (itemId : Nat),
    ∀ kv ∈ outlineItems rootId itemId bs, itemId ≤ kv.1 ∧ kv.1 < itemId + bs.length := by
  induction bs with
  | nil => intro itemId kv hkv; simp [outlineItems] at hkv
  | cons b rest ih =>
    intro itemId kv hkv
    rw [outlineItems] at hkv
    rcases List.mem_cons.mp hkv with rfl | h
    · show itemId ≤ itemId ∧ itemId < itemId + (b :: rest).length
      simp only [List.length_cons]
      omega
    · have := ih (itemId + 1) kv h
      simp only [List.length_cons]
      omega

theorem outlineItems_sorted (rootId : Nat) (bs : List Bookmark) : ∀ (itemId : Nat),
    poolSorted (outlineItems rootId itemId bs) := by
  induction bs with
  | nil => intro itemId; simp [outlineItems, poolSorted]
  | cons b rest ih =>
    intro itemId
    rw [outlineItems, poolSorted, List.pairwise_cons]
    refine ⟨?_, ih (itemId + 1)⟩
    intro kv hkv
    have := (outlineItems_keys_bound rootId rest (itemId + 1) kv hkv).1
    show itemId < kv.1
    omega

theorem outlineItems_key_mem (rootId : Nat) (bs : List Bookmark) : ∀ (itemId k : Nat),
    itemId ≤ k → k < itemId + bs.length →
    k ∈ poolKeys (outlineItems rootId itemId bs) := by
  induction bs with
  | nil =>
    intro itemId k h1 h2
    simp only [List.length_nil, Nat.add_zero] at h2
    omega
  | cons b rest ih =>
    intro itemId k h1 h2
    rw [outlineItems]
    by_cases hk : k = itemId
    · rw [poolKeys, List.map_cons]
      exact List.mem_cons.mpr (Or.inl hk)
    · have hmem : k ∈ poolKeys (outlineItems rootId (itemId + 1) rest) := by
        apply ih
        · omega
        · simp only [List.length_cons] at h2
          omega
      rw [poolKeys, List.map_cons]
      exact List.mem_cons_of_mem _ hmem

theorem outlineItem_refs_last (rootId itemId : Nat) (b : Bookmark) :
    objRefs (outlineItem rootId itemId true b) = [rootId, b.page] := rfl

theorem outlineItem_refs_next (rootId itemId : Nat) (b : Bookmark) :
    objRefs (outlineItem rootId itemId false b) = [rootId, b.page, itemId + 1] := rfl

theorem outlineItems_refs (rootId : Nat) (bs : List Bookmark) : ∀ (itemId : Nat),
    ∀ r ∈ poolRefs (outlineItems rootId itemId bs),
      r = rootId ∨ (∃ b ∈ bs, r = b.page) ∨
        (itemId + 1 ≤ r ∧ r < itemId + bs.length) := by
  induction bs with
  | nil => intro itemId r hr; simp [outlineItems, poolRefs] at hr
  | cons b rest ih =>
    intro itemId r hr
    rw [outlineItems, mem_poolRefs] at hr
    obtain ⟨kv, hkv, hrkv⟩ := hr
    rcases List.mem_cons.mp hkv with rfl | h
    · cases hre : rest with
      | nil =>
        rw [hre] at hrkv
        have hrkv2 : r ∈ [rootId, b.page] := hrkv
        rcases List.mem_cons.mp hrkv2 with h1 | h1
        · exact Or.inl h1
        · simp only [List.mem_singleton] at h1
          exact Or.inr (Or.inl ⟨b, by simp, h1⟩)
      | cons b2 rest2 =>
        rw [hre] at hrkv
        have hrkv2 : r ∈ [rootId, b.page, itemId + 1] := hrkv
        rcases List.mem_cons.mp hrkv2 with h1 | h1
        · exact Or.inl h1
        · rcases List.mem_cons.mp h1 with h2 | h2
          · exact Or.inr (Or.inl ⟨b, by simp, h2⟩)
          · simp only [List.mem_singleton] at h2
            refine Or.inr (Or.inr ?_)
            simp only [List.length_cons]
            omega
    · have hr2 : r ∈ poolRefs (outlineItems rootId (itemId + 1) rest) := by
        rw [mem_poolRefs]
        exact ⟨kv, h, hrkv⟩
      rcases ih (itemId + 1) r hr2 with h1 | ⟨b2, hb2, h3⟩ | h4
      · exact Or.inl h1
      · exact Or.inr (Or.inl ⟨b2, List.mem_cons_of_mem _ hb2, h3⟩)
      · refine Or.inr (Or.inr ?_)
        simp only [List.length_cons]
        omega

theorem outlineItems_type (rootId : Nat) (bs : List Bookmark) : ∀ (itemId : Nat),
    ∀ kv ∈ outlineItems rootId itemId bs, kv.2.type_name = some "Outline" := by
  induction bs with
  | nil => intro itemId kv hkv; simp [outlineItems] at hkv
  | cons b rest ih =>
    intro itemId kv hkv
    rw [outlineItems] at hkv
    rcases List.mem_cons.mp hkv with rfl | h
    · exact outlineItem_type_name _ _ _ _
    · exact ih (itemId + 1) kv h

theorem outlineItems_countType (rootId : Nat) (bs : List Bookmark) (τ : String)
    (hτ : τ ≠ "Outline") : ∀ (itemId : Nat),
    countType (outlineItems rootId itemId bs) τ = 0 := by
  induction bs with
  | nil => intro itemId; rfl
  | cons b rest ih =>
    intro itemId
    rw [outlineItems, countType, List.countP_cons, ← countType, ih (itemId + 1)]
    rw [show ((itemId, outlineItem rootId itemId rest.isEmpty b)).2.type_name =
      some "Outline" from outlineItem_type_name _ _ _ _]
    simp [Ne.symm hτ]

theorem countType_cons (kv : Nat × Object) (l : Pool) (τ : String) :
    countType (kv :: l) τ =
      countType l τ + (if kv.2.type_name == some τ then 1 else 0) := by
  rw [countType, countType, List.countP_cons]

theorem build_outline_nil (d : Document) (h : d.bookmarks = []) :
    d.build_outline = (none, d) := by
  simp [Document.build_outline, h]

theorem build_outline_cons (d : Document) (b0 : Bookmark) (bs : List Bookmark)
    (h : d.bookmarks = b0 :: bs) :
    d.build_outline =
      (some (d.max_id + 1),
        { d with
          objects := poolExtend d.objects
            ((d.max_id + 1, .dictionary (Dict.ofList
              [("Type", .name "Outlines"),
               ("First", .reference (d.max_id + 1 + 1)),
               ("Last", .reference (d.max_id + 1 + d.bookmarks.length)),
               ("Count", .integer d.bookmarks.length)])) ::
             outlineItems (d.max_id + 1) (d.max_id + 1 + 1) d.bookmarks)
          max_id := d.max_id + 1 + d.bookmarks.length }) := by
  simp only [Document.build_outline, h]

theorem outline_newlist_sorted (rootId : Nat) (bs : List Bookmark) (root : Object) :
    poolSorted ((rootId, root) :: outlineItems rootId (rootId + 1) bs) := by
  rw [poolSorted, List.pairwise_cons]
  refine ⟨?_, outlineItems_sorted rootId bs (rootId + 1)⟩
  intro kv hkv
  have := (outlineItems_keys_bound rootId bs (rootId + 1) kv hkv).1
  show rootId < kv.1
  omega

theorem build_outline_objects_append (d : Document)
    (hbound : ∀ k ∈ poolKeys d.objects, k ≤ d.max_id) (b0 : Bookmark)
    (bs : List Bookmark) (h : d.bookmarks = b0 :: bs) :
    (d.build_outline).2.objects =
      d.objects ++
        ((d.max_id + 1, .dictionary (Dict.ofList
          [("Type", .name "Outlines"),
           ("First", .reference (d.max_id + 1 + 1)),
           ("Last", .reference (d.max_id + 1 + d.bookmarks.length)),
           ("Count", .integer d.bookmarks.length)])) ::
         outlineItems (d.max_id + 1) (d.max_id + 1 + 1) d.bookmarks) := by
  rw [build_outline_cons d b0 bs h]
  show poolExtend d.objects _ = _
  rw [poolExtend_eq_append _ _ ?hcross]
  · rw [poolOfList_sorted_self _ (outline_newlist_sorted _ _ _)]
  case hcross =>
    intro x hx y hy
    have hxb := hbound x.1 (List.mem_map_of_mem Prod.fst hx)
    rcases List.mem_cons.mp hy with rfl | h2
    · show x.1 < d.max_id + 1
      omega
    · have := (outlineItems_keys_bound _ _ _ y h2).1
      omega

theorem build_outline_countType (d : Document) (τ : String)
    (hτ1 : τ ≠ "Outlines") (hτ2 : τ ≠ "Outline")
    (hbound : ∀ k ∈ poolKeys d.objects, k ≤ d.max_id) :
    countType (d.build_outline).2.objects τ = countType d.objects τ := by
  cases hbm : d.bookmarks with
  | nil => rw [build_outline_nil d hbm]
  | cons b0 bs =>
    rw [build_outline_objects_append d hbound b0 bs hbm, countType_append, countType_cons,
      outlineItems_countType _ _ _ hτ2]
    rw [show ((d.max_id + 1, Object.dictionary (Dict.ofList
      [("Type", .name "Outlines"),
       ("First", .reference (d.max_id + 1 + 1)),
       ("Last", .reference (d.max_id + 1 + d.bookmarks.length)),
       ("Count", .integer d.bookmarks.length)]))).2.type_name =
      some "Outlines" from rfl]
    simp [Ne.symm hτ1]

/-! ### Counting through the post passes -/

theorem postPasses_countType (d : Document) (catalogId : Nat) (τ : String)
    (hs : poolSorted d.objects) (hτ1 : τ ≠ "Outlines") (hτ2 : τ ≠ "Outline") :
    countType (postPasses d catalogId).objects τ = countType d.objects τ := by
  have hmapcount : countType d.renumber_objects.objects τ = countType d.objects τ := by
    rw [Document.renumber_objects, renumber_objects]
    exact countType_map_ren _ _ _
  have hbound : ∀ k ∈ poolKeys d.renumber_objects.adjust_zero_pages.objects,
      k ≤ d.renumber_objects.adjust_zero_pages.max_id := by
    intro k hk
    rw [adjust_zero_pages_objects] at hk
    have h1 := renumber_keys_bounds d 1 k hk
    have h2 : d.renumber_objects.max_id = 1 + d.objects.length - 1 := renumber_max_id d 1
    rw [adjust_zero_pages_max_id, h2]
    omega
  have hsorted2 : poolSorted d.renumber_objects.adjust_zero_pages.objects := by
    rw [adjust_zero_pages_objects]
    exact renumber_sorted d 1 hs
  rcases hbo : d.renumber_objects.adjust_zero_pages.build_outline with ⟨optn, d3⟩
  have h32 : (d.renumber_objects.adjust_zero_pages.build_outline).2 = d3 := by rw [hbo]
  have hcount3 : countType d3.objects τ = countType d.objects τ := by
    rw [← h32, build_outline_countType _ _ hτ1 hτ2 hbound, adjust_zero_pages_objects,
      hmapcount]
  have hsorted3 : poolSorted d3.objects := by
    rw [← h32]
    cases hbm : d.renumber_objects.adjust_zero_pages.bookmarks with
    | nil =>
      rw [build_outline_nil _ hbm]
      exact hsorted2
    | cons b0 bs =>
      rw [build_outline_objects_append _ hbound b0 bs hbm]
      rw [poolSorted, List.pairwise_append]
      refine ⟨hsorted2, outline_newlist_sorted _ _ _, ?_⟩
      intro a ha b hb
      have ha1 := hbound a.1 (List.mem_map_of_mem Prod.fst ha)
      rcases List.mem_cons.mp hb with rfl | h2
      · show a.1 < d.renumber_objects.adjust_zero_pages.max_id + 1
        omega
      · have := (outlineItems_keys_bound _ _ _ b h2).1
        omega
  simp only [postPasses, Document.compress, hbo]
  cases optn with
  | none => exact hcount3
  | some n =>
    cases hg : d3.get_object catalogId with
    | none => simp only [hg]; exact hcount3
    | some o =>
      cases o with
      | dictionary dict =>
        simp only [hg]
        have hget : poolGet d3.objects catalogId = some (.dictionary dict) := hg
        rw [countType_insert_replace d3.objects hsorted3 catalogId _ _ τ hget ?_]
        · exact hcount3
        · show (dict.set "Outlines" (.reference n)).typeName = dict.typeName
          exact Dict.typeName_set_ne _ _ _ (by decide)
      | null => simp only [hg]; exact hcount3
      | boolean b => simp only [hg]; exact hcount3
      | integer i => simp only [hg]; exact hcount3
      | real x => simp only [hg]; exact hcount3
      | string s => simp only [hg]; exact hcount3
      | name s => simp only [hg]; exact hcount3
      | array xs => simp only [hg]; exact hcount3
      | stream sd => simp only [hg]; exact hcount3
      | reference r => simp only [hg]; exact hcount3

theorem buildFinalPool_sorted (docs : List (Document × String)) (hv : ValidDocs docs)
    (po co : Nat × Object) :
    poolSorted (buildFinalPool (accumOf docs) (classifyOf docs) po co) := by
  have houts : poolSorted (classifyOf docs).outPool := by
    rw [classifyOf_outPool docs hv]
    exact List.Pairwise.filter _ (accumOf_sorted docs hv)
  have hbase := insertPages_sorted (accumOf docs).documents_pages po.1 _ houts
  simp only [buildFinalPool]
  cases h1 : po.2.as_dict with
  | none =>
    simp only [h1]
    cases h2 : co.2.as_dict with
    | none => exact hbase
    | some cd => exact poolSorted_insert _ _ _ hbase
  | some D =>
    simp only [h1]
    cases h2 : co.2.as_dict with
    | none => exact poolSorted_insert _ _ _ hbase
    | some cd => exact poolSorted_insert _ _ _ (poolSorted_insert _ _ _ hbase)

theorem poolKeys_buildFinalPool_sub (st : MergeState) (cs : ClassifyState)
    (po co : Nat × Object) :
    ∀ k ∈ poolKeys (buildFinalPool st cs po co),
      k = co.1 ∨ k = po.1 ∨ k ∈ poolKeys st.documents_pages ∨
        k ∈ poolKeys cs.outPool := by
  intro k hk
  simp only [buildFinalPool] at hk
  have hstep : ∀ q : Pool,
      (∀ k2 ∈ poolKeys q, k2 = po.1 ∨ k2 ∈ poolKeys st.documents_pages ∨
        k2 ∈ poolKeys cs.outPool) →
      k ∈ poolKeys (match co.2.as_dict with
        | some dictionary =>
          poolInsert q co.1 (.dictionary (catalogFinalDict dictionary po.1))
        | none => q) →
      k = co.1 ∨ k = po.1 ∨ k ∈ poolKeys st.documents_pages ∨
        k ∈ poolKeys cs.outPool := by
    intro q hq hkq
    cases h2 : co.2.as_dict with
    | none =>
      simp only [h2] at hkq
      rcases hq k hkq with h | h | h
      · exact Or.inr (Or.inl h)
      · exact Or.inr (Or.inr (Or.inl h))
      · exact Or.inr (Or.inr (Or.inr h))
    | some cd =>
      simp only [h2] at hkq
      rcases (mem_poolKeys_insert _ _ _ _).mp hkq with h | h
      · exact Or.inl h
      · rcases hq k h with h3 | h3 | h3
        · exact Or.inr (Or.inl h3)
        · exact Or.inr (Or.inr (Or.inl h3))
        · exact Or.inr (Or.inr (Or.inr h3))
  have hbase : ∀ k2 ∈ poolKeys (insertPages st.documents_pages po.1 cs.outPool),
      k2 = po.1 ∨ k2 ∈ poolKeys st.documents_pages ∨ k2 ∈ poolKeys cs.outPool := by
    intro k2 hk2
    rcases poolKeys_insertPages_subset _ po.1 _ k2 hk2 with h | h
    · exact Or.inr (Or.inr h)
    · exact Or.inr (Or.inl h)
  cases h1 : po.2.as_dict with
  | none =>
    simp only [h1] at hk
    exact hstep _ hbase hk
  | some D =>
    simp only [h1] at hk
    refine hstep _ ?_ hk
    intro k2 hk2
    rcases (mem_poolKeys_insert _ _ _ _).mp hk2 with h | h
    · exact Or.inl h
    · exact hbase k2 h

/-- C4: for every valid input sequence on which the merge succeeds, the output
pool contains exactly one object whose `/Type` is `Catalog` and exactly one
whose `/Type` is `Pages`; moreover every accumulated source Catalog or Pages
object other than the two surviving ones is discarded as a standalone object —
its id does not survive as a key of the finalized pool the post passes
renumber. -/
theorem C4_unique_roots (docs : List (Document × String)) (hv : ValidDocs docs)
    (out : Document) (hok : merge docs = .ok out) :
    countType out.objects "Catalog" = 1 ∧
    countType out.objects "Pages" = 1 ∧
    ∃ po co : Nat × Object,
      (classifyOf docs).pages_object = some po ∧
      (classifyOf docs).catalog_object = some co ∧
      ∀ kv ∈ (accumOf docs).documents_objects,
        (kv.2.type_name = some "Catalog" ∨ kv.2.type_name = some "Pages") →
        kv.1 ≠ co.1 → kv.1 ≠ po.1 →
        kv.1 ∉ poolKeys (buildFinalPool (accumOf docs) (classifyOf docs) po co) := by
  rw [merge_eq] at hok
  cases hpo : (classifyOf docs).pages_object with
  | none =>
    rw [hpo] at hok
    exact absurd hok (by simp)
  | some po =>
    cases hco : (classifyOf docs).catalog_object with
    | none =>
      rw [hpo, hco] at hok
      exact absurd hok (by simp)
    | some co =>
      rw [hpo, hco] at hok
      injection hok with hout
      subst hout
      have hcounts := buildFinalPool_countType docs hv po co hpo hco
      have hsortbf : poolSorted
          (preRenumberDoc (accumOf docs) (classifyOf docs) po co).objects :=
        buildFinalPool_sorted docs hv po co
      have hpre : (preRenumberDoc (accumOf docs) (classifyOf docs) po co).objects =
          buildFinalPool (accumOf docs) (classifyOf docs) po co := rfl
      refine ⟨?_, ?_, po, co, rfl, rfl, ?_⟩
      · rw [postPasses_countType _ _ _ hsortbf (by decide) (by decide), hpre]
        exact hcounts.1
      · rw [postPasses_countType _ _ _ hsortbf (by decide) (by decide), hpre]
        exact hcounts.2
      · intro kv hkv htype hne1 hne2 hc
        have hDOs : poolSorted (accumOf docs).documents_objects := accumOf_sorted docs hv
        have hdpmem := accumOf_pages_entries docs hv
        have hout2 := classifyOf_outPool docs hv
        rcases poolKeys_buildFinalPool_sub _ _ po co kv.1 hc with h | h | h | h
        · exact hne1 h
        · exact hne2 h
        · obtain ⟨v, hvmem⟩ := mem_poolKeys_exists _ kv.1 h
          obtain ⟨hvDO, dd, hdd, hddty⟩ := hdpmem (kv.1, v) hvmem
          have hdd2 : v = Object.dictionary dd := hdd
          have heq : v = kv.2 := sorted_key_unique _ hDOs hvDO (by simpa using hkv)
          have h1 : v.type_name = some "Page" := by
            rw [hdd2]
            exact hddty
          rw [heq] at h1
          rcases htype with ht | ht <;> rw [ht] at h1 <;>
            exact absurd (Option.some.inj h1) (by decide)
        · obtain ⟨v, hvmem⟩ := mem_poolKeys_exists _ kv.1 h
          rw [hout2] at hvmem
          have hvDO := List.mem_of_mem_filter hvmem
          have hvother := List.of_mem_filter hvmem
          have heq : v = kv.2 := sorted_key_unique _ hDOs hvDO (by simpa using hkv)
          rcases htype with ht | ht
          · exact (isOtherEntry_ne_type (kv.1, v) hvother).1 (by rw [heq]; exact ht)
          · exact (isOtherEntry_ne_type (kv.1, v) hvother).2.1 (by rw [heq]; exact ht)

/-- C4, witness: merging `exCatA` then `exCatB` (two Catalogs, two Pages among
the inputs), the output pool holds exactly one Catalog-typed and one
Pages-typed object, and the non-surviving root ids are absent from the
finalized pool. -/
theorem C4_witness :
    countType (mergedDoc (merge [(exCatA, "a.pdf"), (exCatB, "b.pdf")])).objects
      "Catalog" = 1 ∧
    countType (mergedDoc (merge [(exCatA, "a.pdf"), (exCatB, "b.pdf")])).objects
      "Pages" = 1 ∧
    ∃ po co : Nat × Object,
      (classifyOf [(exCatA, "a.pdf"), (exCatB, "b.pdf")]).pages_object = some po ∧
      (classifyOf [(exCatA, "a.pdf"), (exCatB, "b.pdf")]).catalog_object = some co ∧
      ∀ kv ∈ (accumOf [(exCatA, "a.pdf"), (exCatB, "b.pdf")]).documents_objects,
        (kv.2.type_name = some "Catalog" ∨ kv.2.type_name = some "Pages") →
        kv.1 ≠ co.1 → kv.1 ≠ po.1 →
        kv.1 ∉ poolKeys (buildFinalPool (accumOf [(exCatA, "a.pdf"), (exCatB, "b.pdf")])
          (classifyOf [(exCatA, "a.pdf"), (exCatB, "b.pdf")]) po co) :=
  C4_unique_roots [(exCatA, "a.pdf"), (exCatB, "b.pdf")] (by decide)
    (mergedDoc (merge [(exCatA, "a.pdf"), (exCatB, "b.pdf")])) rfl

/-! ### Page totals -/

theorem length_poolOfList_nodup (l : Pool) (hnd : (poolKeys l).Nodup) :
    (poolOfList l).length = l.length := by
  have h1 := (poolKeys_poolExtend_perm l [] hnd (by simp [poolKeys])).length_eq
  simpa [poolOfList, poolKeys] using h1

theorem pageBlocks_length (ds : List Document) : ∀ (s : Nat),
    (∀ d ∈ ds, d.pageOrder.Nodup ∧ ∀ pid ∈ d.pageOrder, pid ∈ poolKeys d.objects) →
    (pageBlocks s ds).length = (ds.map (fun d => d.pageOrder.length)).sum := by
  induction ds with
  | nil => intro s _; rfl
  | cons d t ih =>
    intro s h
    rw [pageBlocks, List.length_append,
      ih (nextOffset d s) (fun q hq => h q (by simp [hq])), List.map_cons, List.sum_cons]
    congr 1
    have hd := h d (by simp)
    have hnd : (poolKeys (pageEntriesOf (d.renumber_objects_with s))).Nodup := by
      rw [pageEntriesOf_keys, renumber_pageOrder]
      exact hd.1.map_on (fun x hx y hy hxy =>
        renumMap_inj (poolKeys d.objects) s (hd.2 x hx) (hd.2 y hy) hxy)
    rw [length_poolOfList_nodup _ hnd]
    show (pageEntriesOf (d.renumber_objects_with s)).length = d.pageOrder.length
    rw [pageEntriesOf, Document.get_pages, renumber_pageOrder]
    simp

theorem accumOf_pages_length (docs : List (Document × String)) (hv : ValidDocs docs) :
    (accumOf docs).documents_pages.length = totalPageCount docs := by
  rw [accumOf_documents_pages docs hv, pageBlocks_length _ 1 (by
    intro d hd
    obtain ⟨p, hp, rfl⟩ := List.mem_map.mp hd
    exact ⟨(hv p hp).2.1, validDoc_pageOrder_mem (hv p hp)⟩)]
  rw [totalPageCount, List.map_map]
  rfl

/-! ### Membership shape of the finalized pool and the output pool -/

theorem mem_buildFinalPool (st : MergeState) (cs : ClassifyState)
    (po co : Nat × Object) :
    ∀ y ∈ buildFinalPool st cs po co,
      (∃ cd, co.2.as_dict = some cd ∧
        y = (co.1, .dictionary (catalogFinalDict cd po.1))) ∨
      (∃ D, po.2.as_dict = some D ∧
        y = (po.1, .dictionary (pagesFinalDict st.documents_pages D))) ∨
      (∃ kv ∈ st.documents_pages, ∃ dd, kv.2 = .dictionary dd ∧
        y = (kv.1, .dictionary (dd.set "Parent" (.reference po.1)))) ∨
      y ∈ cs.outPool := by
  intro y hy
  simp only [buildFinalPool] at hy
  have hcat : (∃ cd, co.2.as_dict = some cd ∧
      y = (co.1, .dictionary (catalogFinalDict cd po.1))) ∨
      y ∈ (match po.2.as_dict with
        | some dictionary => poolInsert (insertPages st.documents_pages po.1 cs.outPool)
            po.1 (.dictionary (pagesFinalDict st.documents_pages dictionary))
        | none => insertPages st.documents_pages po.1 cs.outPool) := by
    cases h2 : co.2.as_dict with
    | none =>
      simp only [h2] at hy
      exact Or.inr hy
    | some cd =>
      simp only [h2] at hy
      rcases mem_poolInsert _ _ _ y hy with h | h
      · exact Or.inl ⟨cd, rfl, h⟩
      · exact Or.inr h
  rcases hcat with h | h
  · exact Or.inl h
  have hpag : (∃ D, po.2.as_dict = some D ∧
      y = (po.1, .dictionary (pagesFinalDict st.documents_pages D))) ∨
      y ∈ insertPages st.documents_pages po.1 cs.outPool := by
    cases h1 : po.2.as_dict with
    | none =>
      simp only [h1] at h
      exact Or.inr h
    | some D =>
      simp only [h1] at h
      rcases mem_poolInsert _ _ _ y h with h3 | h3
      · exact Or.inl ⟨D, rfl, h3⟩
      · exact Or.inr h3
  rcases hpag with h2 | h2
  · exact Or.inr (Or.inl h2)
  rcases mem_insertPages _ _ _ y h2 with h3 | ⟨kv, hkv, dd, hd1, hd2⟩
  · exact Or.inr (Or.inr (Or.inr h3))
  · exact Or.inr (Or.inr (Or.inl ⟨kv, hkv, dd, hd1, hd2⟩))

theorem mem_buildFinalPool_pages_typed (docs : List (Document × String))
    (hv : ValidDocs docs) (po co : Nat × Object)
    (_hpo : (classifyOf docs).pages_object = some po)
    (hco : (classifyOf docs).catalog_object = some co) :
    ∀ y ∈ buildFinalPool (accumOf docs) (classifyOf docs) po co,
      y.2.type_name = some "Pages" →
      ∃ D, po.2.as_dict = some D ∧
        y = (po.1, .dictionary (pagesFinalDict (accumOf docs).documents_pages D)) := by
  intro y hy hty
  rcases mem_buildFinalPool _ _ po co y hy with
    ⟨cd, hcd, hyeq⟩ | h | ⟨kv, hkv, dd, hdd, hyeq⟩ | h
  · exfalso
    obtain ⟨cd2, hcd2, hcdty, _, _⟩ := classifyOf_catalog_entry docs hv co hco
    rw [hcd2] at hcd
    simp [Object.as_dict] at hcd
    rw [hyeq] at hty
    have hty2 : (catalogFinalDict cd po.1).typeName = some "Pages" := hty
    have hcatty : (catalogFinalDict cd po.1).typeName = some "Catalog" := by
      rw [catalogFinalDict, Dict.typeName_remove_ne _ _ (by decide),
        Dict.typeName_set_ne _ _ _ (by decide), ← hcd]
      exact hcdty
    rw [hcatty] at hty2
    exact absurd (Option.some.inj hty2) (by decide)
  · exact h
  · exfalso
    obtain ⟨_, dd2, hdd2, hddty⟩ := accumOf_pages_entries docs hv kv hkv
    rw [hdd2] at hdd
    injection hdd with hdode
    rw [hyeq] at hty
    have hty2 : (dd.set "Parent" (.reference po.1)).typeName = some "Pages" := hty
    rw [Dict.typeName_set_ne _ _ _ (by decide), ← hdode, hddty] at hty2
    exact absurd (Option.some.inj hty2) (by decide)
  · exfalso
    rw [classifyOf_outPool docs hv] at h
    exact (isOtherEntry_ne_type y (List.of_mem_filter h)).2.1 hty

theorem mem_postPasses_objects (d : Document) (catalogId : Nat)
    (_hs : poolSorted d.objects) :
    ∀ x ∈ (postPasses d catalogId).objects,
      (∃ y ∈ d.objects, x.2 = renObj (renumMap (poolKeys d.objects) 1) y.2) ∨
      (∃ y ∈ d.objects, ∃ (dd : Dict) (n : Nat),
        renObj (renumMap (poolKeys d.objects) 1) y.2 = .dictionary dd ∧
        x.2 = .dictionary (dd.set "Outlines" (.reference n))) ∨
      x.2.type_name = some "Outlines" ∨ x.2.type_name = some "Outline" := by
  have hbound : ∀ k ∈ poolKeys d.renumber_objects.adjust_zero_pages.objects,
      k ≤ d.renumber_objects.adjust_zero_pages.max_id := by
    intro k hk
    rw [adjust_zero_pages_objects] at hk
    have h1 := renumber_keys_bounds d 1 k hk
    have h2 : d.renumber_objects.max_id = 1 + d.objects.length - 1 := renumber_max_id d 1
    rw [adjust_zero_pages_max_id, h2]
    omega
  have hmap : ∀ x ∈ d.renumber_objects.adjust_zero_pages.objects,
      ∃ y ∈ d.objects, x.2 = renObj (renumMap (poolKeys d.objects) 1) y.2 := by
    intro x hx
    rw [adjust_zero_pages_objects] at hx
    have hx2 : x ∈ d.objects.map (fun kv =>
        (renumMap (poolKeys d.objects) 1 kv.1,
         renObj (renumMap (poolKeys d.objects) 1) kv.2)) := hx
    obtain ⟨y, hy, rfl⟩ := List.mem_map.mp hx2
    exact ⟨y, hy, rfl⟩
  rcases hbo : d.renumber_objects.adjust_zero_pages.build_outline with ⟨optn, d3⟩
  have h32 : (d.renumber_objects.adjust_zero_pages.build_outline).2 = d3 := by rw [hbo]
  have hmem3 : ∀ x ∈ d3.objects,
      (∃ y ∈ d.objects, x.2 = renObj (renumMap (poolKeys d.objects) 1) y.2) ∨
      x.2.type_name = some "Outlines" ∨ x.2.type_name = some "Outline" := by
    intro x hx
    rw [← h32] at hx
    cases hbm : d.renumber_objects.adjust_zero_pages.bookmarks with
    | nil =>
      rw [build_outline_nil _ hbm] at hx
      exact Or.inl (hmap x hx)
    | cons b0 bs =>
      rw [build_outline_objects_append _ hbound b0 bs hbm] at hx
      rcases List.mem_append.mp hx with h | h
      · exact Or.inl (hmap x h)
      · rcases List.mem_cons.mp h with rfl | h2
        · exact Or.inr (Or.inl rfl)
        · exact Or.inr (Or.inr (outlineItems_type _ _ _ x h2))
  intro x hx
  have hlift : x ∈ d3.objects →
      (∃ y ∈ d.objects, x.2 = renObj (renumMap (poolKeys d.objects) 1) y.2) ∨
      (∃ y ∈ d.objects, ∃ (dd : Dict) (n : Nat),
        renObj (renumMap (poolKeys d.objects) 1) y.2 = .dictionary dd ∧
        x.2 = .dictionary (dd.set "Outlines" (.reference n))) ∨
      x.2.type_name = some "Outlines" ∨ x.2.type_name = some "Outline" := by
    intro hxm
    rcases hmem3 x hxm with h | h | h
    · exact Or.inl h
    · exact Or.inr (Or.inr (Or.inl h))
    · exact Or.inr (Or.inr (Or.inr h))
  simp only [postPasses, Document.compress, hbo] at hx
  cases optn with
  | none => exact hlift hx
  | some n =>
    cases hg : d3.get_object catalogId with
    | none =>
      simp only [hg] at hx
      exact hlift hx
    | some o =>
      cases o with
      | dictionary dict =>
        simp only [hg] at hx
        rcases mem_poolInsert _ _ _ x hx with hxe | hxm
        · have hdictmem : (catalogId, Object.dictionary dict) ∈ d3.objects :=
            poolGet_mem _ _ _ hg
          rcases hmem3 _ hdictmem with ⟨y, hy, hyx⟩ | h | h
          · refine Or.inr (Or.inl ⟨y, hy, dict, n, hyx.symm, ?_⟩)
            rw [hxe]
          · refine Or.inr (Or.inr (Or.inl ?_))
            rw [hxe]
            show (dict.set "Outlines" (.reference n)).typeName = some "Outlines"
            rw [Dict.typeName_set_ne _ _ _ (by decide)]
            exact h
          · refine Or.inr (Or.inr (Or.inr ?_))
            rw [hxe]
            show (dict.set "Outlines" (.reference n)).typeName = some "Outline"
            rw [Dict.typeName_set_ne _ _ _ (by decide)]
            exact h
        · exact hlift hxm
      | null => simp only [hg] at hx; exact hlift hx
      | boolean b => simp only [hg] at hx; exact hlift hx
      | integer i => simp only [hg] at hx; exact hlift hx
      | real r0 => simp only [hg] at hx; exact hlift hx
      | string s0 => simp only [hg] at hx; exact hlift hx
      | name s0 => simp only [hg] at hx; exact hlift hx
      | array xs => simp only [hg] at hx; exact hlift hx
      | stream sd => simp only [hg] at hx; exact hlift hx
      | reference r0 => simp only [hg] at hx; exact hlift hx

/-! ### Values of the rebuilt Pages dictionary -/

theorem renList_ofList (m : Nat → Nat) (xs : List Object) :
    renList m (ObjList.ofList xs) = ObjList.ofList (xs.map (renObj m)) := by
  induction xs with
  | nil => rfl
  | cons o t ih => simp [ObjList.ofList, renList, ih]

theorem pagesFinal_ren_values (dp : Pool) (D : Dict) (m : Nat → Nat) :
    (renDict m (pagesFinalDict dp D)).get "Count" =
      some (.integer ((dp.length : Int) % 2 ^ 32)) ∧
    (renDict m (pagesFinalDict dp D)).get "Kids" =
      some (.array (ObjList.ofList ((dp.map (fun kv => m kv.1)).map Object.reference))) := by
  have hPFc : (pagesFinalDict dp D).get "Count" =
      some (.integer ((dp.length : Int) % 2 ^ 32)) := by
    simp only [pagesFinalDict]
    rw [Dict.get_set_ne _ _ _ _ (by decide), Dict.get_set_self]
  have hPFk : (pagesFinalDict dp D).get "Kids" =
      some (.array (ObjList.ofList (dp.map (fun kv => Object.reference kv.1)))) := by
    simp only [pagesFinalDict]
    exact Dict.get_set_self _ _ _
  have hmapref : (dp.map (fun kv => Object.reference kv.1)).map (renObj m) =
      (dp.map (fun kv => m kv.1)).map Object.reference := by
    rw [List.map_map, List.map_map]
    rfl
  constructor
  · rw [renDict_get, hPFc]
    rfl
  · rw [renDict_get, hPFk]
    show some (Object.array (renList m
      (ObjList.ofList (dp.map (fun kv => Object.reference kv.1))))) = _
    rw [renList_ofList, hmapref]

theorem kidsIdList_of_get (dd : Dict) (l : List Nat)
    (h : dd.get "Kids" = some (.array (ObjList.ofList (l.map Object.reference)))) :
    kidsIdList (.dictionary dd) = l := by
  simp only [kidsIdList, h]
  exact refIds_ofList_refs l

/-- C5: for every valid input sequence on which the merge succeeds (with the
total page count within `u32` range), the output pool holds exactly one
Pages-typed object, and every Pages-typed object of the output pool is a
dictionary whose `Count` equals the sum of the input documents' page counts
and whose `Kids` array holds exactly that many references; the collected page
map has that same size. -/
theorem C5_pages_count_invariant (docs : List (Document × String)) (hv : ValidDocs docs)
    (out : Document) (hok : merge docs = .ok out)
    (hsmall : totalPageCount docs < 2 ^ 32) :
    countType out.objects "Pages" = 1 ∧
    (accumOf docs).documents_pages.length = totalPageCount docs ∧
    ∀ kv ∈ out.objects, kv.2.type_name = some "Pages" →
      ∃ dd : Dict, kv.2 = .dictionary dd ∧
        dd.get "Count" = some (.integer (totalPageCount docs)) ∧
        (kidsIdList kv.2).length = totalPageCount docs := by
  rw [merge_eq] at hok
  cases hpo : (classifyOf docs).pages_object with
  | none =>
    rw [hpo] at hok
    exact absurd hok (by simp)
  | some po =>
    cases hco : (classifyOf docs).catalog_object with
    | none =>
      rw [hpo, hco] at hok
      exact absurd hok (by simp)
    | some co =>
      rw [hpo, hco] at hok
      injection hok with hout
      subst hout
      have hsortbf : poolSorted
          (preRenumberDoc (accumOf docs) (classifyOf docs) po co).objects :=
        buildFinalPool_sorted docs hv po co
      have hcounts := buildFinalPool_countType docs hv po co hpo hco
      have hlen := accumOf_pages_length docs hv
      have hintmod : ((totalPageCount docs : Int) % 2 ^ 32) =
          (totalPageCount docs : Int) := by
        apply Int.emod_eq_of_lt (Int.ofNat_nonneg _)
        exact_mod_cast hsmall
      refine ⟨?_, hlen, ?_⟩
      · rw [postPasses_countType _ _ _ hsortbf (by decide) (by decide)]
        exact hcounts.2
      · intro kv hkv hty
        rcases mem_postPasses_objects _ co.1 hsortbf kv hkv with
          ⟨y, hy, hkv2⟩ | ⟨y, hy, dd, n, hren, hkv2⟩ | h | h
        · rw [hkv2, type_name_renObj] at hty
          obtain ⟨D, hD, hyeq⟩ :=
            mem_buildFinalPool_pages_typed docs hv po co hpo hco y hy hty
          have hy2 : y.2 =
              Object.dictionary (pagesFinalDict (accumOf docs).documents_pages D) := by
            rw [hyeq]
          refine ⟨renDict
            (renumMap (poolKeys
              (preRenumberDoc (accumOf docs) (classifyOf docs) po co).objects) 1)
            (pagesFinalDict (accumOf docs).documents_pages D), ?_, ?_, ?_⟩
          · rw [hkv2, hy2]
            rfl
          · rw [(pagesFinal_ren_values _ _ _).1, hlen, hintmod]
          · rw [hkv2, hy2,
              show renObj (renumMap (poolKeys
                  (preRenumberDoc (accumOf docs) (classifyOf docs) po co).objects) 1)
                (Object.dictionary (pagesFinalDict (accumOf docs).documents_pages D)) =
                Object.dictionary (renDict (renumMap (poolKeys
                  (preRenumberDoc (accumOf docs) (classifyOf docs) po co).objects) 1)
                  (pagesFinalDict (accumOf docs).documents_pages D)) from rfl,
              kidsIdList_of_get _ _ (pagesFinal_ren_values _ _ _).2,
              List.length_map, hlen]
        · rw [hkv2] at hty
          have hty2 : (dd.set "Outlines" (.reference n)).typeName = some "Pages" := hty
          rw [Dict.typeName_set_ne _ _ _ (by decide)] at hty2
          have hyty : y.2.type_name = some "Pages" := by
            rw [← type_name_renObj (renumMap (poolKeys
              (preRenumberDoc (accumOf docs) (classifyOf docs) po co).objects) 1) y.2,
              hren]
            exact hty2
          obtain ⟨D, hD, hyeq⟩ :=
            mem_buildFinalPool_pages_typed docs hv po co hpo hco y hy hyty
          have hy2 : y.2 =
              Object.dictionary (pagesFinalDict (accumOf docs).documents_pages D) := by
            rw [hyeq]
          have hdd : dd = renDict (renumMap (poolKeys
              (preRenumberDoc (accumOf docs) (classifyOf docs) po co).objects) 1)
              (pagesFinalDict (accumOf docs).documents_pages D) := by
            have hx : renObj (renumMap (poolKeys
                (preRenumberDoc (accumOf docs) (classifyOf docs) po co).objects) 1) y.2 =
                Object.dictionary (renDict (renumMap (poolKeys
                  (preRenumberDoc (accumOf docs) (classifyOf docs) po co).objects) 1)
                  (pagesFinalDict (accumOf docs).documents_pages D)) := by
              rw [hy2]
              rfl
            rw [hren] at hx
            injection hx
          refine ⟨dd.set "Outlines" (.reference n), hkv2, ?_, ?_⟩
          · rw [Dict.get_set_ne _ _ _ _ (by decide), hdd,
              (pagesFinal_ren_values _ _ _).1, hlen, hintmod]
          · have hgk : (dd.set "Outlines" (.reference n)).get "Kids" =
                some (.array (ObjList.ofList
                  (((accumOf docs).documents_pages.map (fun kv2 =>
                    renumMap (poolKeys
                      (preRenumberDoc (accumOf docs) (classifyOf docs) po co).objects) 1
                      kv2.1)).map Object.reference))) := by
              rw [Dict.get_set_ne _ _ _ _ (by decide), hdd]
              exact (pagesFinal_ren_values _ _ _).2
            rw [hkv2, kidsIdList_of_get _ _ hgk, List.length_map, hlen]
        · rw [h] at hty
          exact absurd (Option.some.inj hty) (by decide)
        · rw [h] at hty
          exact absurd (Option.some.inj hty) (by decide)

/-- C5, witness: merging `exTwoPage` (two pages) before `exCatB` (one page),
the total page count is 3 and the unique surviving Pages object carries
`Count = 3` and a three-element `Kids` array. -/
theorem C5_witness :
    countType (mergedDoc (merge [(exTwoPage, "a.pdf"), (exCatB, "b.pdf")])).objects
      "Pages" = 1 ∧
    (accumOf [(exTwoPage, "a.pdf"), (exCatB, "b.pdf")]).documents_pages.length =
      totalPageCount [(exTwoPage, "a.pdf"), (exCatB, "b.pdf")] ∧
    ∀ kv ∈ (mergedDoc (merge [(exTwoPage, "a.pdf"), (exCatB, "b.pdf")])).objects,
      kv.2.type_name = some "Pages" →
      ∃ dd : Dict, kv.2 = .dictionary dd ∧
        dd.get "Count" =
          some (.integer (totalPageCount [(exTwoPage, "a.pdf"), (exCatB, "b.pdf")])) ∧
        (kidsIdList kv.2).length =
          totalPageCount [(exTwoPage, "a.pdf"), (exCatB, "b.pdf")] :=
  C5_pages_count_invariant [(exTwoPage, "a.pdf"), (exCatB, "b.pdf")] (by decide)
    (mergedDoc (merge [(exTwoPage, "a.pdf"), (exCatB, "b.pdf")])) rfl (by decide)

/-! ### Reference tracking through the post passes -/

theorem poolRefs_cons (kv : Nat × Object) (l : Pool) :
    poolRefs (kv :: l) = objRefs kv.2 ++ poolRefs l := rfl

theorem poolKeys_cons (kv : Nat × Object) (l : Pool) :
    poolKeys (kv :: l) = kv.1 :: poolKeys l := rfl

theorem poolRefs_append (p q : Pool) :
    poolRefs (p ++ q) = poolRefs p ++ poolRefs q := by
  simp [poolRefs]

theorem poolKeys_append (p q : Pool) :
    poolKeys (p ++ q) = poolKeys p ++ poolKeys q := by
  simp [poolKeys]

theorem poolRefs_renumbered (p : Pool) (m : Nat → Nat) :
    poolRefs (p.map (fun kv => (m kv.1, renObj m kv.2))) = (poolRefs p).map m := by
  induction p with
  | nil => rfl
  | cons kv t ih =>
    simp only [List.map_cons, poolRefs, List.flatten_cons] at ih ⊢
    rw [objRefs_renObj, ih, List.map_append]

theorem outlineRoot_refs (a b : Nat) (c : Int) :
    objRefs (.dictionary (Dict.ofList
      [("Type", .name "Outlines"), ("First", .reference a), ("Last", .reference b),
       ("Count", .integer c)])) = [a, b] := rfl

theorem postPasses_refs_resolve (d : Document) (catalogId : Nat)
    (hres : ∀ r ∈ poolRefs d.objects, r ∈ poolKeys d.objects)
    (hbm : ∀ b ∈ d.bookmarks, b.page ∈ poolKeys d.objects) :
    ∀ r ∈ poolRefs (postPasses d catalogId).objects,
      r ∈ poolKeys (postPasses d catalogId).objects := by
  have hkeys1 : poolKeys d.renumber_objects.objects =
      (poolKeys d.objects).map (renumMap (poolKeys d.objects) 1) := renumber_poolKeys d 1
  have hrefs1 : poolRefs d.renumber_objects.objects =
      (poolRefs d.objects).map (renumMap (poolKeys d.objects) 1) := by
    rw [Document.renumber_objects, renumber_objects]
    exact poolRefs_renumbered _ _
  have hres2 : ∀ r ∈ poolRefs d.renumber_objects.adjust_zero_pages.objects,
      r ∈ poolKeys d.renumber_objects.adjust_zero_pages.objects := by
    intro r hr
    rw [adjust_zero_pages_objects] at hr ⊢
    rw [hrefs1] at hr
    obtain ⟨r0, hr0, rfl⟩ := List.mem_map.mp hr
    rw [hkeys1]
    exact List.mem_map_of_mem _ (hres r0 hr0)
  have hbm2 : ∀ b ∈ d.renumber_objects.adjust_zero_pages.bookmarks,
      b.page ∈ poolKeys d.renumber_objects.adjust_zero_pages.objects := by
    intro b hb
    rw [adjust_zero_pages_objects]
    have hb2 : b ∈ (d.renumber_objects.bookmarks).map (fun b0 =>
        if b0.page = 0 then
          { b0 with page := (firstPageId d.renumber_objects.objects).getD 0 }
        else b0) := hb
    obtain ⟨b1, hb1, rfl⟩ := List.mem_map.mp hb2
    have hb3 : b1 ∈ d.bookmarks.map (fun b0 =>
        { b0 with page := renumMap (poolKeys d.objects) 1 b0.page }) := hb1
    obtain ⟨b0, hb0, rfl⟩ := List.mem_map.mp hb3
    have hmem := hbm b0 hb0
    have hge : 1 ≤ renumMap (poolKeys d.objects) 1 b0.page :=
      renumMap_lower _ 1 _ hmem
    have hne : ¬({ b0 with
        page := renumMap (poolKeys d.objects) 1 b0.page } : Bookmark).page = 0 := by
      show ¬renumMap (poolKeys d.objects) 1 b0.page = 0
      omega
    rw [if_neg hne]
    show renumMap (poolKeys d.objects) 1 b0.page ∈ poolKeys d.renumber_objects.objects
    rw [hkeys1]
    exact List.mem_map_of_mem _ hmem
  have hbound : ∀ k ∈ poolKeys d.renumber_objects.adjust_zero_pages.objects,
      k ≤ d.renumber_objects.adjust_zero_pages.max_id := by
    intro k hk
    rw [adjust_zero_pages_objects] at hk
    have h1 := renumber_keys_bounds d 1 k hk
    have h2 : d.renumber_objects.max_id = 1 + d.objects.length - 1 := renumber_max_id d 1
    rw [adjust_zero_pages_max_id, h2]
    omega
  rcases hbo : d.renumber_objects.adjust_zero_pages.build_outline with ⟨optn, d3⟩
  have h32 : (d.renumber_objects.adjust_zero_pages.build_outline).2 = d3 := by rw [hbo]
  have hd3 : (optn = none ∧
      d3.objects = d.renumber_objects.adjust_zero_pages.objects) ∨
      (∃ b0 bs, d.renumber_objects.adjust_zero_pages.bookmarks = b0 :: bs ∧
        optn = some (d.renumber_objects.adjust_zero_pages.max_id + 1) ∧
        d3.objects = d.renumber_objects.adjust_zero_pages.objects ++
          ((d.renumber_objects.adjust_zero_pages.max_id + 1, .dictionary (Dict.ofList
            [("Type", .name "Outlines"),
             ("First", .reference (d.renumber_objects.adjust_zero_pages.max_id + 1 + 1)),
             ("Last", .reference (d.renumber_objects.adjust_zero_pages.max_id + 1 +
               d.renumber_objects.adjust_zero_pages.bookmarks.length)),
             ("Count",
               .integer d.renumber_objects.adjust_zero_pages.bookmarks.length)])) ::
           outlineItems (d.renumber_objects.adjust_zero_pages.max_id + 1)
             (d.renumber_objects.adjust_zero_pages.max_id + 1 + 1)
             d.renumber_objects.adjust_zero_pages.bookmarks)) := by
    cases hbm0 : d.renumber_objects.adjust_zero_pages.bookmarks with
    | nil =>
      rw [build_outline_nil _ hbm0] at hbo
      injection hbo with h1 h2
      exact Or.inl ⟨h1.symm, by rw [← h2]⟩
    | cons b0 bs =>
      have happ := build_outline_objects_append _ hbound b0 bs hbm0
      rw [h32, hbm0] at happ
      have h1 : optn = some (d.renumber_objects.adjust_zero_pages.max_id + 1) := by
        rw [build_outline_cons _ b0 bs hbm0] at hbo
        injection hbo with h1 _
        exact h1.symm
      exact Or.inr ⟨b0, bs, rfl, h1, happ⟩
  have hres3 : ∀ r ∈ poolRefs d3.objects, r ∈ poolKeys d3.objects := by
    rcases hd3 with ⟨_, hobj⟩ | ⟨b0, bs, hbm0, _, hobj⟩
    · rw [hobj]
      exact hres2
    · rw [hobj]
      intro r hr
      rw [poolRefs_append] at hr
      rw [poolKeys_append]
      rcases List.mem_append.mp hr with h | h
      · exact List.mem_append_left _ (hres2 r h)
      · rw [poolRefs_cons] at h
        have hlen1 : 1 ≤ d.renumber_objects.adjust_zero_pages.bookmarks.length := by
          rw [hbm0]
          simp
        rcases List.mem_append.mp h with hroot | hitems
        · have hroot2 : r ∈ [d.renumber_objects.adjust_zero_pages.max_id + 1 + 1,
              d.renumber_objects.adjust_zero_pages.max_id + 1 +
                d.renumber_objects.adjust_zero_pages.bookmarks.length] := hroot
          refine List.mem_append_right _ ?_
          rw [poolKeys_cons]
          refine List.mem_cons_of_mem _ ?_
          rcases List.mem_cons.mp hroot2 with rfl | h2
          · exact outlineItems_key_mem _ _ _ _ (Nat.le_refl _) (by omega)
          · simp only [List.mem_singleton] at h2
            subst h2
            exact outlineItems_key_mem _ _ _ _ (by omega) (by omega)
        · rcases outlineItems_refs _ _ _ r hitems with h1 | ⟨b, hbmem, h3⟩ | h4
          · refine List.mem_append_right _ ?_
            rw [h1, poolKeys_cons]
            exact List.mem_cons.mpr (Or.inl rfl)
          · refine List.mem_append_left _ ?_
            rw [h3]
            exact hbm2 b hbmem
          · refine List.mem_append_right _ ?_
            rw [poolKeys_cons]
            refine List.mem_cons_of_mem _ ?_
            exact outlineItems_key_mem _ _ _ _ (by omega) (by omega)
  intro r hr
  simp only [postPasses, Document.compress, hbo] at hr ⊢
  cases optn with
  | none => exact hres3 r hr
  | some n =>
    have hn : n ∈ poolKeys d3.objects := by
      rcases hd3 with ⟨hnone, _⟩ | ⟨b0, bs, hbm0, hsome, hobj⟩
      · exact absurd hnone (by simp)
      · injection hsome with hn2
        rw [hobj, hn2, poolKeys_append, poolKeys_cons]
        exact List.mem_append_right _ (List.mem_cons.mpr (Or.inl rfl))
    cases hg : d3.get_object catalogId with
    | none =>
      simp only [hg] at hr ⊢
      exact hres3 r hr
    | some o =>
      cases o with
      | dictionary dict =>
        simp only [hg] at hr ⊢
        have hkeysup : ∀ k ∈ poolKeys d3.objects,
            k ∈ poolKeys (poolInsert d3.objects catalogId
              (.dictionary (dict.set "Outlines" (.reference n)))) :=
          fun k hk => (mem_poolKeys_insert _ _ _ _).mpr (Or.inr hk)
        rw [mem_poolRefs] at hr
        obtain ⟨kv, hkv, hrkv⟩ := hr
        rcases mem_poolInsert _ _ _ kv hkv with hke | hkm
        · have hrkv2 : r ∈ dictRefs (dict.set "Outlines" (.reference n)) := by
            rw [hke] at hrkv
            exact hrkv
          rcases dictRefs_set dict "Outlines" (.reference n) r hrkv2 with h | h
          · have h2 : r ∈ [n] := h
            simp only [List.mem_singleton] at h2
            rw [h2]
            exact hkeysup n hn
          · have hmem : (catalogId, Object.dictionary dict) ∈ d3.objects :=
              poolGet_mem _ _ _ hg
            have hrr : r ∈ poolRefs d3.objects := (mem_poolRefs _ _).mpr ⟨_, hmem, h⟩
            exact hkeysup r (hres3 r hrr)
        · exact hkeysup r (hres3 r ((mem_poolRefs _ _).mpr ⟨kv, hkm, hrkv⟩))
      | null => simp only [hg] at hr ⊢; exact hres3 r hr
      | boolean b => simp only [hg] at hr ⊢; exact hres3 r hr
      | integer i => simp only [hg] at hr ⊢; exact hres3 r hr
      | real x => simp only [hg] at hr ⊢; exact hres3 r hr
      | string s => simp only [hg] at hr ⊢; exact hres3 r hr
      | name s => simp only [hg] at hr ⊢; exact hres3 r hr
      | array xs => simp only [hg] at hr ⊢; exact hres3 r hr
      | stream sd => simp only [hg] at hr ⊢; exact hres3 r hr
      | reference r0 => simp only [hg] at hr ⊢; exact hres3 r hr

/-- C9, amended: the merge output can carry dangling references copied
verbatim into the `Other` pool (counterexample `C9_counterexample`); what does
hold is that the post passes themselves never introduce dangling references —
for every successful merge, if every Reference of the finalized
pre-renumbering pool resolves to a key of that pool and every accumulated
bookmark targets a key of that pool, then every Reference of the output pool
(including the rebuilt Kids, Parent links, catalog Pages/Outlines links and
the whole outline tree) resolves to a key of the output pool. -/
theorem C9_amended_no_dangling (docs : List (Document × String))
    (po co : Nat × Object) (out : Document)
    (hpo : (classifyOf docs).pages_object = some po)
    (hco : (classifyOf docs).catalog_object = some co)
    (hok : merge docs = .ok out)
    (hres : ∀ r ∈ poolRefs (buildFinalPool (accumOf docs) (classifyOf docs) po co),
      r ∈ poolKeys (buildFinalPool (accumOf docs) (classifyOf docs) po co))
    (hbmk : ∀ b ∈ (accumOf docs).document.bookmarks,
      b.page ∈ poolKeys (buildFinalPool (accumOf docs) (classifyOf docs) po co)) :
    ∀ r ∈ poolRefs out.objects, r ∈ poolKeys out.objects := by
  rw [merge_eq, hpo, hco] at hok
  injection hok with hout
  subst hout
  exact postPasses_refs_resolve
    (preRenumberDoc (accumOf docs) (classifyOf docs) po co) co.1 hres hbmk

/-- C9, witness: for the single two-page input `exTwoPage` the finalized pool
has no dangling reference and the bookmark target is present, so the theorem
applies; the reference to the Pages object (id 2) occurring in the output
resolves there. -/
theorem C9_witness :
    2 ∈ poolKeys (mergedDoc (merge [(exTwoPage, "a.pdf")])).objects :=
  C9_amended_no_dangling [(exTwoPage, "a.pdf")]
    (2, .dictionary (Dict.ofList
      [("Type", .name "Pages"),
       ("Kids", .array (ObjList.ofList [.reference 3, .reference 4])),
       ("Count", .integer 2)]))
    (1, .dictionary (Dict.ofList [("Type", .name "Catalog"), ("Pages", .reference 2)]))
    (mergedDoc (merge [(exTwoPage, "a.pdf")]))
    rfl rfl rfl (by decide) (by decide) 2 (by decide)

end PdfMerge
